import Mathlib

/-!
# Verification of a brainfuck compiler and virtual machine

A shallow embedding of the program in `src/main.rs`: the `compile` function
(token filtering, two-slot peephole optimizer, jump resolution) and the
`execute` dispatch loop, together with theorems checking the specified
properties.

Machine integers are modelled as `Int`/`Nat` with explicit reduction modulo
the word size: `i8` arithmetic wraps into `[-128, 127]` and `isize`/`usize`
arithmetic wraps modulo `2 ^ 64`, matching the two's-complement wrapping
behaviour of the compiled (release-mode) program.
-/

namespace BF

/-- Wrap an integer into the signed 8-bit range `[-128, 127]`, the
two's-complement behaviour of Rust `i8` arithmetic (`wrapping_add`, and
release-mode `+`). -/
def wrapI8 (v : Int) : Int := (v + 128) % 256 - 128

/-- Wrap an integer into the signed 64-bit range, the behaviour of `isize`
addition in the compiled program. -/
def wrapIsize (v : Int) : Int := (v + 2 ^ 63) % 2 ^ 64 - 2 ^ 63

/-- `((pos as isize) + val) as usize` from the `Move`/`SearchZeroCell`
dispatch arms: two's-complement addition reduced modulo `2 ^ 64`, read back
as an unsigned index. -/
def wrapPos (p : Nat) (v : Int) : Nat := (((p : Int) + v) % 2 ^ 64).toNat

/-- The `Ops` enum of the source: the compiled instruction set. -/
inductive Ops where
  | Move (v : Int)
  | Mod (v : Int)
  | LoopOpen (target : Nat)
  | LoopClose (target : Nat)
  | SetCell (v : Int)
  | SearchZeroCell (v : Int)
  | Print
  | Read
  | End
deriving DecidableEq, Repr

/-- The `filter_map` closure at the top of `compile`: maps each of the
eight command characters to its raw operation and drops everything else. -/
def token? (c : Char) : Option Ops :=
  if c = '<' then some (.Move (-1))
  else if c = '>' then some (.Move 1)
  else if c = '-' then some (.Mod (-1))
  else if c = '+' then some (.Mod 1)
  else if c = '.' then some .Print
  else if c = ',' then some .Read
  else if c = '[' then some (.LoopOpen 0)
  else if c = ']' then some (.LoopClose 0)
  else none

/-- The mutable state of the peephole-optimizer loop in `compile`:
two lookback slots and the output vector. -/
structure OptState where
  prepre : Option Ops
  pre : Option Ops
  compiled : List Ops
deriving DecidableEq, Repr

/-- The default match arm of the optimizer loop: flush `prepre` to the
output and shift the lookback window. -/
def optPush (st : OptState) (cur : Ops) : OptState :=
  { prepre := st.pre, pre := some cur, compiled := st.compiled ++ st.prepre.toList }

/-- One iteration of the optimizer loop in `compile`. The match arms are in
source order; the `Mod(-1)` and `SetCell(0)` literal patterns become guards
whose failure falls through to the default arm, exactly as in the source. -/
def optStep (st : OptState) (cur : Ops) : OptState :=
  match st.prepre, st.pre, cur with
  | _, some (.Move v1), .Move v2 =>
      { st with pre := some (.Move (wrapIsize (v1 + v2))) }
  | _, some (.Mod v1), .Mod v2 =>
      { st with pre := some (.Mod (wrapI8 (v1 + v2))) }
  | some (.LoopOpen _), some (.Mod v), .LoopClose _ =>
      if v = -1 then { st with prepre := none, pre := some (.SetCell 0) }
      else optPush st cur
  | some (.LoopOpen _), some (.Move n), .LoopClose _ =>
      { st with prepre := none, pre := some (.SearchZeroCell n) }
  | _, some (.SetCell v0), .Mod v =>
      if v0 = 0 then { st with pre := some (.SetCell v) }
      else optPush st cur
  | _, _, _ => optPush st cur

/-- The optimizer block of `compile`: fold the raw token stream through
`optStep` and flush the remaining lookback slots in order. -/
def optimizeRun (ts : List Ops) : List Ops :=
  let st := ts.foldl optStep ⟨none, none, []⟩
  st.compiled ++ st.prepre.toList ++ st.pre.toList

/-- The jump-resolution loop of `compile`: scan `l` from index `i` with a
stack of pending `LoopOpen` positions, rewriting both payloads of each
matched pair; once the scan is done, append the trailing `End` if the stack
is empty.  The `for i in 0..len` loop is driven by an explicit count of
remaining iterations (`l.length - i` at entry; `List.set` preserves length,
so the count stays in step with `i`), keeping the recursion structural; the
`none` fetch arm is unreachable while the count is accurate and repeats the
loop-exit code. -/
def resolveGo (l : List Ops) (i : Nat) (stack : List Nat) :
    Nat → Except String (List Ops)
  | 0 => if stack.isEmpty then .ok (l ++ [.End]) else .error "missing ] for ["
  | n + 1 =>
      match l[i]? with
      | some (.LoopOpen _) => resolveGo l (i + 1) (i :: stack) n
      | some (.LoopClose _) =>
          match stack with
          | start :: rest =>
              resolveGo ((l.set start (.LoopOpen i)).set i (.LoopClose start))
                (i + 1) rest n
          | [] => .error "missing [ for ]"
      | some _ => resolveGo l (i + 1) stack n
      | none =>
          if stack.isEmpty then .ok (l ++ [.End]) else .error "missing ] for ["

/-- The jump-resolution pass, entered at index `i` with the given pending
stack. -/
def resolveFrom (l : List Ops) (i : Nat) (stack : List Nat) :
    Except String (List Ops) :=
  resolveGo l i stack (l.length - i)

/-- The `compile` function: filter, peephole-optimize, resolve jumps,
append `End`. -/
def compile (source : List Char) : Except String (List Ops) :=
  resolveFrom (optimizeRun (source.filterMap token?)) 0 []

/-- Modelled from the spec: the naive, unoptimized one-token-per-operation
translation of a source text (the comparison point of the optimizer
transparency property): raw tokens with jump targets resolved and a
trailing `End`, with no peephole pass. -/
def naiveCompile (source : List Char) : Except String (List Ops) :=
  resolveFrom (source.filterMap token?) 0 []

/-! ## The virtual machine -/

/-- Tape length: `vec![0i8; 30000]`. -/
def memSize : Nat := 30000

/-- The execution state of `execute`: the tape, the data pointer, the
instruction pointer, and the I/O channel modelled as the list of characters
its `read` will still supply (every channel in the source supplies none)
plus the bytes written so far. -/
structure VMState where
  memory : List Int
  pos : Nat
  ip : Nat
  inputs : List Char
  output : List Nat
deriving DecidableEq, Repr

/-- The current cell, `memory[pos]`, defaulting to 0 out of range (the
in-range case is the only one the theorems use). -/
def VMState.cell (s : VMState) : Int := s.memory.getD s.pos 0

/-- `memory[pos] as u8`: the byte value passed to the I/O channel's
`write`. -/
def toByte (v : Int) : Nat := (v % 256).toNat

/-- `ch as i8` for the character delivered by `read`. -/
def charToI8 (c : Char) : Int := wrapI8 c.toNat

/-- Result of one dispatch step: continue, halt at `End`, or a fatal
runtime condition (out-of-range index or `read().unwrap()` on no input). -/
inductive StepRes where
  | next (s : VMState)
  | halted (s : VMState)
  | fault (s : VMState)
deriving DecidableEq, Repr

/-- One iteration of the dispatch loop of `execute` (the inner `while` of
`SearchZeroCell` is unrolled one test-and-move per step, leaving `ip`
unchanged until the zero cell is found). The trailing `ip += 1` of the
source loop is folded into each arm. -/
def step (ops : List Ops) (s : VMState) : StepRes :=
  match ops[s.ip]? with
  | none => .fault s
  | some op =>
    match op with
    | .Move v => .next { s with pos := wrapPos s.pos v, ip := s.ip + 1 }
    | .Mod v =>
        if h : s.pos < s.memory.length then
          .next { s with memory := s.memory.set s.pos (wrapI8 (s.memory[s.pos] + v)),
                         ip := s.ip + 1 }
        else .fault s
    | .LoopOpen e =>
        if h : s.pos < s.memory.length then
          .next { s with ip := (if s.memory[s.pos] = 0 then e else s.ip) + 1 }
        else .fault s
    | .LoopClose start =>
        if h : s.pos < s.memory.length then
          .next { s with ip := (if s.memory[s.pos] ≠ 0 then start else s.ip) + 1 }
        else .fault s
    | .SetCell v =>
        if h : s.pos < s.memory.length then
          .next { s with memory := s.memory.set s.pos v, ip := s.ip + 1 }
        else .fault s
    | .SearchZeroCell v =>
        if h : s.pos < s.memory.length then
          if s.memory[s.pos] = 0 then .next { s with ip := s.ip + 1 }
          else .next { s with pos := wrapPos s.pos v }
        else .fault s
    | .Print =>
        if h : s.pos < s.memory.length then
          .next { s with output := s.output ++ [toByte s.memory[s.pos]],
                         ip := s.ip + 1 }
        else .fault s
    | .Read =>
        match s.inputs with
        | [] => .fault s
        | c :: rest =>
            if h : s.pos < s.memory.length then
              .next { s with memory := s.memory.set s.pos (charToI8 c),
                             inputs := rest, ip := s.ip + 1 }
            else .fault { s with inputs := rest }
    | .End => .halted s

/-- Result of running the dispatch loop for a bounded number of steps. -/
inductive RunRes where
  | halted (s : VMState)
  | fault (s : VMState)
  | timeout (s : VMState)
deriving DecidableEq, Repr

/-- Run the dispatch loop for at most `fuel` steps. -/
def run (ops : List Ops) (s : VMState) : Nat → RunRes
  | 0 => .timeout s
  | fuel + 1 =>
      match step ops s with
      | .next s' => run ops s' fuel
      | .halted s' => .halted s'
      | .fault s' => .fault s'

/-- The initial state built by `execute`: a zeroed tape, both pointers at
0, the given input stream, no output yet. -/
def initState (inputs : List Char) : VMState :=
  { memory := List.replicate memSize 0, pos := 0, ip := 0,
    inputs := inputs, output := [] }

/-! ## Single-step characterizations of the dispatch loop -/

theorem run_succ (ops : List Ops) (s : VMState) (fuel : Nat) :
    run ops s (fuel + 1) =
      match step ops s with
      | .next s' => run ops s' fuel
      | .halted s' => .halted s'
      | .fault s' => .fault s' := rfl

theorem step_Move_eq (ops : List Ops) (s : VMState) (v : Int)
    (hop : ops[s.ip]? = some (.Move v)) :
    step ops s = .next { s with pos := wrapPos s.pos v, ip := s.ip + 1 } := by
  unfold step; rw [hop]

theorem step_Mod_eq (ops : List Ops) (s : VMState) (v : Int)
    (hop : ops[s.ip]? = some (.Mod v)) (hpos : s.pos < s.memory.length) :
    step ops s =
      .next { s with memory := s.memory.set s.pos (wrapI8 (s.memory[s.pos] + v)),
                     ip := s.ip + 1 } := by
  unfold step; rw [hop]; simp [hpos]

theorem step_SetCell_eq (ops : List Ops) (s : VMState) (v : Int)
    (hop : ops[s.ip]? = some (.SetCell v)) (hpos : s.pos < s.memory.length) :
    step ops s = .next { s with memory := s.memory.set s.pos v, ip := s.ip + 1 } := by
  unfold step; rw [hop]; simp [hpos]

theorem step_End_eq (ops : List Ops) (s : VMState)
    (hop : ops[s.ip]? = some .End) : step ops s = .halted s := by
  unfold step; rw [hop]

theorem step_fetch_none (ops : List Ops) (s : VMState)
    (hop : ops[s.ip]? = none) : step ops s = .fault s := by
  unfold step; rw [hop]

theorem step_Mod_oob (ops : List Ops) (s : VMState) (v : Int)
    (hop : ops[s.ip]? = some (.Mod v)) (hpos : ¬ s.pos < s.memory.length) :
    step ops s = .fault s := by
  unfold step; rw [hop]; simp [hpos]

theorem step_LoopOpen_eq (ops : List Ops) (s : VMState) (e : Nat)
    (hop : ops[s.ip]? = some (.LoopOpen e)) (hpos : s.pos < s.memory.length) :
    step ops s = .next { s with ip := (if s.memory[s.pos] = 0 then e else s.ip) + 1 } := by
  unfold step; rw [hop]; simp [hpos]

theorem step_LoopOpen_oob (ops : List Ops) (s : VMState) (e : Nat)
    (hop : ops[s.ip]? = some (.LoopOpen e)) (hpos : ¬ s.pos < s.memory.length) :
    step ops s = .fault s := by
  unfold step; rw [hop]; simp [hpos]

theorem step_LoopClose_eq (ops : List Ops) (s : VMState) (a : Nat)
    (hop : ops[s.ip]? = some (.LoopClose a)) (hpos : s.pos < s.memory.length) :
    step ops s = .next { s with ip := (if s.memory[s.pos] ≠ 0 then a else s.ip) + 1 } := by
  unfold step; rw [hop]; simp only [dif_pos hpos]

theorem step_LoopClose_oob (ops : List Ops) (s : VMState) (a : Nat)
    (hop : ops[s.ip]? = some (.LoopClose a)) (hpos : ¬ s.pos < s.memory.length) :
    step ops s = .fault s := by
  unfold step; rw [hop]; simp [hpos]

theorem step_SetCell_oob (ops : List Ops) (s : VMState) (v : Int)
    (hop : ops[s.ip]? = some (.SetCell v)) (hpos : ¬ s.pos < s.memory.length) :
    step ops s = .fault s := by
  unfold step; rw [hop]; simp [hpos]

theorem step_Search_zero (ops : List Ops) (s : VMState) (v : Int)
    (hop : ops[s.ip]? = some (.SearchZeroCell v)) (hpos : s.pos < s.memory.length)
    (hc : s.memory[s.pos] = 0) : step ops s = .next { s with ip := s.ip + 1 } := by
  unfold step; rw [hop]; simp [hpos, hc]

theorem step_Search_nonzero (ops : List Ops) (s : VMState) (v : Int)
    (hop : ops[s.ip]? = some (.SearchZeroCell v)) (hpos : s.pos < s.memory.length)
    (hc : s.memory[s.pos] ≠ 0) :
    step ops s = .next { s with pos := wrapPos s.pos v } := by
  unfold step; rw [hop]; simp [hpos, hc]

theorem step_Search_oob (ops : List Ops) (s : VMState) (v : Int)
    (hop : ops[s.ip]? = some (.SearchZeroCell v)) (hpos : ¬ s.pos < s.memory.length) :
    step ops s = .fault s := by
  unfold step; rw [hop]; simp [hpos]

theorem step_Print_eq (ops : List Ops) (s : VMState)
    (hop : ops[s.ip]? = some .Print) (hpos : s.pos < s.memory.length) :
    step ops s =
      .next { s with output := s.output ++ [toByte s.memory[s.pos]], ip := s.ip + 1 } := by
  unfold step; rw [hop]; simp [hpos]

theorem step_Print_oob (ops : List Ops) (s : VMState)
    (hop : ops[s.ip]? = some .Print) (hpos : ¬ s.pos < s.memory.length) :
    step ops s = .fault s := by
  unfold step; rw [hop]; simp [hpos]

theorem step_Read_nil (ops : List Ops) (s : VMState)
    (hop : ops[s.ip]? = some .Read) (hin : s.inputs = []) :
    step ops s = .fault s := by
  unfold step; rw [hop, hin]

theorem step_Read_cons (ops : List Ops) (s : VMState) (c : Char) (rest : List Char)
    (hop : ops[s.ip]? = some .Read) (hin : s.inputs = c :: rest)
    (hpos : s.pos < s.memory.length) :
    step ops s = .next { s with memory := s.memory.set s.pos (charToI8 c),
                                inputs := rest, ip := s.ip + 1 } := by
  unfold step; rw [hop, hin]; simp [hpos]

theorem step_Read_cons_oob (ops : List Ops) (s : VMState) (c : Char) (rest : List Char)
    (hop : ops[s.ip]? = some .Read) (hin : s.inputs = c :: rest)
    (hpos : ¬ s.pos < s.memory.length) :
    step ops s = .fault { s with inputs := rest } := by
  unfold step; rw [hop, hin]; simp [hpos]

/-! ## The three I/O channel implementations of the reference

All three (`DummyInputOutput`, `StringInputOutput`, `ConsoleInputOutput`)
implement `read` as an unconditional `None`. -/

/-- `DummyInputOutput::read`. -/
def dummyReadResult : Option Char := none

/-- `StringInputOutput::read`. -/
def stringReadResult : Option Char := none

/-- `ConsoleInputOutput::read`. -/
def consoleReadResult : Option Char := none

/-! ## Arithmetic helper lemmas -/

theorem wrapI8_emod (v : Int) : wrapI8 v % 256 = v % 256 := by
  unfold wrapI8; omega

theorem wrapI8_add_left (a b : Int) : wrapI8 (wrapI8 a + b) = wrapI8 (a + b) := by
  unfold wrapI8; omega

theorem wrapI8_add_right (a b : Int) : wrapI8 (a + wrapI8 b) = wrapI8 (a + b) := by
  unfold wrapI8; omega

theorem wrapI8_lb (v : Int) : -128 ≤ wrapI8 v := by
  unfold wrapI8; omega

theorem wrapI8_ub (v : Int) : wrapI8 v ≤ 127 := by
  unfold wrapI8; omega

theorem wrapI8_eq_self (v : Int) (h1 : -128 ≤ v) (h2 : v ≤ 127) : wrapI8 v = v := by
  unfold wrapI8; omega

theorem set_zero_replicate (n : Nat) :
    (List.replicate n (0 : Int)).set 0 0 = List.replicate n 0 := by
  cases n <;> simp

/-- A bracket abstraction of operations: `some true` for `LoopOpen`,
`some false` for `LoopClose`, `none` otherwise. -/
def brk : Ops → Option Bool
  | .LoopOpen _ => some true
  | .LoopClose _ => some false
  | _ => none

theorem resolveGo_zero (l : List Ops) (i : Nat) (stack : List Nat) :
    resolveGo l i stack 0 =
      if stack.isEmpty then .ok (l ++ [.End]) else .error "missing ] for [" := rfl

theorem resolveGo_succ (l : List Ops) (i : Nat) (stack : List Nat) (n : Nat) :
    resolveGo l i stack (n + 1) =
      match l[i]? with
      | some (.LoopOpen _) => resolveGo l (i + 1) (i :: stack) n
      | some (.LoopClose _) =>
          match stack with
          | start :: rest =>
              resolveGo ((l.set start (.LoopOpen i)).set i (.LoopClose start))
                (i + 1) rest n
          | [] => .error "missing [ for ]"
      | some _ => resolveGo l (i + 1) stack n
      | none =>
          if stack.isEmpty then .ok (l ++ [.End]) else .error "missing ] for [" := rfl

theorem lt_of_getElem?_some {α : Type} {l : List α} {i : Nat} {a : α}
    (h : l[i]? = some a) : i < l.length := by
  by_contra hc
  rw [List.getElem?_eq_none (by omega)] at h
  exact Option.noConfusion h

theorem resolveGo_succ_open {l : List Ops} {i p : Nat} (stack : List Nat) (n : Nat)
    (h : l[i]? = some (.LoopOpen p)) :
    resolveGo l i stack (n + 1) = resolveGo l (i + 1) (i :: stack) n := by
  rw [resolveGo_succ, h]

theorem resolveGo_succ_close_cons {l : List Ops} {i a : Nat} (start : Nat)
    (rest : List Nat) (n : Nat) (h : l[i]? = some (.LoopClose a)) :
    resolveGo l i (start :: rest) (n + 1) =
      resolveGo ((l.set start (.LoopOpen i)).set i (.LoopClose start)) (i + 1) rest n := by
  rw [resolveGo_succ, h]

theorem resolveGo_succ_close_nil {l : List Ops} {i a : Nat} (n : Nat)
    (h : l[i]? = some (.LoopClose a)) :
    resolveGo l i [] (n + 1) = .error "missing [ for ]" := by
  rw [resolveGo_succ, h]

theorem resolveGo_succ_other {l : List Ops} {i : Nat} {op : Ops} (stack : List Nat)
    (n : Nat) (h : l[i]? = some op) (h1 : ∀ p, op ≠ .LoopOpen p)
    (h2 : ∀ p, op ≠ .LoopClose p) :
    resolveGo l i stack (n + 1) = resolveGo l (i + 1) stack n := by
  rw [resolveGo_succ, h]
  cases op
  case LoopOpen p => exact absurd rfl (h1 p)
  case LoopClose p => exact absurd rfl (h2 p)
  all_goals rfl

/-- Jump resolution over a bracket-free list touches nothing and appends
`End`. -/
theorem resolveGo_no_brackets (n : Nat) :
    ∀ (l : List Ops) (i : Nat), (∀ op ∈ l, brk op = none) →
      resolveGo l i [] n = .ok (l ++ [.End]) := by
  induction n with
  | zero => intro l i _; simp [resolveGo_zero]
  | succ n ih =>
      intro l i hl
      rw [resolveGo_succ]
      match hfetch : l[i]? with
      | none => simp
      | some op =>
          have hmem : op ∈ l := List.getElem?_mem hfetch
          have := hl op hmem
          cases op <;> simp_all [brk, ih l (i + 1) hl]

/-! ## Claim C6 -/

/-- C6: cell arithmetic during execution wraps at the 8-bit boundary and
never traps: executing `Mod v` (in range, at any tape position, from any
starting cell value) steps normally and stores the wrapped sum; in
particular `Mod 1` on a cell holding 127 stores -128 and `Mod (-1)` on a
cell holding 0 stores -1. -/
theorem C6_cell_arithmetic_wraps (ops : List Ops) (s : VMState) (v : Int)
    (hop : ops[s.ip]? = some (.Mod v)) (hpos : s.pos < s.memory.length) :
    step ops s =
      .next { s with memory := s.memory.set s.pos (wrapI8 (s.memory[s.pos] + v)),
                     ip := s.ip + 1 } ∧
    (s.memory[s.pos] = 127 → v = 1 →
      s.memory.set s.pos (wrapI8 (s.memory[s.pos] + v)) = s.memory.set s.pos (-128)) ∧
    (s.memory[s.pos] = 0 → v = -1 →
      s.memory.set s.pos (wrapI8 (s.memory[s.pos] + v)) = s.memory.set s.pos (-1)) := by
  refine ⟨?_, ?_, ?_⟩
  · unfold step; rw [hop]; simp [hpos]
  · intro h1 h2; rw [h1, h2]; norm_num [wrapI8]
  · intro h1 h2; rw [h1, h2]; norm_num [wrapI8]

/-- Witness for C6 at a concrete input. -/
theorem C6_witness :
    step [Ops.Mod 1] ⟨[127], 0, 0, [], []⟩ = .next ⟨[-128], 0, 1, [], []⟩ :=
  ((C6_cell_arithmetic_wraps [Ops.Mod 1] ⟨[127], 0, 0, [], []⟩ 1 rfl
    (by decide)).1).trans (by decide)

/-! ## Claim C7 -/

/-- C7: `LoopOpen e` with a zero current cell continues at `e + 1`
(skipping the body and the matching `LoopClose`), with a nonzero cell it
falls through to `ip + 1`; `LoopClose a` with a nonzero cell continues at
`a + 1`, with a zero cell it falls through; in all four cases the tape,
the data pointer, the input stream and the output are unchanged. -/
theorem C7_loop_dispatch (ops : List Ops) (s : VMState) (e a : Nat)
    (hpos : s.pos < s.memory.length) :
    (ops[s.ip]? = some (.LoopOpen e) → s.memory[s.pos] = 0 →
        step ops s = .next { s with ip := e + 1 }) ∧
    (ops[s.ip]? = some (.LoopOpen e) → s.memory[s.pos] ≠ 0 →
        step ops s = .next { s with ip := s.ip + 1 }) ∧
    (ops[s.ip]? = some (.LoopClose a) → s.memory[s.pos] ≠ 0 →
        step ops s = .next { s with ip := a + 1 }) ∧
    (ops[s.ip]? = some (.LoopClose a) → s.memory[s.pos] = 0 →
        step ops s = .next { s with ip := s.ip + 1 }) := by
  refine ⟨?_, ?_, ?_, ?_⟩ <;> intro hop hc <;>
    · unfold step; rw [hop]; simp [hpos, hc]

/-- Witness for C7 at a concrete input. -/
theorem C7_witness :
    step [Ops.LoopOpen 5] ⟨[0], 0, 0, [], []⟩ = .next ⟨[0], 0, 6, [], []⟩ :=
  ((C7_loop_dispatch [Ops.LoopOpen 5] ⟨[0], 0, 0, [], []⟩ 5 0
    (by decide)).1 rfl rfl).trans (by decide)

/-! ## Claim C9 -/

/-- C9: executing `Read` when the I/O channel yields nothing is a fatal
runtime condition: the step faults with the state unchanged (so the cell is
not set to any end-of-stream substitute and the output already emitted
stands), the run ends in that fault rather than continuing, and every I/O
channel implementation of the reference indeed yields nothing. -/
theorem C9_read_no_input_fatal (ops : List Ops) (s : VMState) (fuel : Nat)
    (hop : ops[s.ip]? = some .Read) (hin : s.inputs = []) :
    step ops s = .fault s ∧ run ops s (fuel + 1) = .fault s ∧
    dummyReadResult = none ∧ stringReadResult = none ∧
    consoleReadResult = none := by
  have hstep : step ops s = .fault s := by
    unfold step; rw [hop, hin]
  exact ⟨hstep, by simp [run, hstep], rfl, rfl, rfl⟩

/-- Witness for C9 at a concrete input. -/
theorem C9_witness :
    run [Ops.Read, Ops.End] (initState []) 1 = .fault (initState []) :=
  (C9_read_no_input_fatal [Ops.Read, Ops.End] (initState []) 0 rfl rfl).2.1

/-! ## Claim C5 (corrected) -/

/-- C5 counterexample: compiling the source `+-` emits a `Mod` operation
with payload 0 (the zero-net merge is not elided), refuting the claim that
no `Mod 0` ever appears and that `+-` compiles to no `Mod` at all. -/
theorem C5_counterexample :
    compile ['+', '-'] = .ok [Ops.Mod 0, Ops.End] ∧
      Ops.Mod 0 ∈ [Ops.Mod 0, Ops.End] := ⟨rfl, by decide⟩

/-- C5 amended: adjacent same-kind operations merge by summing payloads,
but a zero net effect is emitted as a zero-payload operation rather than
elided: `+-` compiles to exactly `[Mod 0, End]` and `<>` to exactly
`[Move 0, End]`. -/
theorem C5_amended :
    compile ['+', '-'] = .ok [Ops.Mod 0, Ops.End] ∧
      compile ['<', '>'] = .ok [Ops.Move 0, Ops.End] := ⟨rfl, rfl⟩

/-! ## Claim C4 -/

theorem wrapI8_idem (v : Int) : wrapI8 (wrapI8 v) = wrapI8 v := by
  unfold wrapI8; omega

theorem filterMap_replicate_some {α β : Type} (f : α → Option β) (c : α) (x : β)
    (h : f c = some x) (k : Nat) :
    (List.replicate k c).filterMap f = List.replicate k x := by
  induction k with
  | zero => rfl
  | succ k ih => simp [List.replicate_succ, List.filterMap_cons, h, ih]

/-- Folding a run of identical `Mod d` tokens onto a pending wrapped `Mod j`
keeps merging: the pending slot accumulates the wrapped sum. -/
theorem foldl_optStep_mod (d : Int) (c : List Ops) :
    ∀ (m : Nat) (j : Int), wrapI8 j = j →
      List.foldl optStep ⟨none, some (.Mod j), c⟩ (List.replicate m (Ops.Mod d)) =
        ⟨none, some (.Mod (wrapI8 (j + m * d))), c⟩ := by
  intro m
  induction m with
  | zero =>
      intro j hj
      have harith : j + ((0 : Nat) : Int) * d = j := by push_cast; ring
      rw [List.replicate_zero, List.foldl_nil, harith, hj]
  | succ m ih =>
      intro j hj
      rw [List.replicate_succ, List.foldl_cons]
      have hstep : optStep ⟨none, some (.Mod j), c⟩ (Ops.Mod d) =
          ⟨none, some (.Mod (wrapI8 (j + d))), c⟩ := rfl
      rw [hstep, ih (wrapI8 (j + d)) (wrapI8_idem _), wrapI8_add_left]
      have harith : j + d + (m : Int) * d = j + (((m + 1 : Nat)) : Int) * d := by
        push_cast; ring
      rw [harith]

theorem brk_mod (w : Int) : ∀ op ∈ [Ops.Mod w], brk op = none := by
  intro op hop
  simp at hop
  subst hop
  rfl

/-- C4: a run of `k ≥ 1` consecutive `+` (resp. `-`) tokens compiles
successfully to a single `Mod` whose payload is the wrapped (two's
complement, mod-256) sum of the deltas; the merge wraps instead of
trapping, and the payload is congruent to the arithmetic sum modulo 256. -/
theorem C4_merge_wraps (k : Nat) (hk : 1 ≤ k) :
    compile (List.replicate k '+') = .ok [Ops.Mod (wrapI8 (k : Int)), Ops.End] ∧
    compile (List.replicate k '-') = .ok [Ops.Mod (wrapI8 (-(k : Int))), Ops.End] ∧
    wrapI8 (k : Int) % 256 = (k : Int) % 256 ∧
    wrapI8 (-(k : Int)) % 256 = (-(k : Int)) % 256 := by
  obtain ⟨k', rfl⟩ : ∃ k', k = k' + 1 := ⟨k - 1, by omega⟩
  refine ⟨?_, ?_, wrapI8_emod _, wrapI8_emod _⟩
  · have htok : (List.replicate (k' + 1) '+').filterMap token? =
        List.replicate (k' + 1) (Ops.Mod 1) :=
      filterMap_replicate_some token? '+' (Ops.Mod 1) rfl (k' + 1)
    have hopt : optimizeRun (List.replicate (k' + 1) (Ops.Mod 1)) =
        [Ops.Mod (wrapI8 ((k' : Int) + 1))] := by
      unfold optimizeRun
      rw [List.replicate_succ, List.foldl_cons]
      have h0 : optStep ⟨none, none, []⟩ (Ops.Mod 1) = ⟨none, some (.Mod 1), []⟩ := rfl
      rw [h0, foldl_optStep_mod 1 [] k' 1 (by decide)]
      simp
      rw [add_comm]
    unfold compile
    rw [htok, hopt]
    unfold resolveFrom
    rw [resolveGo_no_brackets _ _ _ (brk_mod _)]
    push_cast
    simp
  · have htok : (List.replicate (k' + 1) '-').filterMap token? =
        List.replicate (k' + 1) (Ops.Mod (-1)) :=
      filterMap_replicate_some token? '-' (Ops.Mod (-1)) rfl (k' + 1)
    have hopt : optimizeRun (List.replicate (k' + 1) (Ops.Mod (-1))) =
        [Ops.Mod (wrapI8 (-((k' : Int) + 1)))] := by
      unfold optimizeRun
      rw [List.replicate_succ, List.foldl_cons]
      have h0 : optStep ⟨none, none, []⟩ (Ops.Mod (-1)) =
          ⟨none, some (.Mod (-1)), []⟩ := rfl
      rw [h0, foldl_optStep_mod (-1) [] k' (-1) (by decide)]
      simp
    unfold compile
    rw [htok, hopt]
    unfold resolveFrom
    rw [resolveGo_no_brackets _ _ _ (brk_mod _)]
    push_cast
    simp

/-- Witness for C4: 128 consecutive `+` compile to `Mod (-128)`. -/
theorem C4_witness :
    compile (List.replicate 128 '+') = .ok [Ops.Mod (-128), Ops.End] := by
  have h := (C4_merge_wraps 128 (by norm_num)).1
  rw [h, show wrapI8 ((128 : Nat) : Int) = -128 from by decide]

/-! ## Claim C8 -/

/-- The VM state at the start of `execute`, with the current cell preloaded
to `v` (used to state properties "for every starting cell value"; `execute`
itself always starts from `cellState 0 = initState []`). -/
def cellState (v : Int) : VMState :=
  { memory := (List.replicate memSize 0).set 0 v, pos := 0, ip := 0,
    inputs := [], output := [] }

/-- Iterating one wrapped decrement `n` times lands on the wrapped value of
`c - n`. -/
theorem dec_iterate (n : Nat) : ∀ c : Int, wrapI8 c = c →
    (fun c => wrapI8 (c + (-1)))^[n] c = wrapI8 (c - n) := by
  induction n with
  | zero => intro c h; simpa using h.symm
  | succ n ih =>
      intro c h
      rw [Function.iterate_succ_apply]
      have h1 : wrapI8 (c + (-1)) = wrapI8 (c - 1) := rfl
      show (fun c => wrapI8 (c + (-1)))^[n] (wrapI8 (c + (-1))) = _
      rw [h1, ih (wrapI8 (c - 1)) (wrapI8_idem _)]
      have h2 : wrapI8 (c - 1) - (n : Int) = wrapI8 (c - 1) + (-(n : Int)) := by ring
      rw [h2, wrapI8_add_left]
      have h3 : c - 1 + (-(n : Int)) = c - ((n : Nat) + 1 : Int) := by ring
      rw [h3]
      norm_cast

/-- C8: `[-]` compiles to `SetCell 0` and its execution leaves the current
cell holding 0 for every starting cell value; a single wrapped decrement
applied 256 times to the actual initial cell value 0 likewise returns it to
0; and `[-]+++` executes to leave the current cell holding 3 for every
starting cell value (the `Mod` after the rewritten `[-]` folds into the set
value). -/
theorem C8_zeroing_idiom (v : Int) :
    compile ['[', '-', ']'] = .ok [Ops.SetCell 0, Ops.End] ∧
    run [Ops.SetCell 0, Ops.End] (cellState v) 2 =
      .halted { memory := List.replicate memSize 0, pos := 0, ip := 1,
                inputs := [], output := [] } ∧
    (fun c => wrapI8 (c + (-1)))^[256] 0 = 0 ∧
    compile ['[', '-', ']', '+', '+', '+'] =
      .ok [Ops.SetCell 1, Ops.Mod 2, Ops.End] ∧
    run [Ops.SetCell 1, Ops.Mod 2, Ops.End] (cellState v) 3 =
      .halted { memory := (List.replicate memSize 0).set 0 3, pos := 0, ip := 2,
                inputs := [], output := [] } := by
  have hpos : (cellState v).pos < (cellState v).memory.length := by
    show (0 : Nat) < ((List.replicate memSize (0 : Int)).set 0 v).length
    rw [List.length_set, List.length_replicate]
    norm_num [memSize]
  refine ⟨rfl, ?_, by rw [dec_iterate 256 0 (by decide)]; decide, rfl, ?_⟩
  · have h1 : step [Ops.SetCell 0, Ops.End] (cellState v) =
        .next { memory := List.replicate memSize 0, pos := 0, ip := 1, inputs := [], output := [] } := by
      rw [step_SetCell_eq [Ops.SetCell 0, Ops.End] (cellState v) 0 rfl hpos]
      rfl
    show run [Ops.SetCell 0, Ops.End] (cellState v) (1 + 1) = _
    rw [run_succ, h1]
    rfl
  · have h1 : step [Ops.SetCell 1, Ops.Mod 2, Ops.End] (cellState v) =
        .next { memory := (List.replicate memSize 0).set 0 1, pos := 0, ip := 1, inputs := [], output := [] } := by
      rw [step_SetCell_eq [Ops.SetCell 1, Ops.Mod 2, Ops.End] (cellState v) 1 rfl hpos]
      rfl
    have hpos1 : ({ memory := (List.replicate memSize 0).set 0 1, pos := 0, ip := 1, inputs := [], output := [] } : VMState).pos < ({ memory := (List.replicate memSize 0).set 0 1, pos := 0, ip := 1, inputs := [], output := [] } : VMState).memory.length := by
      show (0 : Nat) < ((List.replicate memSize (0 : Int)).set 0 1).length
      rw [List.length_set, List.length_replicate]
      norm_num [memSize]
    have h2 : step [Ops.SetCell 1, Ops.Mod 2, Ops.End] { memory := (List.replicate memSize 0).set 0 1, pos := 0, ip := 1, inputs := [], output := [] } =
        .next { memory := (List.replicate memSize 0).set 0 3, pos := 0, ip := 2, inputs := [], output := [] } := by
      rw [step_Mod_eq [Ops.SetCell 1, Ops.Mod 2, Ops.End] { memory := (List.replicate memSize 0).set 0 1, pos := 0, ip := 1, inputs := [], output := [] } 2 rfl hpos1]
      rfl
    show run [Ops.SetCell 1, Ops.Mod 2, Ops.End] (cellState v) (1 + 1 + 1) = _
    rw [run_succ, h1]
    show run [Ops.SetCell 1, Ops.Mod 2, Ops.End] { memory := (List.replicate memSize 0).set 0 1, pos := 0, ip := 1, inputs := [], output := [] } (1 + 1) = _
    rw [run_succ, h2]
    rfl

/-! ## Jump resolution: the pairing invariant (shared by claims C3, C10) -/

/-- Mutual back-reference property of a resolved operation list. -/
def Paired (l : List Ops) : Prop :=
  (∀ i e, l[i]? = some (Ops.LoopOpen e) → l[e]? = some (Ops.LoopClose i)) ∧
  (∀ i a, l[i]? = some (Ops.LoopClose a) → l[a]? = some (Ops.LoopOpen i))

/-- Invariant of the pending-open stack during resolution: positions are
strictly decreasing (most recent first), scanned, and hold `LoopOpen`. -/
def StackInv (l : List Ops) (i : Nat) (stack : List Nat) : Prop :=
  stack.Pairwise (· > ·) ∧
  ∀ j ∈ stack, j < i ∧ ∃ p, l[j]? = some (Ops.LoopOpen p)

/-- Invariant of the already-scanned prefix during resolution: every
scanned bracket not still pending is resolved, mutually. -/
def DoneInv (l : List Ops) (i : Nat) (stack : List Nat) : Prop :=
  (∀ j e, j < i → j ∉ stack → l[j]? = some (Ops.LoopOpen e) →
      e < i ∧ l[e]? = some (Ops.LoopClose j)) ∧
  (∀ j a, j < i → l[j]? = some (Ops.LoopClose a) →
      a < j ∧ a ∉ stack ∧ l[a]? = some (Ops.LoopOpen j))

/-- A successful resolution run yields the scanned list (now fully and
mutually paired) with a single trailing `End`. -/
theorem resolveGo_ok_spec :
    ∀ (n : Nat) (l : List Ops) (i : Nat) (stack : List Nat) (r : List Ops),
      i + n = l.length →
      StackInv l i stack → DoneInv l i stack →
      (∀ op ∈ l, op ≠ Ops.End) →
      resolveGo l i stack n = .ok r →
      ∃ l', r = l' ++ [Ops.End] ∧ l'.length = l.length ∧ Paired l' ∧
        (∀ op ∈ l', op ≠ Ops.End) := by
  intro n
  induction n with
  | zero =>
      intro l i stack r hn hs hd hne hok
      rw [resolveGo_zero] at hok
      by_cases hemp : stack.isEmpty
      · rw [if_pos hemp] at hok
        have hr : r = l ++ [Ops.End] := by
          cases hok
          rfl
        have hie : i = l.length := by omega
        have hstack : stack = [] := List.isEmpty_iff.mp hemp
        subst hstack
        refine ⟨l, hr, rfl, ⟨?_, ?_⟩, hne⟩
        · intro j e hj
          have hjl : j < l.length := lt_of_getElem?_some hj
          exact (hd.1 j e (by omega) (by simp) hj).2
        · intro j a hj
          have hjl : j < l.length := lt_of_getElem?_some hj
          exact (hd.2 j a (by omega) hj).2.2
      · rw [if_neg hemp] at hok
        exact Except.noConfusion hok
  | succ n ih =>
      intro l i stack r hn hs hd hne hok
      have hlt : i < l.length := by omega
      have hfetch : l[i]? = some l[i] := List.getElem?_eq_getElem hlt
      cases hop : l[i] with
      | LoopOpen p =>
          rw [hop] at hfetch
          rw [resolveGo_succ_open stack n hfetch] at hok
          refine ih l (i + 1) (i :: stack) r (by omega) ⟨?_, ?_⟩ ⟨?_, ?_⟩ hne hok
          · exact List.pairwise_cons.mpr ⟨fun j hj => (hs.2 j hj).1, hs.1⟩
          · intro j hj
            rcases List.mem_cons.mp hj with hj | hj
            · subst hj
              exact ⟨Nat.lt_succ_self _, p, hfetch⟩
            · exact ⟨Nat.lt_succ_of_lt (hs.2 j hj).1, (hs.2 j hj).2⟩
          · intro j e hj hjn hje
            have hji : j ≠ i := fun h => hjn (h ▸ List.mem_cons_self _ _)
            have hjs : j ∉ stack := fun h => hjn (List.mem_cons_of_mem _ h)
            have := hd.1 j e (by omega) hjs hje
            exact ⟨Nat.lt_succ_of_lt this.1, this.2⟩
          · intro j a hj hja
            rcases Nat.lt_succ_iff_lt_or_eq.mp hj with hj | hj
            · have := hd.2 j a hj hja
              refine ⟨this.1, fun hmem => ?_, this.2.2⟩
              rcases List.mem_cons.mp hmem with h | h
              · omega
              · exact this.2.1 h
            · subst hj
              rw [hfetch] at hja
              exact Ops.noConfusion (Option.some.inj hja)
      | LoopClose p =>
          rw [hop] at hfetch
          cases stack with
          | nil =>
              rw [resolveGo_succ_close_nil n hfetch] at hok
              exact Except.noConfusion hok
          | cons start rest =>
              rw [resolveGo_succ_close_cons start rest n hfetch] at hok
              have hsmem : start ∈ start :: rest := List.mem_cons_self _ _
              have hslt : start < i := (hs.2 start hsmem).1
              obtain ⟨q, hq⟩ := (hs.2 start hsmem).2
              have hsl : start < l.length := lt_of_getElem?_some hq
              have hlen' : ((l.set start (.LoopOpen i)).set i (.LoopClose start)).length
                  = l.length := by simp
              have hat_start : ((l.set start (.LoopOpen i)).set i
                  (.LoopClose start))[start]? = some (.LoopOpen i) := by
                rw [List.getElem?_set_ne (by omega), List.getElem?_set_self hsl]
              have hat_i : ((l.set start (.LoopOpen i)).set i
                  (.LoopClose start))[i]? = some (.LoopClose start) := by
                rw [List.getElem?_set_self (by simpa using hlt)]
              have hat_other : ∀ j, j ≠ start → j ≠ i →
                  ((l.set start (.LoopOpen i)).set i (.LoopClose start))[j]? = l[j]? := by
                intro j h1 h2
                rw [List.getElem?_set_ne (by omega), List.getElem?_set_ne (by omega)]
              have hrest_pw := List.pairwise_cons.mp hs.1
              set l2 : List Ops :=
                (l.set start (Ops.LoopOpen i)).set i (Ops.LoopClose start) with hl2
              have hSI : StackInv l2 (i + 1) rest := by
                refine ⟨hrest_pw.2, ?_⟩
                intro j hj
                have hjmem : j ∈ start :: rest := List.mem_cons_of_mem _ hj
                have hjlt : j < i := (hs.2 j hjmem).1
                obtain ⟨pj, hpj⟩ := (hs.2 j hjmem).2
                have hjne_start : j ≠ start := Nat.ne_of_lt (hrest_pw.1 j hj)
                refine ⟨by omega, pj, ?_⟩
                rw [hat_other j hjne_start (by omega)]
                exact hpj
              have hDI : DoneInv l2 (i + 1) rest := by
                constructor
                · intro j e hj hjn hje
                  by_cases hjs : j = start
                  · subst hjs
                    rw [hat_start] at hje
                    have he : e = i := (Ops.LoopOpen.inj (Option.some.inj hje)).symm
                    subst he
                    exact ⟨Nat.lt_succ_self _, hat_i⟩
                  · by_cases hji : j = i
                    · subst hji
                      rw [hat_i] at hje
                      exact Ops.noConfusion (Option.some.inj hje)
                    · rw [hat_other j hjs hji] at hje
                      have hjst : j ∉ start :: rest := by
                        intro hmem
                        rcases List.mem_cons.mp hmem with h | h
                        · exact hjs h
                        · exact hjn h
                      have hold := hd.1 j e (by omega) hjst hje
                      have hene_start : e ≠ start := by
                        intro h
                        rw [h, hq] at hold
                        exact Ops.noConfusion (Option.some.inj hold.2)
                      refine ⟨by omega, ?_⟩
                      rw [hat_other e hene_start (by omega)]
                      exact hold.2
                · intro j a hj hja
                  by_cases hji : j = i
                  · subst hji
                    rw [hat_i] at hja
                    have ha : a = start := (Ops.LoopClose.inj (Option.some.inj hja)).symm
                    subst ha
                    refine ⟨hslt, fun hmem => ?_, hat_start⟩
                    exact Nat.lt_irrefl a (hrest_pw.1 a hmem)
                  · by_cases hjs : j = start
                    · subst hjs
                      rw [hat_start] at hja
                      exact Ops.noConfusion (Option.some.inj hja)
                    · rw [hat_other j hjs hji] at hja
                      have hold := hd.2 j a (by omega) hja
                      have hane_start : a ≠ start := by
                        intro h
                        exact hold.2.1 (h ▸ hsmem)
                      refine ⟨hold.1, fun hmem => hold.2.1
                        (List.mem_cons_of_mem _ hmem), ?_⟩
                      rw [hat_other a hane_start (by omega)]
                      exact hold.2.2
              have hNE : ∀ op ∈ l2, op ≠ Ops.End := by
                intro op hmem
                rw [hl2] at hmem
                rcases List.mem_or_eq_of_mem_set hmem with hmem2 | heq
                · rcases List.mem_or_eq_of_mem_set hmem2 with hmem3 | heq2
                  · exact hne op hmem3
                  · rw [heq2]
                    exact fun h => Ops.noConfusion h
                · rw [heq]
                  exact fun h => Ops.noConfusion h
              obtain ⟨lf, hr, hlenr, hp, hnoe⟩ :=
                ih l2 (i + 1) rest r (by rw [hl2]; simp; omega) hSI hDI hNE hok
              refine ⟨lf, hr, ?_, hp, hnoe⟩
              rw [hlenr, hl2]
              simp
      | Move v =>
          rw [hop] at hfetch
          rw [resolveGo_succ_other stack n hfetch (fun p h => Ops.noConfusion h)
            (fun p h => Ops.noConfusion h)] at hok
          refine ih l (i + 1) stack r (by omega) ⟨hs.1, fun j hj =>
            ⟨Nat.lt_succ_of_lt (hs.2 j hj).1, (hs.2 j hj).2⟩⟩ ⟨?_, ?_⟩ hne hok
          · intro j e hj hjn hje
            have hji : j ≠ i := by
              intro h
              rw [h, hfetch] at hje
              exact Ops.noConfusion (Option.some.inj hje)
            have := hd.1 j e (by omega) hjn hje
            exact ⟨Nat.lt_succ_of_lt this.1, this.2⟩
          · intro j a hj hja
            have hji : j ≠ i := by
              intro h
              rw [h, hfetch] at hja
              exact Ops.noConfusion (Option.some.inj hja)
            exact hd.2 j a (by omega) hja
      | Mod v =>
          rw [hop] at hfetch
          rw [resolveGo_succ_other stack n hfetch (fun p h => Ops.noConfusion h)
            (fun p h => Ops.noConfusion h)] at hok
          refine ih l (i + 1) stack r (by omega) ⟨hs.1, fun j hj =>
            ⟨Nat.lt_succ_of_lt (hs.2 j hj).1, (hs.2 j hj).2⟩⟩ ⟨?_, ?_⟩ hne hok
          · intro j e hj hjn hje
            have hji : j ≠ i := by
              intro h
              rw [h, hfetch] at hje
              exact Ops.noConfusion (Option.some.inj hje)
            have := hd.1 j e (by omega) hjn hje
            exact ⟨Nat.lt_succ_of_lt this.1, this.2⟩
          · intro j a hj hja
            have hji : j ≠ i := by
              intro h
              rw [h, hfetch] at hja
              exact Ops.noConfusion (Option.some.inj hja)
            exact hd.2 j a (by omega) hja
      | SetCell v =>
          rw [hop] at hfetch
          rw [resolveGo_succ_other stack n hfetch (fun p h => Ops.noConfusion h)
            (fun p h => Ops.noConfusion h)] at hok
          refine ih l (i + 1) stack r (by omega) ⟨hs.1, fun j hj =>
            ⟨Nat.lt_succ_of_lt (hs.2 j hj).1, (hs.2 j hj).2⟩⟩ ⟨?_, ?_⟩ hne hok
          · intro j e hj hjn hje
            have hji : j ≠ i := by
              intro h
              rw [h, hfetch] at hje
              exact Ops.noConfusion (Option.some.inj hje)
            have := hd.1 j e (by omega) hjn hje
            exact ⟨Nat.lt_succ_of_lt this.1, this.2⟩
          · intro j a hj hja
            have hji : j ≠ i := by
              intro h
              rw [h, hfetch] at hja
              exact Ops.noConfusion (Option.some.inj hja)
            exact hd.2 j a (by omega) hja
      | SearchZeroCell v =>
          rw [hop] at hfetch
          rw [resolveGo_succ_other stack n hfetch (fun p h => Ops.noConfusion h)
            (fun p h => Ops.noConfusion h)] at hok
          refine ih l (i + 1) stack r (by omega) ⟨hs.1, fun j hj =>
            ⟨Nat.lt_succ_of_lt (hs.2 j hj).1, (hs.2 j hj).2⟩⟩ ⟨?_, ?_⟩ hne hok
          · intro j e hj hjn hje
            have hji : j ≠ i := by
              intro h
              rw [h, hfetch] at hje
              exact Ops.noConfusion (Option.some.inj hje)
            have := hd.1 j e (by omega) hjn hje
            exact ⟨Nat.lt_succ_of_lt this.1, this.2⟩
          · intro j a hj hja
            have hji : j ≠ i := by
              intro h
              rw [h, hfetch] at hja
              exact Ops.noConfusion (Option.some.inj hja)
            exact hd.2 j a (by omega) hja
      | Print =>
          rw [hop] at hfetch
          rw [resolveGo_succ_other stack n hfetch (fun p h => Ops.noConfusion h)
            (fun p h => Ops.noConfusion h)] at hok
          refine ih l (i + 1) stack r (by omega) ⟨hs.1, fun j hj =>
            ⟨Nat.lt_succ_of_lt (hs.2 j hj).1, (hs.2 j hj).2⟩⟩ ⟨?_, ?_⟩ hne hok
          · intro j e hj hjn hje
            have hji : j ≠ i := by
              intro h
              rw [h, hfetch] at hje
              exact Ops.noConfusion (Option.some.inj hje)
            have := hd.1 j e (by omega) hjn hje
            exact ⟨Nat.lt_succ_of_lt this.1, this.2⟩
          · intro j a hj hja
            have hji : j ≠ i := by
              intro h
              rw [h, hfetch] at hja
              exact Ops.noConfusion (Option.some.inj hja)
            exact hd.2 j a (by omega) hja
      | Read =>
          rw [hop] at hfetch
          rw [resolveGo_succ_other stack n hfetch (fun p h => Ops.noConfusion h)
            (fun p h => Ops.noConfusion h)] at hok
          refine ih l (i + 1) stack r (by omega) ⟨hs.1, fun j hj =>
            ⟨Nat.lt_succ_of_lt (hs.2 j hj).1, (hs.2 j hj).2⟩⟩ ⟨?_, ?_⟩ hne hok
          · intro j e hj hjn hje
            have hji : j ≠ i := by
              intro h
              rw [h, hfetch] at hje
              exact Ops.noConfusion (Option.some.inj hje)
            have := hd.1 j e (by omega) hjn hje
            exact ⟨Nat.lt_succ_of_lt this.1, this.2⟩
          · intro j a hj hja
            have hji : j ≠ i := by
              intro h
              rw [h, hfetch] at hja
              exact Ops.noConfusion (Option.some.inj hja)
            exact hd.2 j a (by omega) hja
      | End =>
          exact absurd hop (hne l[i] (List.getElem_mem hlt))

/-- The token conversion never produces `End`. -/
theorem token?_no_End (c : Char) (op : Ops) (h : token? c = some op) :
    op ≠ Ops.End := by
  unfold token? at h
  split_ifs at h <;> (cases h; exact fun hc => Ops.noConfusion hc)

/-- No-`End` invariant over the optimizer state's three components. -/
def NoEndSt (st : OptState) : Prop :=
  (∀ op ∈ st.compiled, op ≠ Ops.End) ∧ (∀ op ∈ st.prepre.toList, op ≠ Ops.End) ∧
  (∀ op ∈ st.pre.toList, op ≠ Ops.End)

theorem optStep_NoEndSt (st : OptState) (cur : Ops) (h1 : NoEndSt st)
    (h2 : cur ≠ Ops.End) : NoEndSt (optStep st cur) := by
  obtain ⟨hc, hpp, hp⟩ := h1
  have hsome : ∀ x : Ops, x ≠ Ops.End → ∀ op ∈ (some x).toList, op ≠ Ops.End := by
    intro x hx op hop
    simp only [Option.toList_some, List.mem_singleton] at hop
    exact hop ▸ hx
  have hnone : ∀ op ∈ (none : Option Ops).toList, op ≠ Ops.End := by simp
  have hpush : NoEndSt (optPush st cur) := by
    unfold optPush
    refine ⟨?_, hp, hsome cur h2⟩
    intro op hop
    rcases List.mem_append.mp hop with h | h
    · exact hc op h
    · exact hpp op h
  unfold optStep
  split
  · exact ⟨hc, hpp, hsome _ (fun hx => Ops.noConfusion hx)⟩
  · exact ⟨hc, hpp, hsome _ (fun hx => Ops.noConfusion hx)⟩
  · split
    · exact ⟨hc, hnone, hsome _ (fun hx => Ops.noConfusion hx)⟩
    · exact hpush
  · exact ⟨hc, hnone, hsome _ (fun hx => Ops.noConfusion hx)⟩
  · split
    · exact ⟨hc, hpp, hsome _ (fun hx => Ops.noConfusion hx)⟩
    · exact hpush
  · exact hpush

theorem foldl_NoEndSt (ts : List Ops) : ∀ st : OptState, NoEndSt st →
    (∀ t ∈ ts, t ≠ Ops.End) → NoEndSt (List.foldl optStep st ts) := by
  induction ts with
  | nil => intro st h _; exact h
  | cons t ts ih =>
      intro st h hts
      rw [List.foldl_cons]
      exact ih _ (optStep_NoEndSt st t h (hts t (List.mem_cons_self _ _)))
        (fun u hu => hts u (List.mem_cons_of_mem _ hu))

theorem optimizeRun_no_End (ts : List Ops) (h : ∀ t ∈ ts, t ≠ Ops.End) :
    ∀ op ∈ optimizeRun ts, op ≠ Ops.End := by
  intro op hop
  unfold optimizeRun at hop
  have hfold := foldl_NoEndSt ts ⟨none, none, []⟩ ⟨by simp, by simp, by simp⟩ h
  rcases List.mem_append.mp hop with hm | hm
  · rcases List.mem_append.mp hm with hm2 | hm2
    · exact hfold.1 op hm2
    · exact hfold.2.1 op hm2
  · exact hfold.2.2 op hm

/-- Shape of every successful compile: a `Paired`, `End`-free body followed
by the single trailing `End`. -/
theorem compile_ok_spec (source : List Char) (ops : List Ops)
    (h : compile source = .ok ops) :
    ∃ l', ops = l' ++ [Ops.End] ∧ Paired l' ∧ (∀ op ∈ l', op ≠ Ops.End) := by
  unfold compile resolveFrom at h
  have hne : ∀ op ∈ optimizeRun (source.filterMap token?), op ≠ Ops.End := by
    refine optimizeRun_no_End _ ?_
    intro t ht
    obtain ⟨c, _, hc⟩ := List.mem_filterMap.mp ht
    exact token?_no_End c t hc
  obtain ⟨l', hr, _, hpaired, hnoe⟩ :=
    resolveGo_ok_spec _ _ 0 [] ops (by omega) ⟨by simp, by simp⟩
      ⟨by omega, by omega⟩ hne h
  exact ⟨l', hr, hpaired, hnoe⟩

/-- An index holding a non-`End` operation in `l' ++ [End]` lies in `l'`. -/
theorem append_end_elim {l' : List Ops} {i : Nat} {op : Ops} (hop : op ≠ Ops.End)
    (h : (l' ++ [Ops.End])[i]? = some op) : i < l'.length ∧ l'[i]? = some op := by
  have hi : i < l'.length + 1 := by
    have := lt_of_getElem?_some h
    simpa using this
  rcases Nat.lt_or_ge i l'.length with hlt | hge
  · exact ⟨hlt, by rw [List.getElem?_append_left hlt] at h; exact h⟩
  · exfalso
    have hieq : i = l'.length := by omega
    subst hieq
    rw [List.getElem?_concat_length] at h
    exact hop (Option.some.inj h).symm

/-! ## Claim C3 -/

/-- C3: in every successfully compiled sequence, each `LoopOpen e` has a
`LoopClose` at index `e` whose payload is the `LoopOpen`'s own index, and
symmetrically for every `LoopClose`. -/
theorem C3_mutual_pairing (source : List Char) (ops : List Ops)
    (h : compile source = .ok ops) :
    (∀ i e, ops[i]? = some (Ops.LoopOpen e) → ops[e]? = some (Ops.LoopClose i)) ∧
    (∀ i a, ops[i]? = some (Ops.LoopClose a) → ops[a]? = some (Ops.LoopOpen i)) := by
  obtain ⟨l', rfl, hp, _⟩ := compile_ok_spec source ops h
  constructor
  · intro i e hie
    obtain ⟨hi, h1⟩ := append_end_elim (fun hc => Ops.noConfusion hc) hie
    have h2 := hp.1 i e h1
    have he : e < l'.length := lt_of_getElem?_some h2
    rw [List.getElem?_append_left he]
    exact h2
  · intro i a hia
    obtain ⟨hi, h1⟩ := append_end_elim (fun hc => Ops.noConfusion hc) hia
    have h2 := hp.2 i a h1
    have ha : a < l'.length := lt_of_getElem?_some h2
    rw [List.getElem?_append_left ha]
    exact h2

/-- Witness for C3 at the concrete source `[]`. -/
theorem C3_witness :
    compile ['[', ']'] = .ok [Ops.LoopOpen 1, Ops.LoopClose 0, Ops.End] ∧
      [Ops.LoopOpen 1, Ops.LoopClose 0, Ops.End][(1 : Nat)]? =
        some (Ops.LoopClose 0) :=
  ⟨rfl, (C3_mutual_pairing ['[', ']'] _ rfl).1 0 1 rfl⟩

/-! ## Claim C10 -/

/-- The sequence of states the dispatch loop passes through: one `step` per
tick, absorbing at halt or fault. -/
def trace (ops : List Ops) (s : VMState) : Nat → VMState
  | 0 => s
  | n + 1 =>
      match step ops (trace ops s n) with
      | .next s' => s'
      | .halted _ => trace ops s n
      | .fault _ => trace ops s n

theorem trace_succ (ops : List Ops) (s : VMState) (n : Nat) :
    trace ops s (n + 1) =
      match step ops (trace ops s n) with
      | .next s' => s'
      | .halted _ => trace ops s n
      | .fault _ => trace ops s n := rfl

/-- A non-faulting, non-halting step out of a program whose jump targets
and non-final positions all step strictly inside keeps `ip` in bounds. -/
theorem step_next_ip_lt (ops : List Ops) (s s' : VMState)
    (htar : ∀ (i e : Nat), ops[i]? = some (Ops.LoopOpen e) ∨
      ops[i]? = some (Ops.LoopClose e) → e + 1 < ops.length)
    (hinc : ∀ (i : Nat) (op : Ops), ops[i]? = some op → op ≠ Ops.End →
      i + 1 < ops.length)
    (hstep : step ops s = .next s') : s'.ip < ops.length := by
  cases hfetch : ops[s.ip]? with
  | none =>
      rw [step_fetch_none ops s hfetch] at hstep
      exact StepRes.noConfusion hstep
  | some op =>
      cases op with
      | Move v =>
          rw [step_Move_eq ops s v hfetch] at hstep
          cases hstep
          exact hinc _ _ hfetch (fun h => Ops.noConfusion h)
      | Mod v =>
          by_cases hb : s.pos < s.memory.length
          · rw [step_Mod_eq ops s v hfetch hb] at hstep
            cases hstep
            exact hinc _ _ hfetch (fun h => Ops.noConfusion h)
          · rw [step_Mod_oob ops s v hfetch hb] at hstep
            exact StepRes.noConfusion hstep
      | LoopOpen e =>
          by_cases hb : s.pos < s.memory.length
          · rw [step_LoopOpen_eq ops s e hfetch hb] at hstep
            cases hstep
            show (if s.memory[s.pos] = 0 then e else s.ip) + 1 < ops.length
            split
            · exact htar s.ip e (Or.inl hfetch)
            · exact hinc _ _ hfetch (fun h => Ops.noConfusion h)
          · rw [step_LoopOpen_oob ops s e hfetch hb] at hstep
            exact StepRes.noConfusion hstep
      | LoopClose a =>
          by_cases hb : s.pos < s.memory.length
          · rw [step_LoopClose_eq ops s a hfetch hb] at hstep
            cases hstep
            show (if s.memory[s.pos] ≠ 0 then a else s.ip) + 1 < ops.length
            split
            · exact htar s.ip a (Or.inr hfetch)
            · exact hinc _ _ hfetch (fun h => Ops.noConfusion h)
          · rw [step_LoopClose_oob ops s a hfetch hb] at hstep
            exact StepRes.noConfusion hstep
      | SetCell v =>
          by_cases hb : s.pos < s.memory.length
          · rw [step_SetCell_eq ops s v hfetch hb] at hstep
            cases hstep
            exact hinc _ _ hfetch (fun h => Ops.noConfusion h)
          · rw [step_SetCell_oob ops s v hfetch hb] at hstep
            exact StepRes.noConfusion hstep
      | SearchZeroCell v =>
          by_cases hb : s.pos < s.memory.length
          · by_cases hc : s.memory[s.pos] = 0
            · rw [step_Search_zero ops s v hfetch hb hc] at hstep
              cases hstep
              exact hinc _ _ hfetch (fun h => Ops.noConfusion h)
            · rw [step_Search_nonzero ops s v hfetch hb hc] at hstep
              cases hstep
              exact lt_of_getElem?_some hfetch
          · rw [step_Search_oob ops s v hfetch hb] at hstep
            exact StepRes.noConfusion hstep
      | Print =>
          by_cases hb : s.pos < s.memory.length
          · rw [step_Print_eq ops s hfetch hb] at hstep
            cases hstep
            exact hinc _ _ hfetch (fun h => Ops.noConfusion h)
          · rw [step_Print_oob ops s hfetch hb] at hstep
            exact StepRes.noConfusion hstep
      | Read =>
          cases hin : s.inputs with
          | nil =>
              rw [step_Read_nil ops s hfetch hin] at hstep
              exact StepRes.noConfusion hstep
          | cons c rest =>
              by_cases hb : s.pos < s.memory.length
              · rw [step_Read_cons ops s c rest hfetch hin hb] at hstep
                cases hstep
                exact hinc _ _ hfetch (fun h => Ops.noConfusion h)
              · rw [step_Read_cons_oob ops s c rest hfetch hin hb] at hstep
                exact StepRes.noConfusion hstep
      | End =>
          rw [step_End_eq ops s hfetch] at hstep
          exact StepRes.noConfusion hstep

/-- C10: every successfully compiled sequence is non-empty and ends in
`End`; all loop jump targets step strictly inside the sequence, as does the
increment out of every non-`End` operation; and along the whole step trace
of an execution, for any input stream and any number of steps, the
instruction pointer stays a valid index (the dispatch fetch is never out of
bounds, even for non-terminating executions). -/
theorem C10_ip_safety (source : List Char) (ops : List Ops)
    (h : compile source = .ok ops) :
    ops ≠ [] ∧ ops.getLast? = some Ops.End ∧
    (∀ (i e : Nat), ops[i]? = some (Ops.LoopOpen e) ∨
      ops[i]? = some (Ops.LoopClose e) → e + 1 < ops.length) ∧
    (∀ (i : Nat) (op : Ops), ops[i]? = some op → op ≠ Ops.End →
      i + 1 < ops.length) ∧
    (∀ inputs n, (trace ops (initState inputs) n).ip < ops.length) := by
  obtain ⟨l', rfl, hp, hnoe⟩ := compile_ok_spec source ops h
  have hlen : (l' ++ [Ops.End]).length = l'.length + 1 := by simp
  have htar : ∀ (i e : Nat), (l' ++ [Ops.End])[i]? = some (Ops.LoopOpen e) ∨
      (l' ++ [Ops.End])[i]? = some (Ops.LoopClose e) →
      e + 1 < (l' ++ [Ops.End]).length := by
    intro i e hcase
    rcases hcase with hie | hie
    · obtain ⟨hi, h1⟩ := append_end_elim (fun hc => Ops.noConfusion hc) hie
      have h2 := hp.1 i e h1
      have he := lt_of_getElem?_some h2
      omega
    · obtain ⟨hi, h1⟩ := append_end_elim (fun hc => Ops.noConfusion hc) hie
      have h2 := hp.2 i e h1
      have he := lt_of_getElem?_some h2
      omega
  have hinc : ∀ (i : Nat) (op : Ops), (l' ++ [Ops.End])[i]? = some op → op ≠ Ops.End →
      i + 1 < (l' ++ [Ops.End]).length := by
    intro i op hop hne
    obtain ⟨hi, _⟩ := append_end_elim hne hop
    omega
  refine ⟨by simp, by simp, htar, hinc, ?_⟩
  intro inputs n
  induction n with
  | zero =>
      show (0 : Nat) < (l' ++ [Ops.End]).length
      omega
  | succ n ih =>
      rw [trace_succ]
      cases hstep : step (l' ++ [Ops.End]) (trace (l' ++ [Ops.End]) (initState inputs) n) with
      | next s' => exact step_next_ip_lt _ _ _ htar hinc hstep
      | halted s' => exact ih
      | fault s' => exact ih

/-- Witness for C10 at the concrete (empty) source. -/
theorem C10_witness :
    compile [] = .ok [Ops.End] ∧
      (trace [Ops.End] (initState []) 3).ip < [Ops.End].length :=
  ⟨rfl, (C10_ip_safety [] [Ops.End] rfl).2.2.2.2 [] 3⟩

/-! ## Claim C2: bracket balance -/

/-- Bracket projection of an operation list (`true` = `[`, `false` = `]`). -/
def brks (l : List Ops) : List Bool := l.filterMap brk

/-- Bracket projection of a source text. -/
def srcBrk (source : List Char) : List Bool :=
  source.filterMap fun c =>
    if c = '[' then some true else if c = ']' then some false else none

/-- Depth scan of a bracket word starting at depth `o`: `none` when a close
is read at depth 0 (the first unmatched close), else the final depth. -/
def scanBrk : List Bool → Nat → Option Nat
  | [], o => some o
  | true :: bs, o => scanBrk bs (o + 1)
  | false :: bs, o =>
      match o with
      | 0 => none
      | o' + 1 => scanBrk bs o'

/-- The jump-resolution loop succeeds or fails exactly as the depth scan of
the remaining bracket word prescribes. -/
theorem resolveGo_scan (n : Nat) :
    ∀ (l : List Ops) (i : Nat) (stack : List Nat),
      i + n = l.length → (∀ j ∈ stack, j < i) →
      ((scanBrk (brks (l.drop i)) stack.length = none →
          resolveGo l i stack n = .error "missing [ for ]") ∧
       (scanBrk (brks (l.drop i)) stack.length = some 0 →
          ∃ r, resolveGo l i stack n = .ok r) ∧
       (∀ k, scanBrk (brks (l.drop i)) stack.length = some (k + 1) →
          resolveGo l i stack n = .error "missing ] for [")) := by
  induction n with
  | zero =>
      intro l i stack hn hst
      have hdrop : l.drop i = [] := List.drop_eq_nil_of_le (by omega)
      rw [hdrop]
      refine ⟨?_, ?_, ?_⟩
      · intro h
        exact Option.noConfusion h
      · intro h
        have h0 : stack.length = 0 := Option.some.inj h
        have hemp : stack.isEmpty := by
          cases stack
          · rfl
          · exact absurd h0 (by simp)
        exact ⟨l ++ [Ops.End], by rw [resolveGo_zero, if_pos hemp]⟩
      · intro k h
        have h0 : stack.length = k + 1 := Option.some.inj h
        have hemp : ¬ stack.isEmpty := by
          cases stack
          · exact absurd h0 (by simp)
          · simp
        rw [resolveGo_zero, if_neg hemp]
  | succ n ih =>
      intro l i stack hn hst
      have hlt : i < l.length := by omega
      have hfetch : l[i]? = some l[i] := List.getElem?_eq_getElem hlt
      have hdrop : l.drop i = l[i] :: l.drop (i + 1) := List.drop_eq_getElem_cons hlt
      rw [hdrop]
      cases hop : l[i] with
      | LoopOpen p =>
          rw [hop] at hfetch
          have hbrk : brks (Ops.LoopOpen p :: l.drop (i + 1)) =
              true :: brks (l.drop (i + 1)) := rfl
          rw [hbrk]
          have hscan : ∀ o, scanBrk (true :: brks (l.drop (i + 1))) o =
              scanBrk (brks (l.drop (i + 1))) (o + 1) := fun o => rfl
          rw [hscan]
          have hih := ih l (i + 1) (i :: stack) (by omega)
            (fun j hj => by
              rcases List.mem_cons.mp hj with h | h
              · omega
              · exact Nat.lt_succ_of_lt (hst j h))
          rw [resolveGo_succ_open stack n hfetch]
          simpa using hih
      | LoopClose p =>
          rw [hop] at hfetch
          have hbrk : brks (Ops.LoopClose p :: l.drop (i + 1)) =
              false :: brks (l.drop (i + 1)) := rfl
          rw [hbrk]
          cases stack with
          | nil =>
              rw [resolveGo_succ_close_nil n hfetch]
              refine ⟨fun _ => rfl, ?_, ?_⟩
              · intro h
                exact absurd h (by simp [scanBrk])
              · intro k h
                exact absurd h (by simp [scanBrk])
          | cons start rest =>
              rw [resolveGo_succ_close_cons start rest n hfetch]
              have hscan : scanBrk (false :: brks (l.drop (i + 1)))
                  (start :: rest).length = scanBrk (brks (l.drop (i + 1)))
                  rest.length := rfl
              rw [hscan]
              have hdrop2 : ((l.set start (Ops.LoopOpen i)).set i
                  (Ops.LoopClose start)).drop (i + 1) = l.drop (i + 1) := by
                rw [List.drop_set_of_lt _ _ (Nat.lt_succ_self i),
                  List.drop_set_of_lt _ _ (Nat.lt_succ_of_lt
                    (hst start (List.mem_cons_self _ _)))]
              have hih := ih ((l.set start (Ops.LoopOpen i)).set i
                  (Ops.LoopClose start)) (i + 1) rest
                (by simp; omega)
                (fun j hj => Nat.lt_succ_of_lt (hst j (List.mem_cons_of_mem _ hj)))
              rw [hdrop2] at hih
              exact hih
      | Move v =>
          rw [hop] at hfetch
          rw [resolveGo_succ_other stack n hfetch (fun q h => Ops.noConfusion h)
            (fun q h => Ops.noConfusion h)]
          exact ih l (i + 1) stack (by omega) (fun j hj => Nat.lt_succ_of_lt (hst j hj))
      | Mod v =>
          rw [hop] at hfetch
          rw [resolveGo_succ_other stack n hfetch (fun q h => Ops.noConfusion h)
            (fun q h => Ops.noConfusion h)]
          exact ih l (i + 1) stack (by omega) (fun j hj => Nat.lt_succ_of_lt (hst j hj))
      | SetCell v =>
          rw [hop] at hfetch
          rw [resolveGo_succ_other stack n hfetch (fun q h => Ops.noConfusion h)
            (fun q h => Ops.noConfusion h)]
          exact ih l (i + 1) stack (by omega) (fun j hj => Nat.lt_succ_of_lt (hst j hj))
      | SearchZeroCell v =>
          rw [hop] at hfetch
          rw [resolveGo_succ_other stack n hfetch (fun q h => Ops.noConfusion h)
            (fun q h => Ops.noConfusion h)]
          exact ih l (i + 1) stack (by omega) (fun j hj => Nat.lt_succ_of_lt (hst j hj))
      | Print =>
          rw [hop] at hfetch
          rw [resolveGo_succ_other stack n hfetch (fun q h => Ops.noConfusion h)
            (fun q h => Ops.noConfusion h)]
          exact ih l (i + 1) stack (by omega) (fun j hj => Nat.lt_succ_of_lt (hst j hj))
      | Read =>
          rw [hop] at hfetch
          rw [resolveGo_succ_other stack n hfetch (fun q h => Ops.noConfusion h)
            (fun q h => Ops.noConfusion h)]
          exact ih l (i + 1) stack (by omega) (fun j hj => Nat.lt_succ_of_lt (hst j hj))
      | End =>
          rw [hop] at hfetch
          rw [resolveGo_succ_other stack n hfetch (fun q h => Ops.noConfusion h)
            (fun q h => Ops.noConfusion h)]
          exact ih l (i + 1) stack (by omega) (fun j hj => Nat.lt_succ_of_lt (hst j hj))

/-- Deleting one adjacent matched pair `[]` never changes the outcome of
the depth scan. -/
theorem scanBrk_del (Y : List Bool) :
    ∀ (X : List Bool) (o : Nat),
      scanBrk (X ++ true :: false :: Y) o = scanBrk (X ++ Y) o := by
  intro X
  induction X with
  | nil => intro o; rfl
  | cons b X ih =>
      intro o
      cases b with
      | true =>
          rw [List.cons_append, List.cons_append]
          show scanBrk (X ++ true :: false :: Y) (o + 1) = scanBrk (X ++ Y) (o + 1)
          exact ih (o + 1)
      | false =>
          rw [List.cons_append, List.cons_append]
          cases o with
          | zero => rfl
          | succ o' =>
              show scanBrk (X ++ true :: false :: Y) o' = scanBrk (X ++ Y) o'
              exact ih o'

/-- The whole content of the optimizer state, in output order (the output
vector, then the two lookback slots oldest first). -/
def emit (st : OptState) : List Ops :=
  st.compiled ++ st.prepre.toList ++ st.pre.toList

theorem emit_optPush (st : OptState) (cur : Ops) :
    emit (optPush st cur) = emit st ++ [cur] := by
  simp [emit, optPush]

/-- One optimizer step never changes the depth scan of the bracket word of
"everything emitted so far plus the rest of the stream". -/
theorem scan_optStep (st : OptState) (cur : Ops) (rest : List Ops) :
    scanBrk (brks (emit (optStep st cur) ++ rest)) 0 =
      scanBrk (brks (emit st ++ cur :: rest)) 0 := by
  unfold optStep
  split
  all_goals try split
  all_goals simp_all [emit, optPush, brks, List.filterMap_append,
    List.filterMap_cons, brk]
  all_goals exact (scanBrk_del _ _ _).symm

theorem scan_fold (ts : List Ops) :
    ∀ st : OptState, scanBrk (brks (emit (List.foldl optStep st ts))) 0 =
      scanBrk (brks (emit st ++ ts)) 0 := by
  induction ts with
  | nil => intro st; simp
  | cons t ts ih =>
      intro st
      rw [List.foldl_cons]
      exact (ih (optStep st t)).trans (scan_optStep st t ts)

/-- The peephole optimizer preserves the depth scan of the bracket word. -/
theorem scan_optimizeRun (ts : List Ops) :
    scanBrk (brks (optimizeRun ts)) 0 = scanBrk (brks ts) 0 :=
  scan_fold ts ⟨none, none, []⟩

theorem token?_bind_brk (c : Char) :
    (token? c).bind brk =
      (if c = '[' then some true else if c = ']' then some false else none) := by
  unfold token? brk
  split_ifs <;> first | rfl | (subst_vars; simp_all)

/-- The bracket word of the token stream is the bracket word of the source
text. -/
theorem brks_tokens (source : List Char) :
    brks (source.filterMap token?) = srcBrk source := by
  unfold brks srcBrk
  rw [List.filterMap_filterMap]
  congr 1
  funext c
  exact token?_bind_brk c

/-- The scan hits an unmatched close exactly when some prefix has an excess
of closes over the initial depth plus its opens. -/
theorem scanBrk_none_iff (bs : List Bool) : ∀ o : Nat,
    (scanBrk bs o = none ↔ ∃ p, p <+: bs ∧ o + p.count true < p.count false) := by
  induction bs with
  | nil =>
      intro o
      simp [scanBrk]
  | cons b bs ih =>
      intro o
      cases b with
      | true =>
          show scanBrk bs (o + 1) = none ↔ _
          rw [ih (o + 1)]
          constructor
          · rintro ⟨p, hp, hcnt⟩
            refine ⟨true :: p, List.cons_prefix_cons.mpr ⟨rfl, hp⟩, ?_⟩
            simp only [List.count_cons]
            simp at hcnt ⊢
            omega
          · rintro ⟨p, hp, hcnt⟩
            rcases List.prefix_cons_iff.mp hp with rfl | ⟨q, rfl, hq⟩
            · simp at hcnt
            · refine ⟨q, hq, ?_⟩
              simp [List.count_cons] at hcnt ⊢
              omega
      | false =>
          cases o with
          | zero =>
              show (none : Option Nat) = none ↔ _
              simp only [iff_true, eq_self_iff_true, true_iff]
              refine ⟨[false], ?_, by simp⟩
              exact List.cons_prefix_cons.mpr ⟨rfl, List.nil_prefix⟩
          | succ o' =>
              show scanBrk bs o' = none ↔ _
              rw [ih o']
              constructor
              · rintro ⟨p, hp, hcnt⟩
                refine ⟨false :: p, List.cons_prefix_cons.mpr ⟨rfl, hp⟩, ?_⟩
                simp [List.count_cons] at hcnt ⊢
                omega
              · rintro ⟨p, hp, hcnt⟩
                rcases List.prefix_cons_iff.mp hp with rfl | ⟨q, rfl, hq⟩
                · simp at hcnt
                · refine ⟨q, hq, ?_⟩
                  simp [List.count_cons] at hcnt ⊢
                  omega

/-- When the scan completes, every prefix keeps closes within bounds and
the final depth balances the counts. -/
theorem scanBrk_some_spec (bs : List Bool) : ∀ (o k : Nat),
    scanBrk bs o = some k →
      (∀ p, p <+: bs → p.count false ≤ o + p.count true) ∧
        k + bs.count false = o + bs.count true := by
  induction bs with
  | nil =>
      intro o k h
      have : o = k := Option.some.inj h
      subst this
      refine ⟨?_, by simp⟩
      intro p hp
      rw [List.prefix_nil.mp hp]
      simp
  | cons b bs ih =>
      intro o k h
      cases b with
      | true =>
          have h' : scanBrk bs (o + 1) = some k := h
          obtain ⟨hpre, hcnt⟩ := ih (o + 1) k h'
          constructor
          · intro p hp
            rcases List.prefix_cons_iff.mp hp with rfl | ⟨q, rfl, hq⟩
            · simp
            · have := hpre q hq
              simp [List.count_cons]
              omega
          · simp [List.count_cons]
            omega
      | false =>
          cases o with
          | zero => exact Option.noConfusion h
          | succ o' =>
              have h' : scanBrk bs o' = some k := h
              obtain ⟨hpre, hcnt⟩ := ih o' k h'
              constructor
              · intro p hp
                rcases List.prefix_cons_iff.mp hp with rfl | ⟨q, rfl, hq⟩
                · simp
                · have := hpre q hq
                  simp [List.count_cons]
                  omega
              · simp [List.count_cons]
                omega

/-- C2: `compile` returns an operation sequence iff the subsequence of `[`
and `]` characters of the source is balanced and properly nested (every
prefix has at least as many opens as closes, and the totals agree); a
source whose bracket word has an unmatched close (a prefix with more closes
than opens) yields the unmatched-close error as soon as it is scanned; an
unbalanced source with no unmatched close (excess opens, detected after the
full scan) yields the unmatched-open error; in both error cases no
operation sequence is returned. -/
theorem C2_bracket_balance (source : List Char) :
    ((∃ ops, compile source = .ok ops) ↔
      ((∀ p, p <+: srcBrk source → p.count false ≤ p.count true) ∧
        (srcBrk source).count true = (srcBrk source).count false)) ∧
    ((∃ p, p <+: srcBrk source ∧ p.count true < p.count false) →
        compile source = .error "missing [ for ]") ∧
    ((∀ p, p <+: srcBrk source → p.count false ≤ p.count true) →
      (srcBrk source).count false < (srcBrk source).count true →
        compile source = .error "missing ] for [") := by
  have hchar := resolveGo_scan (optimizeRun (source.filterMap token?)).length
    (optimizeRun (source.filterMap token?)) 0 [] (by omega) (by simp)
  have hcompile : compile source =
      resolveGo (optimizeRun (source.filterMap token?)) 0 []
        (optimizeRun (source.filterMap token?)).length := by
    unfold compile resolveFrom
    norm_num
  have hscan : scanBrk (brks ((optimizeRun (source.filterMap token?)).drop 0))
      (List.length ([] : List Nat)) = scanBrk (srcBrk source) 0 := by
    rw [List.drop_zero]
    show scanBrk (brks (optimizeRun (source.filterMap token?))) 0 = _
    rw [scan_optimizeRun, brks_tokens]
  rw [hscan] at hchar
  obtain ⟨hnone, hsome0, hsucc⟩ := hchar
  refine ⟨⟨?_, ?_⟩, ?_, ?_⟩
  · rintro ⟨ops, hops⟩
    cases hsc : scanBrk (srcBrk source) 0 with
    | none =>
        rw [hcompile, hnone hsc] at hops
        exact Except.noConfusion hops
    | some k =>
        cases k with
        | zero =>
            obtain ⟨hpre, hcnt⟩ := scanBrk_some_spec _ 0 0 hsc
            exact ⟨fun p hp => by have := hpre p hp; omega, by omega⟩
        | succ k =>
            rw [hcompile, hsucc k hsc] at hops
            exact Except.noConfusion hops
  · rintro ⟨hpre, hcnt⟩
    cases hsc : scanBrk (srcBrk source) 0 with
    | none =>
        obtain ⟨p, hp, hbad⟩ := (scanBrk_none_iff _ 0).mp hsc
        have := hpre p hp
        omega
    | some k =>
        obtain ⟨_, hk⟩ := scanBrk_some_spec _ 0 k hsc
        have hk0 : k = 0 := by omega
        subst hk0
        obtain ⟨r, hr⟩ := hsome0 hsc
        exact ⟨r, by rw [hcompile]; exact hr⟩
  · rintro ⟨p, hp, hbad⟩
    have hsc : scanBrk (srcBrk source) 0 = none :=
      (scanBrk_none_iff _ 0).mpr ⟨p, hp, by omega⟩
    rw [hcompile]
    exact hnone hsc
  · intro hpre hcnt
    cases hsc : scanBrk (srcBrk source) 0 with
    | none =>
        obtain ⟨p, hp, hbad⟩ := (scanBrk_none_iff _ 0).mp hsc
        have := hpre p hp
        omega
    | some k =>
        obtain ⟨_, hk⟩ := scanBrk_some_spec _ 0 k hsc
        cases k with
        | zero => omega
        | succ k =>
            rw [hcompile]
            exact hsucc k hsc

/-- Witness for C2 at the concrete source `][`. -/
theorem C2_witness :
    compile [']', '['] = .error "missing [ for ]" :=
  (C2_bracket_balance [']', '[']).2.1 ⟨[false], by decide, by decide⟩

/-! ## Claim C1: optimizer transparency

The refinement proof goes through a structured view of programs: a tree
syntax (`Node`), a fuel-indexed big-step interpreter over trees, a
small-step abstract machine over trees that runs in lockstep (one machine
step per flat dispatch step) with the flat VM, and a semantic equivalence
on trees under which every peephole rewrite is sound. -/

/-- Structured programs: a primitive (non-bracket) operation, or a loop
with a body. -/
inductive Node where
  | prim : Ops → Node
  | loop : List Node → Node

mutual
/-- Well-formed nodes carry no bracket or `End` primitives. -/
def wfN : Node → Bool
  | .prim op =>
      match op with
      | .LoopOpen _ => false
      | .LoopClose _ => false
      | .End => false
      | _ => true
  | .loop b => wfL b
def wfL : List Node → Bool
  | [] => true
  | n :: t => wfN n && wfL t
end

mutual
/-- Flat length of a node / node list. -/
def lenN : Node → Nat
  | .prim _ => 1
  | .loop b => lenL b + 2
def lenL : List Node → Nat
  | [] => 0
  | n :: t => lenN n + lenL t
end

mutual
/-- The unresolved token form of a tree (brackets with the payload 0 they
carry before jump resolution). -/
def detokN : Node → List Ops
  | .prim op => [op]
  | .loop b => .LoopOpen 0 :: (detokL b ++ [.LoopClose 0])
def detokL : List Node → List Ops
  | [] => []
  | n :: t => detokN n ++ detokL t
end

mutual
/-- The resolved flat form of a tree laid out at base offset `o`: each
`LoopOpen` targets its matching `LoopClose` and conversely. -/
def flatN : Nat → Node → List Ops
  | _, .prim op => [op]
  | o, .loop b =>
      .LoopOpen (o + lenL b + 1) :: (flatL (o + 1) b ++ [.LoopClose o])
def flatL : Nat → List Node → List Ops
  | _, [] => []
  | o, n :: t => flatN o n ++ flatL (o + lenN n) t
end

mutual
theorem flatN_length : ∀ (o : Nat) (n : Node), (flatN o n).length = lenN n
  | _, .prim op => rfl
  | o, .loop b => by
      simp [flatN, lenN, flatN_length, flatL_length (o + 1) b]
theorem flatL_length : ∀ (o : Nat) (t : List Node), (flatL o t).length = lenL t
  | _, [] => rfl
  | o, n :: t => by
      simp [flatL, lenL, flatN_length o n, flatL_length (o + lenN n) t]
end

mutual
theorem detokN_length : ∀ n : Node, (detokN n).length = lenN n
  | .prim op => rfl
  | .loop b => by simp [detokN, lenN, detokL_length b]
theorem detokL_length : ∀ t : List Node, (detokL t).length = lenL t
  | [] => rfl
  | n :: t => by simp [detokL, lenL, detokN_length n, detokL_length t]
end

/-! ### Big-step tree interpreter (fuel-indexed; every recursive call
consumes one unit, keeping the recursion structural) -/

/-- Result of a tree-level run. -/
inductive TRes where
  | ok (s : VMState)
  | fault (s : VMState)
  | timeout (s : VMState)
deriving DecidableEq, Repr

/-- The inner `while` of `SearchZeroCell`, one test-and-move per fuel
unit. -/
def searchT : Nat → Int → VMState → TRes
  | 0, _, s => .timeout s
  | fuel + 1, v, s =>
      if h : s.pos < s.memory.length then
        if s.memory[s.pos] = 0 then .ok s
        else searchT fuel v { s with pos := wrapPos s.pos v }
      else .fault s

/-- Effect of one primitive operation (tree level: no instruction
pointer). -/
def primT (fuel : Nat) (op : Ops) (s : VMState) : TRes :=
  match op with
  | .Move v => .ok { s with pos := wrapPos s.pos v }
  | .Mod v =>
      if h : s.pos < s.memory.length then
        .ok { s with memory := s.memory.set s.pos (wrapI8 (s.memory[s.pos] + v)) }
      else .fault s
  | .SetCell v =>
      if h : s.pos < s.memory.length then
        .ok { s with memory := s.memory.set s.pos v }
      else .fault s
  | .SearchZeroCell v => searchT fuel v s
  | .Print =>
      if h : s.pos < s.memory.length then
        .ok { s with output := s.output ++ [toByte s.memory[s.pos]] }
      else .fault s
  | .Read =>
      match s.inputs with
      | [] => .fault s
      | c :: rest =>
          if h : s.pos < s.memory.length then
            .ok { s with memory := s.memory.set s.pos (charToI8 c), inputs := rest }
          else .fault { s with inputs := rest }
  | _ => .fault s

mutual
/-- Big-step run of one node. -/
def runN : Nat → Node → VMState → TRes
  | 0, _, s => .timeout s
  | fuel + 1, .prim op, s => primT fuel op s
  | fuel + 1, .loop b, s =>
      if h : s.pos < s.memory.length then
        if s.memory[s.pos] = 0 then .ok s
        else
          match runL fuel b s with
          | .ok s' => runN fuel (.loop b) s'
          | r => r
      else .fault s
/-- Big-step run of a node list, in sequence. -/
def runL : Nat → List Node → VMState → TRes
  | 0, _, s => .timeout s
  | _ + 1, [], s => .ok s
  | fuel + 1, n :: t, s =>
      match runN fuel n s with
      | .ok s' => runL fuel t s'
      | r => r
end

/-! ### Small-step abstract machine over trees

A configuration is the remaining node list of the current sequence plus a
stack of loop frames `(body, rest)`: control is inside a loop with body
`body`, and `rest` follows the loop.  Each machine step corresponds to
exactly one flat dispatch step. -/

def MCfg := List Node × List (List Node × List Node)

/-- One machine step: continue, finish, or fault. -/
inductive MRes where
  | cont (c : MCfg) (s : VMState)
  | done (s : VMState)
  | fault (s : VMState)

/-- The loop test, shared by loop entry and the back-edge taken when a
body is exhausted. -/
def loopTest (b rest : List Node) (K : List (List Node × List Node))
    (s : VMState) : MRes :=
  if h : s.pos < s.memory.length then
    if s.memory[s.pos] = 0 then .cont (rest, K) s
    else .cont (b, (b, rest) :: K) s
  else .fault s

/-- One step of the tree machine. -/
def tstep : MCfg → VMState → MRes
  | ([], []), s => .done s
  | ([], (b, rest) :: K), s => loopTest b rest K s
  | (.loop b :: rest, K), s => loopTest b rest K s
  | (.prim (.Move v) :: rest, K), s =>
      .cont (rest, K) { s with pos := wrapPos s.pos v }
  | (.prim (.Mod v) :: rest, K), s =>
      if h : s.pos < s.memory.length then
        .cont (rest, K)
          { s with memory := s.memory.set s.pos (wrapI8 (s.memory[s.pos] + v)) }
      else .fault s
  | (.prim (.SetCell v) :: rest, K), s =>
      if h : s.pos < s.memory.length then
        .cont (rest, K) { s with memory := s.memory.set s.pos v }
      else .fault s
  | (.prim (.SearchZeroCell v) :: rest, K), s =>
      if h : s.pos < s.memory.length then
        if s.memory[s.pos] = 0 then .cont (rest, K) s
        else .cont (.prim (.SearchZeroCell v) :: rest, K)
               { s with pos := wrapPos s.pos v }
      else .fault s
  | (.prim .Print :: rest, K), s =>
      if h : s.pos < s.memory.length then
        .cont (rest, K) { s with output := s.output ++ [toByte s.memory[s.pos]] }
      else .fault s
  | (.prim .Read :: rest, K), s =>
      match s.inputs with
      | [] => .fault s
      | c :: cs =>
          if h : s.pos < s.memory.length then
            .cont (rest, K)
              { s with memory := s.memory.set s.pos (charToI8 c), inputs := cs }
          else .fault { s with inputs := cs }
  | (.prim _ :: _, _), s => .fault s

/-- Run the tree machine for at most `fuel` steps. -/
def mrun : Nat → MCfg → VMState → TRes
  | 0, _, s => .timeout s
  | fuel + 1, c, s =>
      match tstep c s with
      | .cont c' s' => mrun fuel c' s'
      | .done s' => .ok s'
      | .fault s' => .fault s'

/-! ### Fuel monotonicity of the big-step interpreter -/

/-- A tree-level result that is not a timeout. -/
def conv : TRes → Prop
  | .timeout _ => False
  | _ => True

/-- Sequential composition of tree-level results. -/
def after (r : TRes) (g : VMState → TRes) : TRes :=
  match r with
  | .ok s => g s
  | r => r

theorem runN_succ_prim (fuel : Nat) (op : Ops) (s : VMState) :
    runN (fuel + 1) (.prim op) s = primT fuel op s := rfl

theorem runN_succ_loop (fuel : Nat) (b : List Node) (s : VMState) :
    runN (fuel + 1) (.loop b) s =
      (if h : s.pos < s.memory.length then
        if s.memory[s.pos] = 0 then .ok s
        else after (runL fuel b s) (runN fuel (.loop b))
      else .fault s) := by
  show _ = (if h : s.pos < s.memory.length then
        if s.memory[s.pos] = 0 then .ok s
        else match runL fuel b s with
          | .ok s' => runN fuel (.loop b) s'
          | r => r
      else .fault s)
  rfl

theorem runL_succ_cons (fuel : Nat) (n : Node) (t : List Node) (s : VMState) :
    runL (fuel + 1) (n :: t) s = after (runN fuel n s) (runL fuel t) := by
  show _ = match runN fuel n s with
    | .ok s' => runL fuel t s'
    | r => r
  rfl

theorem after_congr {r₁ r₂ : TRes} {g₁ g₂ : VMState → TRes}
    (hr : r₁ = r₂) (hg : ∀ s, g₁ s = g₂ s) : after r₁ g₁ = after r₂ g₂ := by
  subst hr; cases r₁ <;> simp [after, hg]

theorem searchT_mono : ∀ {f f' : Nat} (v : Int) (s : VMState) (r : TRes),
    f ≤ f' → searchT f v s = r → conv r → searchT f' v s = r
  | 0, _, _, s, r, _, hr, hc => by
      cases hr; cases hc
  | f + 1, f' + 1, v, s, r, hle, hr, hc => by
      unfold searchT at hr ⊢
      split at hr
      · split at hr
        · simp_all
        · simp_all
          exact searchT_mono v _ r (by omega) hr hc
      · simp_all

theorem primT_mono {f f' : Nat} (op : Ops) (s : VMState) (r : TRes)
    (hle : f ≤ f') (hr : primT f op s = r) (hc : conv r) :
    primT f' op s = r := by
  cases op <;> simp only [primT] at hr ⊢ <;> try exact hr
  exact searchT_mono _ _ _ hle hr hc

mutual
theorem runN_mono : ∀ {f f' : Nat} (n : Node) (s : VMState) (r : TRes),
    f ≤ f' → runN f n s = r → conv r → runN f' n s = r
  | 0, _, _, s, r, _, hr, hc => by
      cases hr; cases hc
  | f + 1, f' + 1, .prim op, s, r, hle, hr, hc => by
      rw [runN_succ_prim] at hr ⊢
      exact primT_mono op s r (by omega) hr hc
  | f + 1, f' + 1, .loop b, s, r, hle, hr, hc => by
      rw [runN_succ_loop] at hr ⊢
      by_cases hpos : s.pos < s.memory.length
      · simp only [dif_pos hpos] at hr ⊢
        by_cases hz : s.memory[s.pos] = 0
        · simp only [if_pos hz] at hr ⊢
          exact hr
        · simp only [if_neg hz] at hr ⊢
          rcases hb : runL f b s with s1 | s1 | s1
          · rw [hb] at hr
            rw [runL_mono b s _ (by omega : f ≤ f') hb trivial]
            simp only [after]
            simp only [after] at hr
            exact runN_mono (.loop b) s1 r (by omega) hr hc
          · rw [hb] at hr
            rw [runL_mono b s _ (by omega : f ≤ f') hb trivial]
            simp only [after] at hr ⊢
            exact hr
          · rw [hb] at hr
            simp only [after] at hr
            rw [← hr] at hc
            cases hc
      · simp only [dif_neg hpos] at hr ⊢
        exact hr
theorem runL_mono : ∀ {f f' : Nat} (t : List Node) (s : VMState) (r : TRes),
    f ≤ f' → runL f t s = r → conv r → runL f' t s = r
  | 0, _, _, s, r, _, hr, hc => by
      cases hr; cases hc
  | f + 1, f' + 1, [], s, r, hle, hr, hc => hr
  | f + 1, f' + 1, n :: t, s, r, hle, hr, hc => by
      rw [runL_succ_cons] at hr ⊢
      rcases hn : runN f n s with s1 | s1 | s1
      · rw [hn] at hr
        rw [runN_mono n s _ (by omega : f ≤ f') hn trivial]
        simp only [after]
        simp only [after] at hr
        exact runL_mono t s1 r (by omega) hr hc
      · rw [hn] at hr
        rw [runN_mono n s _ (by omega : f ≤ f') hn trivial]
        simp only [after] at hr ⊢
        exact hr
      · rw [hn] at hr
        simp only [after] at hr
        rw [← hr] at hc
        cases hc
end

/-! ### Denotation of machine configurations -/

/-- Big-step meaning of a frame stack: for each frame, finish the loop,
then run the rest of its sequence. -/
def runKf (fuel : Nat) : List (List Node × List Node) → VMState → TRes
  | [], s => .ok s
  | (b, rest) :: K, s =>
      after (runN fuel (.loop b) s) fun s1 =>
        after (runL fuel rest s1) (runKf fuel K)

/-- Big-step meaning of a machine configuration. -/
def runCfg (fuel : Nat) (c : MCfg) (s : VMState) : TRes :=
  after (runL fuel c.1 s) (runKf fuel c.2)

theorem after_mono {r r' : TRes} {g g' : VMState → TRes} {o : TRes}
    (hmono : ∀ s x, g s = x → conv x → g' s = x)
    (hr : ∀ x, r = x → conv x → r' = x)
    (h : after r g = o) (hc : conv o) : after r' g' = o := by
  rcases hro : r with s1 | s1 | s1
  · rw [hro] at h
    simp only [after] at h
    rw [hr _ hro trivial]
    simp only [after]
    exact hmono _ _ h hc
  · rw [hro] at h
    simp only [after] at h
    rw [hr _ hro trivial]
    simp only [after]
    exact h
  · rw [hro] at h
    simp only [after] at h
    rw [← h] at hc
    cases hc

theorem runKf_mono : ∀ {f f' : Nat} (K : List (List Node × List Node))
    (s : VMState) (r : TRes),
    f ≤ f' → runKf f K s = r → conv r → runKf f' K s = r
  | _, _, [], s, r, _, hr, _ => hr
  | f, f', (b, rest) :: K, s, r, hle, hr, hc => by
      unfold runKf at hr ⊢
      refine after_mono ?_ ?_ hr hc
      · intro s1 x hx hcx
        refine after_mono ?_ ?_ hx hcx
        · intro s2 y hy hcy
          exact runKf_mono K s2 y hle hy hcy
        · intro y hy hcy
          exact runL_mono rest s1 y hle hy hcy
      · intro x hx hcx
        exact runN_mono (.loop b) s x hle hx hcx

theorem runCfg_mono {f f' : Nat} (c : MCfg) (s : VMState) (r : TRes)
    (hle : f ≤ f') (hr : runCfg f c s = r) (hc : conv r) :
    runCfg f' c s = r := by
  unfold runCfg at hr ⊢
  refine after_mono ?_ ?_ hr hc
  · intro s1 x hx hcx
    exact runKf_mono c.2 s1 x hle hx hcx
  · intro x hx hcx
    exact runL_mono c.1 s x hle hx hcx

/-! ### Convergence predicates (existentially quantified fuel) -/

/-- A fuel-indexed state transformer is monotone when any non-timeout
result persists under more fuel. -/
def Mono (F : Nat → VMState → TRes) : Prop :=
  ∀ {f f' : Nat} (s : VMState) (r : TRes), f ≤ f' → F f s = r → conv r → F f' s = r

/-- A family converges at `s` to `r` when some fuel suffices. -/
def ConvF (F : Nat → VMState → TRes) (s : VMState) (r : TRes) : Prop :=
  conv r ∧ ∃ f, F f s = r

/-- Relational sequential composition with fault propagation. -/
def SeqP (P Q : VMState → TRes → Prop) (s : VMState) (r : TRes) : Prop :=
  (∃ m, P s (.ok m) ∧ Q m r) ∨ (∃ fs, r = .fault fs ∧ P s (.fault fs))

theorem seq_iff {F G H : Nat → VMState → TRes} (hF : Mono F) (hG : Mono G)
    (s : VMState) (hH : ∀ f, H f s = after (F f s) (G f)) (r : TRes) :
    ConvF H s r ↔ SeqP (ConvF F) (ConvF G) s r := by
  constructor
  · rintro ⟨hc, f, hf⟩
    rw [hH f] at hf
    rcases hFf : F f s with m | m | m <;> rw [hFf] at hf <;>
      simp only [after] at hf
    · exact .inl ⟨m, ⟨trivial, f, hFf⟩, hc, f, hf⟩
    · exact .inr ⟨m, hf.symm, trivial, f, hFf⟩
    · rw [← hf] at hc; cases hc
  · rintro (⟨m, ⟨-, f1, h1⟩, hc, f2, h2⟩ | ⟨fs, hrfs, -, f1, h1⟩)
    · refine ⟨hc, max f1 f2, ?_⟩
      rw [hH]
      rw [hF s _ (le_max_left f1 f2) h1 trivial]
      simp only [after]
      exact hG m r (le_max_right f1 f2) h2 hc
    · refine ⟨by rw [hrfs]; trivial, f1, ?_⟩
      rw [hH, h1]
      simp only [after]
      exact hrfs.symm

theorem ConvF_shift {F : Nat → VMState → TRes} (hF : Mono F) (s : VMState)
    (r : TRes) : ConvF (fun f => F (f + 1)) s r ↔ ConvF F s r := by
  constructor
  · rintro ⟨hc, f, h⟩
    exact ⟨hc, f + 1, h⟩
  · rintro ⟨hc, f, h⟩
    exact ⟨hc, f, hF s r (by omega) h hc⟩

/-- Convergence of one node. -/
def CN (n : Node) : VMState → TRes → Prop := ConvF fun f s => runN f n s

/-- Convergence of a node list. -/
def CL (t : List Node) : VMState → TRes → Prop := ConvF fun f s => runL f t s

/-- Convergence of a frame stack. -/
def CK (K : List (List Node × List Node)) : VMState → TRes → Prop :=
  ConvF fun f s => runKf f K s

/-- Convergence of a machine configuration. -/
def CC (c : MCfg) : VMState → TRes → Prop := ConvF fun f s => runCfg f c s

theorem monoN (n : Node) : Mono fun f s => runN f n s :=
  fun s r hle h hc => runN_mono n s r hle h hc

theorem monoL (t : List Node) : Mono fun f s => runL f t s :=
  fun s r hle h hc => runL_mono t s r hle h hc

theorem monoK (K : List (List Node × List Node)) : Mono fun f s => runKf f K s :=
  fun s r hle h hc => runKf_mono K s r hle h hc

theorem monoCC (c : MCfg) : Mono fun f s => runCfg f c s :=
  fun s r hle h hc => runCfg_mono c s r hle h hc

theorem CL_nil (s : VMState) (r : TRes) : CL [] s r ↔ r = .ok s := by
  constructor
  · rintro ⟨hc, f, h⟩
    cases f with
    | zero => cases h; cases hc
    | succ f => exact h.symm
  · rintro rfl
    exact ⟨trivial, 1, rfl⟩

theorem CL_cons (n : Node) (t : List Node) (s : VMState) (r : TRes) :
    CL (n :: t) s r ↔ SeqP (CN n) (CL t) s r := by
  rw [show CL (n :: t) s r ↔ ConvF (fun f s => runL (f + 1) (n :: t) s) s r from
    (ConvF_shift (monoL (n :: t)) s r).symm]
  exact seq_iff (monoN n) (monoL t) s (fun f => runL_succ_cons f n t s) r

theorem CK_nil (s : VMState) (r : TRes) : CK [] s r ↔ r = .ok s := by
  constructor
  · rintro ⟨hc, f, h⟩
    exact h.symm
  · rintro rfl
    exact ⟨trivial, 0, rfl⟩

theorem SeqP_congr {P Q Q' : VMState → TRes → Prop}
    (h : ∀ m r, Q m r ↔ Q' m r) (s : VMState) (r : TRes) :
    SeqP P Q s r ↔ SeqP P Q' s r := by
  unfold SeqP
  constructor
  · rintro (⟨m, hp, hq⟩ | hf)
    · exact .inl ⟨m, hp, (h m r).mp hq⟩
    · exact .inr hf
  · rintro (⟨m, hp, hq⟩ | hf)
    · exact .inl ⟨m, hp, (h m r).mpr hq⟩
    · exact .inr hf

theorem CK_cons (b rest : List Node) (K : List (List Node × List Node))
    (s : VMState) (r : TRes) :
    CK ((b, rest) :: K) s r ↔
      SeqP (CN (.loop b)) (SeqP (CL rest) (CK K)) s r := by
  have hG : Mono fun f s1 => after (runL f rest s1) (runKf f K) := by
    intro f f' s1 x hle hx hcx
    exact after_mono (fun s2 y hy hcy => runKf_mono K s2 y hle hy hcy)
      (fun y hy hcy => runL_mono rest s1 y hle hy hcy) hx hcx
  have h1 : CK ((b, rest) :: K) s r ↔
      SeqP (CN (.loop b))
        (ConvF fun f s1 => after (runL f rest s1) (runKf f K)) s r :=
    seq_iff (monoN (.loop b)) hG s (fun _ => rfl) r
  rw [h1]
  refine SeqP_congr (fun m x => ?_) s r
  exact seq_iff (monoL rest) (monoK K) m (fun _ => rfl) x

theorem CC_def (c : MCfg) (s : VMState) (r : TRes) :
    CC c s r ↔ SeqP (CL c.1) (CK c.2) s r :=
  seq_iff (monoL c.1) (monoK c.2) s (fun _ => rfl) r

theorem CN_prim (op : Ops) (s : VMState) (r : TRes) :
    CN (.prim op) s r ↔ conv r ∧ ∃ f, primT f op s = r := by
  rw [show CN (.prim op) s r ↔ ConvF (fun f s => runN (f + 1) (.prim op) s) s r
    from (ConvF_shift (monoN (.prim op)) s r).symm]
  exact Iff.rfl

theorem CN_loop_oob (b : List Node) (s : VMState) (r : TRes)
    (hpos : ¬ s.pos < s.memory.length) : CN (.loop b) s r ↔ r = .fault s := by
  rw [show CN (.loop b) s r ↔ ConvF (fun f s => runN (f + 1) (.loop b) s) s r
    from (ConvF_shift (monoN (.loop b)) s r).symm]
  constructor
  · rintro ⟨hc, f, h⟩
    have h' : runN (f + 1) (.loop b) s = r := h
    rw [runN_succ_loop, dif_neg hpos] at h'
    exact h'.symm
  · rintro rfl
    exact ⟨trivial, 0, show runN (0 + 1) (.loop b) s = _ by
      rw [runN_succ_loop, dif_neg hpos]⟩

theorem CN_loop_zero (b : List Node) (s : VMState) (r : TRes)
    (hpos : s.pos < s.memory.length) (hz : s.memory[s.pos] = 0) :
    CN (.loop b) s r ↔ r = .ok s := by
  rw [show CN (.loop b) s r ↔ ConvF (fun f s => runN (f + 1) (.loop b) s) s r
    from (ConvF_shift (monoN (.loop b)) s r).symm]
  constructor
  · rintro ⟨hc, f, h⟩
    have h' : runN (f + 1) (.loop b) s = r := h
    rw [runN_succ_loop, dif_pos hpos, if_pos hz] at h'
    exact h'.symm
  · rintro rfl
    exact ⟨trivial, 0, show runN (0 + 1) (.loop b) s = _ by
      rw [runN_succ_loop, dif_pos hpos, if_pos hz]⟩

theorem CN_loop_iter (b : List Node) (s : VMState) (r : TRes)
    (hpos : s.pos < s.memory.length) (hnz : ¬ s.memory[s.pos] = 0) :
    CN (.loop b) s r ↔ SeqP (CL b) (CN (.loop b)) s r := by
  rw [show CN (.loop b) s r ↔ ConvF (fun f s => runN (f + 1) (.loop b) s) s r
    from (ConvF_shift (monoN (.loop b)) s r).symm]
  exact seq_iff (monoL b) (monoN (.loop b)) s
    (fun f => by rw [runN_succ_loop, dif_pos hpos, if_neg hnz]) r

theorem SeqP_assoc (P Q R : VMState → TRes → Prop) (s : VMState) (r : TRes) :
    SeqP (SeqP P Q) R s r ↔ SeqP P (fun m => SeqP Q R m) s r := by
  unfold SeqP
  constructor
  · rintro (⟨m2, (⟨m1, hp, hq⟩ | ⟨fs, hfs, hpf⟩), hr⟩ |
      ⟨fs, hrfs, (⟨m1, hp, hq⟩ | ⟨fs2, hfs2, hpf⟩)⟩)
    · exact .inl ⟨m1, hp, .inl ⟨m2, hq, hr⟩⟩
    · cases hfs
    · exact .inl ⟨m1, hp, .inr ⟨fs, hrfs, hq⟩⟩
    · cases hfs2
      exact .inr ⟨_, hrfs, hpf⟩
  · rintro (⟨m1, hp, (⟨m2, hq, hr⟩ | ⟨fs, hrfs, hqf⟩)⟩ | ⟨fs, hrfs, hpf⟩)
    · exact .inl ⟨m2, .inl ⟨m1, hp, hq⟩, hr⟩
    · exact .inr ⟨fs, hrfs, .inl ⟨m1, hp, hqf⟩⟩
    · exact .inr ⟨fs, hrfs, .inr ⟨fs, rfl, hpf⟩⟩

theorem SeqP_unit {P : VMState → TRes → Prop} {s : VMState}
    (hP : ∀ r', P s r' ↔ r' = .ok s) (Q : VMState → TRes → Prop) (r : TRes) :
    SeqP P Q s r ↔ Q s r := by
  unfold SeqP
  constructor
  · rintro (⟨m, hp, hq⟩ | ⟨fs, hrfs, hpf⟩)
    · cases (hP (.ok m)).mp hp
      exact hq
    · cases (hP (.fault fs)).mp hpf
  · intro hq
    exact .inl ⟨s, (hP (.ok s)).mpr rfl, hq⟩

theorem SeqP_congrP {P P' Q : VMState → TRes → Prop} {s : VMState}
    (h : ∀ r', P s r' ↔ P' s r') (r : TRes) :
    SeqP P Q s r ↔ SeqP P' Q s r := by
  unfold SeqP
  constructor
  · rintro (⟨m, hp, hq⟩ | ⟨fs, hrfs, hpf⟩)
    · exact .inl ⟨m, (h _).mp hp, hq⟩
    · exact .inr ⟨fs, hrfs, (h _).mp hpf⟩
  · rintro (⟨m, hp, hq⟩ | ⟨fs, hrfs, hpf⟩)
    · exact .inl ⟨m, (h _).mpr hp, hq⟩
    · exact .inr ⟨fs, hrfs, (h _).mpr hpf⟩

theorem CC_cons (n : Node) (C : List Node)
    (K : List (List Node × List Node)) (s : VMState) (r : TRes) :
    CC (n :: C, K) s r ↔ SeqP (CN n) (fun m => CC (C, K) m) s r := by
  rw [CC_def]
  have h1 : SeqP (CL (n :: C)) (CK K) s r ↔
      SeqP (SeqP (CN n) (CL C)) (CK K) s r :=
    SeqP_congrP (fun r' => CL_cons n C s r') r
  rw [h1, SeqP_assoc]
  exact SeqP_congr (fun m x => (CC_def (C, K) m x).symm) s r

theorem CC_pop (b rest : List Node) (K : List (List Node × List Node))
    (s : VMState) (r : TRes) :
    CC ([], (b, rest) :: K) s r ↔ CC (.loop b :: rest, K) s r := by
  rw [CC_def, SeqP_unit (fun r' => CL_nil s r') _ r, CK_cons]
  rw [show CC (Node.loop b :: rest, K) s r ↔
      SeqP (CN (.loop b)) (fun m => CC (rest, K) m) s r from
    CC_cons (.loop b) rest K s r]
  exact SeqP_congr (fun m x => by rw [CC_def]) s r

theorem CC_of_CK {K : List (List Node × List Node)} {s : VMState} {r : TRes}
    (h : CK K s r) : CC ([], K) s r := by
  rw [CC_def, SeqP_unit (fun r' => CL_nil s r')]
  exact h

theorem searchT_succ (f : Nat) (v : Int) (s : VMState) :
    searchT (f + 1) v s =
      (if h : s.pos < s.memory.length then
        if s.memory[s.pos] = 0 then .ok s
        else searchT f v { s with pos := wrapPos s.pos v }
      else .fault s) := rfl

theorem CN_search_step (v : Int) (s : VMState)
    (hpos : s.pos < s.memory.length) (hnz : ¬ s.memory[s.pos] = 0) (r : TRes) :
    CN (.prim (.SearchZeroCell v)) s r ↔
      CN (.prim (.SearchZeroCell v)) { s with pos := wrapPos s.pos v } r := by
  rw [CN_prim, CN_prim]
  simp only [primT]
  constructor
  · rintro ⟨hc, f, h⟩
    refine ⟨hc, ?_⟩
    cases f with
    | zero => cases h; cases hc
    | succ f =>
        rw [searchT_succ, dif_pos hpos, if_neg hnz] at h
        exact ⟨f, h⟩
  · rintro ⟨hc, f, h⟩
    refine ⟨hc, f + 1, ?_⟩
    rw [searchT_succ, dif_pos hpos, if_neg hnz]
    exact h

/-! ### Backward simulation: a terminating machine run yields big-step
convergence -/

theorem loopTest_cont_CK {b rest : List Node}
    {K : List (List Node × List Node)} {c' : MCfg} {s s' : VMState} {r : TRes}
    (h : loopTest b rest K s = .cont c' s') (hcc : CC c' s' r) :
    CK ((b, rest) :: K) s r := by
  unfold loopTest at h
  by_cases hpos : s.pos < s.memory.length
  · rw [dif_pos hpos] at h
    by_cases hz : s.memory[s.pos] = 0
    · rw [if_pos hz] at h
      cases h
      rw [CK_cons]
      exact .inl ⟨s, (CN_loop_zero b s _ hpos hz).mpr rfl,
        (CC_def (rest, K) s r).mp hcc⟩
    · rw [if_neg hz] at h
      cases h
      rw [CK_cons]
      have hgiven : SeqP (CL b)
          (fun m => SeqP (CN (.loop b)) (SeqP (CL rest) (CK K)) m) s r := by
        have h1 := (CC_def (b, (b, rest) :: K) s r).mp hcc
        exact (SeqP_congr (fun m x => CK_cons b rest K m x) s r).mp h1
      have hiter := fun r' => CN_loop_iter b s r' hpos hz
      rcases hgiven with ⟨m, hbm, inner⟩ | ⟨fs, hrfs, hbf⟩
      · rcases inner with ⟨m2, hlm, hx⟩ | ⟨fs, hrfs, hlf⟩
        · exact .inl ⟨m2, (hiter _).mpr (.inl ⟨m, hbm, hlm⟩), hx⟩
        · exact .inr ⟨fs, hrfs, (hiter _).mpr (.inl ⟨m, hbm, hlf⟩)⟩
      · exact .inr ⟨fs, hrfs, (hiter _).mpr (.inr ⟨fs, rfl, hbf⟩)⟩
  · rw [dif_neg hpos] at h
    cases h

theorem tstep_cont_CC {c c' : MCfg} {s s' : VMState} {r : TRes}
    (h : tstep c s = .cont c' s') (hcc : CC c' s' r) : CC c s r := by
  obtain ⟨C, K⟩ := c
  match C, K with
  | [], [] => cases h
  | [], (b, rest) :: K' =>
      exact CC_of_CK (loopTest_cont_CK h hcc)
  | .loop b :: rest, K =>
      exact (CC_pop b rest K s r).mp (CC_of_CK (loopTest_cont_CK h hcc))
  | .prim (.Move v) :: rest, K =>
      cases h
      rw [CC_cons]
      exact .inl ⟨_, (CN_prim _ s _).mpr ⟨trivial, 0, rfl⟩, hcc⟩
  | .prim (.Mod v) :: rest, K =>
      have h' : (if h : s.pos < s.memory.length then
          MRes.cont (rest, K)
            { s with memory := s.memory.set s.pos (wrapI8 (s.memory[s.pos] + v)) }
        else MRes.fault s) = .cont c' s' := h
      by_cases hpos : s.pos < s.memory.length
      · rw [dif_pos hpos] at h'
        cases h'
        rw [CC_cons]
        exact .inl ⟨_, (CN_prim _ s _).mpr ⟨trivial, 0, by
          simp only [primT]; rw [dif_pos hpos]⟩, hcc⟩
      · rw [dif_neg hpos] at h'
        cases h'
  | .prim (.SetCell v) :: rest, K =>
      have h' : (if h : s.pos < s.memory.length then
          MRes.cont (rest, K) { s with memory := s.memory.set s.pos v }
        else MRes.fault s) = .cont c' s' := h
      by_cases hpos : s.pos < s.memory.length
      · rw [dif_pos hpos] at h'
        cases h'
        rw [CC_cons]
        exact .inl ⟨_, (CN_prim _ s _).mpr ⟨trivial, 0, by
          simp only [primT]; rw [dif_pos hpos]⟩, hcc⟩
      · rw [dif_neg hpos] at h'
        cases h'
  | .prim (.SearchZeroCell v) :: rest, K =>
      have h' : (if h : s.pos < s.memory.length then
          if s.memory[s.pos] = 0 then MRes.cont (rest, K) s
          else MRes.cont (.prim (.SearchZeroCell v) :: rest, K)
            { s with pos := wrapPos s.pos v }
        else MRes.fault s) = .cont c' s' := h
      by_cases hpos : s.pos < s.memory.length
      · rw [dif_pos hpos] at h'
        by_cases hz : s.memory[s.pos] = 0
        · rw [if_pos hz] at h'
          cases h'
          rw [CC_cons]
          refine .inl ⟨s, (CN_prim _ s _).mpr ⟨trivial, 1, ?_⟩, hcc⟩
          simp only [primT]
          unfold searchT
          rw [dif_pos hpos, if_pos hz]
        · rw [if_neg hz] at h'
          cases h'
          rw [CC_cons]
          have hgiven := (CC_cons (.prim (.SearchZeroCell v)) rest K _ r).mp hcc
          have hstep := fun r' => CN_search_step v s hpos hz r'
          rcases hgiven with ⟨m, hp, hx⟩ | ⟨fs, hrfs, hpf⟩
          · exact .inl ⟨m, (hstep _).mpr hp, hx⟩
          · exact .inr ⟨fs, hrfs, (hstep _).mpr hpf⟩
      · rw [dif_neg hpos] at h'
        cases h'
  | .prim .Print :: rest, K =>
      have h' : (if h : s.pos < s.memory.length then
          MRes.cont (rest, K)
            { s with output := s.output ++ [toByte s.memory[s.pos]] }
        else MRes.fault s) = .cont c' s' := h
      by_cases hpos : s.pos < s.memory.length
      · rw [dif_pos hpos] at h'
        cases h'
        rw [CC_cons]
        exact .inl ⟨_, (CN_prim _ s _).mpr ⟨trivial, 0, by
          simp only [primT]; rw [dif_pos hpos]⟩, hcc⟩
      · rw [dif_neg hpos] at h'
        cases h'
  | .prim .Read :: rest, K =>
      rcases hin : s.inputs with _ | ⟨ch, cs⟩
      · have h' : MRes.fault s = .cont c' s' := by
          rw [show MRes.fault s = tstep (.prim .Read :: rest, K) s from by
            show _ = (match s.inputs with
              | [] => MRes.fault s
              | c :: cs =>
                  if h : s.pos < s.memory.length then
                    MRes.cont (rest, K)
                      { s with memory := s.memory.set s.pos (charToI8 c),
                               inputs := cs }
                  else MRes.fault { s with inputs := cs })
            rw [hin]]
          exact h
        cases h'
      · have h' : (if h : s.pos < s.memory.length then
            MRes.cont (rest, K)
              { s with memory := s.memory.set s.pos (charToI8 ch), inputs := cs }
          else MRes.fault { s with inputs := cs }) = .cont c' s' := by
          rw [show (if h : s.pos < s.memory.length then
              MRes.cont (rest, K)
                { s with memory := s.memory.set s.pos (charToI8 ch), inputs := cs }
            else MRes.fault { s with inputs := cs }) =
              tstep (.prim .Read :: rest, K) s from by
            show _ = (match s.inputs with
              | [] => MRes.fault s
              | c :: cs =>
                  if h : s.pos < s.memory.length then
                    MRes.cont (rest, K)
                      { s with memory := s.memory.set s.pos (charToI8 c),
                               inputs := cs }
                  else MRes.fault { s with inputs := cs })
            rw [hin]]
          exact h
        by_cases hpos : s.pos < s.memory.length
        · rw [dif_pos hpos] at h'
          cases h'
          rw [CC_cons]
          refine .inl ⟨_, (CN_prim _ s _).mpr ⟨trivial, 0, ?_⟩, hcc⟩
          simp [primT, hin, hpos]
        · rw [dif_neg hpos] at h'
          cases h'
  | .prim (.LoopOpen e) :: rest, K => cases h
  | .prim (.LoopClose e) :: rest, K => cases h
  | .prim .End :: rest, K => cases h

theorem loopTest_fault_CK {b rest : List Node}
    {K : List (List Node × List Node)} {s fs : VMState}
    (h : loopTest b rest K s = .fault fs) : CK ((b, rest) :: K) s (.fault fs) := by
  unfold loopTest at h
  by_cases hpos : s.pos < s.memory.length
  · rw [dif_pos hpos] at h
    by_cases hz : s.memory[s.pos] = 0
    · rw [if_pos hz] at h; cases h
    · rw [if_neg hz] at h; cases h
  · rw [dif_neg hpos] at h
    cases h
    rw [CK_cons]
    exact .inr ⟨s, rfl, (CN_loop_oob b s _ hpos).mpr rfl⟩

theorem tstep_fault_CC {c : MCfg} {s fs : VMState}
    (h : tstep c s = .fault fs) : CC c s (.fault fs) := by
  obtain ⟨C, K⟩ := c
  match C, K with
  | [], [] => cases h
  | [], (b, rest) :: K' =>
      exact CC_of_CK (loopTest_fault_CK h)
  | .loop b :: rest, K =>
      exact (CC_pop b rest K s _).mp (CC_of_CK (loopTest_fault_CK h))
  | .prim (.Move v) :: rest, K => cases h
  | .prim (.Mod v) :: rest, K =>
      have h' : (if h : s.pos < s.memory.length then
          MRes.cont (rest, K)
            { s with memory := s.memory.set s.pos (wrapI8 (s.memory[s.pos] + v)) }
        else MRes.fault s) = .fault fs := h
      by_cases hpos : s.pos < s.memory.length
      · rw [dif_pos hpos] at h'; cases h'
      · rw [dif_neg hpos] at h'
        cases h'
        rw [CC_cons]
        exact .inr ⟨s, rfl, (CN_prim _ s _).mpr ⟨trivial, 0, by
          simp only [primT]; rw [dif_neg hpos]⟩⟩
  | .prim (.SetCell v) :: rest, K =>
      have h' : (if h : s.pos < s.memory.length then
          MRes.cont (rest, K) { s with memory := s.memory.set s.pos v }
        else MRes.fault s) = .fault fs := h
      by_cases hpos : s.pos < s.memory.length
      · rw [dif_pos hpos] at h'; cases h'
      · rw [dif_neg hpos] at h'
        cases h'
        rw [CC_cons]
        exact .inr ⟨s, rfl, (CN_prim _ s _).mpr ⟨trivial, 0, by
          simp only [primT]; rw [dif_neg hpos]⟩⟩
  | .prim (.SearchZeroCell v) :: rest, K =>
      have h' : (if h : s.pos < s.memory.length then
          if s.memory[s.pos] = 0 then MRes.cont (rest, K) s
          else MRes.cont (.prim (.SearchZeroCell v) :: rest, K)
            { s with pos := wrapPos s.pos v }
        else MRes.fault s) = .fault fs := h
      by_cases hpos : s.pos < s.memory.length
      · rw [dif_pos hpos] at h'
        by_cases hz : s.memory[s.pos] = 0
        · rw [if_pos hz] at h'; cases h'
        · rw [if_neg hz] at h'; cases h'
      · rw [dif_neg hpos] at h'
        cases h'
        rw [CC_cons]
        refine .inr ⟨s, rfl, (CN_prim _ s _).mpr ⟨trivial, 1, ?_⟩⟩
        simp only [primT]
        rw [searchT_succ, dif_neg hpos]
  | .prim .Print :: rest, K =>
      have h' : (if h : s.pos < s.memory.length then
          MRes.cont (rest, K)
            { s with output := s.output ++ [toByte s.memory[s.pos]] }
        else MRes.fault s) = .fault fs := h
      by_cases hpos : s.pos < s.memory.length
      · rw [dif_pos hpos] at h'; cases h'
      · rw [dif_neg hpos] at h'
        cases h'
        rw [CC_cons]
        exact .inr ⟨s, rfl, (CN_prim _ s _).mpr ⟨trivial, 0, by
          simp only [primT]; rw [dif_neg hpos]⟩⟩
  | .prim .Read :: rest, K =>
      rcases hin : s.inputs with _ | ⟨ch, cs⟩
      · have h' : MRes.fault s = .fault fs := by
          rw [show MRes.fault s = tstep (.prim .Read :: rest, K) s from by
            show _ = (match s.inputs with
              | [] => MRes.fault s
              | c :: cs =>
                  if h : s.pos < s.memory.length then
                    MRes.cont (rest, K)
                      { s with memory := s.memory.set s.pos (charToI8 c),
                               inputs := cs }
                  else MRes.fault { s with inputs := cs })
            rw [hin]]
          exact h
        cases h'
        rw [CC_cons]
        exact .inr ⟨s, rfl, (CN_prim _ s _).mpr ⟨trivial, 0, by
          simp [primT, hin]⟩⟩
      · have h' : (if h : s.pos < s.memory.length then
            MRes.cont (rest, K)
              { s with memory := s.memory.set s.pos (charToI8 ch), inputs := cs }
          else MRes.fault { s with inputs := cs }) = .fault fs := by
          rw [show (if h : s.pos < s.memory.length then
              MRes.cont (rest, K)
                { s with memory := s.memory.set s.pos (charToI8 ch), inputs := cs }
            else MRes.fault { s with inputs := cs }) =
              tstep (.prim .Read :: rest, K) s from by
            show _ = (match s.inputs with
              | [] => MRes.fault s
              | c :: cs =>
                  if h : s.pos < s.memory.length then
                    MRes.cont (rest, K)
                      { s with memory := s.memory.set s.pos (charToI8 c),
                               inputs := cs }
                  else MRes.fault { s with inputs := cs })
            rw [hin]]
          exact h
        by_cases hpos : s.pos < s.memory.length
        · rw [dif_pos hpos] at h'; cases h'
        · rw [dif_neg hpos] at h'
          cases h'
          rw [CC_cons]
          exact .inr ⟨_, rfl, (CN_prim _ s _).mpr ⟨trivial, 0, by
            simp [primT, hin, hpos]⟩⟩
  | .prim (.LoopOpen e) :: rest, K =>
      cases h
      rw [CC_cons]
      exact .inr ⟨s, rfl, (CN_prim _ s _).mpr ⟨trivial, 0, rfl⟩⟩
  | .prim (.LoopClose e) :: rest, K =>
      cases h
      rw [CC_cons]
      exact .inr ⟨s, rfl, (CN_prim _ s _).mpr ⟨trivial, 0, rfl⟩⟩
  | .prim .End :: rest, K =>
      cases h
      rw [CC_cons]
      exact .inr ⟨s, rfl, (CN_prim _ s _).mpr ⟨trivial, 0, rfl⟩⟩

theorem tstep_done {c : MCfg} {s s' : VMState} (h : tstep c s = .done s') :
    c = ([], []) ∧ s' = s := by
  obtain ⟨C, K⟩ := c
  match C, K with
  | [], [] => cases h; exact ⟨rfl, rfl⟩
  | [], (b, rest) :: K' =>
      have h' : loopTest b rest K' s = .done s' := h
      unfold loopTest at h'
      by_cases hpos : s.pos < s.memory.length
      · rw [dif_pos hpos] at h'
        by_cases hz : s.memory[s.pos] = 0
        · rw [if_pos hz] at h'; cases h'
        · rw [if_neg hz] at h'; cases h'
      · rw [dif_neg hpos] at h'; cases h'
  | .loop b :: rest, K =>
      have h' : loopTest b rest K s = .done s' := h
      unfold loopTest at h'
      by_cases hpos : s.pos < s.memory.length
      · rw [dif_pos hpos] at h'
        by_cases hz : s.memory[s.pos] = 0
        · rw [if_pos hz] at h'; cases h'
        · rw [if_neg hz] at h'; cases h'
      · rw [dif_neg hpos] at h'; cases h'
  | .prim (.Move v) :: rest, K => cases h
  | .prim (.Mod v) :: rest, K =>
      have h' : (if h : s.pos < s.memory.length then
          MRes.cont (rest, K)
            { s with memory := s.memory.set s.pos (wrapI8 (s.memory[s.pos] + v)) }
        else MRes.fault s) = .done s' := h
      by_cases hpos : s.pos < s.memory.length
      · rw [dif_pos hpos] at h'; cases h'
      · rw [dif_neg hpos] at h'; cases h'
  | .prim (.SetCell v) :: rest, K =>
      have h' : (if h : s.pos < s.memory.length then
          MRes.cont (rest, K) { s with memory := s.memory.set s.pos v }
        else MRes.fault s) = .done s' := h
      by_cases hpos : s.pos < s.memory.length
      · rw [dif_pos hpos] at h'; cases h'
      · rw [dif_neg hpos] at h'; cases h'
  | .prim (.SearchZeroCell v) :: rest, K =>
      have h' : (if h : s.pos < s.memory.length then
          if s.memory[s.pos] = 0 then MRes.cont (rest, K) s
          else MRes.cont (.prim (.SearchZeroCell v) :: rest, K)
            { s with pos := wrapPos s.pos v }
        else MRes.fault s) = .done s' := h
      by_cases hpos : s.pos < s.memory.length
      · rw [dif_pos hpos] at h'
        by_cases hz : s.memory[s.pos] = 0
        · rw [if_pos hz] at h'; cases h'
        · rw [if_neg hz] at h'; cases h'
      · rw [dif_neg hpos] at h'; cases h'
  | .prim .Print :: rest, K =>
      have h' : (if h : s.pos < s.memory.length then
          MRes.cont (rest, K)
            { s with output := s.output ++ [toByte s.memory[s.pos]] }
        else MRes.fault s) = .done s' := h
      by_cases hpos : s.pos < s.memory.length
      · rw [dif_pos hpos] at h'; cases h'
      · rw [dif_neg hpos] at h'; cases h'
  | .prim .Read :: rest, K =>
      rcases hin : s.inputs with _ | ⟨ch, cs⟩
      · have h' : MRes.fault s = .done s' := by
          rw [show MRes.fault s = tstep (.prim .Read :: rest, K) s from by
            show _ = (match s.inputs with
              | [] => MRes.fault s
              | c :: cs =>
                  if h : s.pos < s.memory.length then
                    MRes.cont (rest, K)
                      { s with memory := s.memory.set s.pos (charToI8 c),
                               inputs := cs }
                  else MRes.fault { s with inputs := cs })
            rw [hin]]
          exact h
        cases h'
      · have h' : (if h : s.pos < s.memory.length then
            MRes.cont (rest, K)
              { s with memory := s.memory.set s.pos (charToI8 ch), inputs := cs }
          else MRes.fault { s with inputs := cs }) = .done s' := by
          rw [show (if h : s.pos < s.memory.length then
              MRes.cont (rest, K)
                { s with memory := s.memory.set s.pos (charToI8 ch), inputs := cs }
            else MRes.fault { s with inputs := cs }) =
              tstep (.prim .Read :: rest, K) s from by
            show _ = (match s.inputs with
              | [] => MRes.fault s
              | c :: cs =>
                  if h : s.pos < s.memory.length then
                    MRes.cont (rest, K)
                      { s with memory := s.memory.set s.pos (charToI8 c),
                               inputs := cs }
                  else MRes.fault { s with inputs := cs })
            rw [hin]]
          exact h
        by_cases hpos : s.pos < s.memory.length
        · rw [dif_pos hpos] at h'; cases h'
        · rw [dif_neg hpos] at h'; cases h'
  | .prim (.LoopOpen e) :: rest, K => cases h
  | .prim (.LoopClose e) :: rest, K => cases h
  | .prim .End :: rest, K => cases h

/-- A terminating machine run is reflected by the big-step semantics. -/
theorem mrun_CC : ∀ {f : Nat} {c : MCfg} {s : VMState} {r : TRes},
    mrun f c s = r → conv r → CC c s r
  | 0, c, s, r, hr, hc => by cases hr; cases hc
  | f + 1, c, s, r, hr, hc => by
      unfold mrun at hr
      rcases hts : tstep c s with ⟨c', s'⟩ | s' | s'
      · rw [hts] at hr
        exact tstep_cont_CC hts (mrun_CC hr hc)
      · rw [hts] at hr
        simp only at hr
        obtain ⟨hcfg, rfl⟩ := tstep_done hts
        cases hcfg
        cases hr
        exact ⟨trivial, 1, rfl⟩
      · rw [hts] at hr
        simp only at hr
        cases hr
        exact tstep_fault_CC hts

/-! ### Forward simulation: big-step convergence drives the machine -/

/-- Deterministic multi-step machine transition. -/
def mstepsTo : Nat → MCfg → VMState → Option (MCfg × VMState)
  | 0, c, s => some (c, s)
  | n + 1, c, s =>
      match tstep c s with
      | .cont c' s' => mstepsTo n c' s'
      | _ => none

/-- Reachability in the machine. -/
def Reach (c : MCfg) (s : VMState) (c' : MCfg) (s' : VMState) : Prop :=
  ∃ n, mstepsTo n c s = some (c', s')

/-- A reachable configuration at which the machine faults. -/
def FaultReach (c : MCfg) (s : VMState) (fs : VMState) : Prop :=
  ∃ c1 s1, Reach c s c1 s1 ∧ tstep c1 s1 = .fault fs

theorem Reach_refl (c : MCfg) (s : VMState) : Reach c s c s := ⟨0, rfl⟩

theorem mstepsTo_comp : ∀ {n : Nat} {c : MCfg} {s : VMState} {c1 : MCfg}
    {s1 : VMState} (m : Nat) (X : Option (MCfg × VMState)),
    mstepsTo n c s = some (c1, s1) → mstepsTo m c1 s1 = X →
    mstepsTo (n + m) c s = X
  | 0, c, s, c1, s1, m, X, h1, h2 => by
      cases h1
      rw [show 0 + m = m from by omega]
      exact h2
  | n + 1, c, s, c1, s1, m, X, h1, h2 => by
      rw [show n + 1 + m = (n + m) + 1 from by omega]
      unfold mstepsTo at h1 ⊢
      rcases hts : tstep c s with ⟨c', s'⟩ | s' | s'
      · rw [hts] at h1
        exact mstepsTo_comp m X h1 h2
      · rw [hts] at h1; cases h1
      · rw [hts] at h1; cases h1

theorem Reach_trans {c : MCfg} {s : VMState} {c1 : MCfg} {s1 : VMState}
    {c2 : MCfg} {s2 : VMState} (h1 : Reach c s c1 s1) (h2 : Reach c1 s1 c2 s2) :
    Reach c s c2 s2 := by
  obtain ⟨n, hn⟩ := h1
  obtain ⟨m, hm⟩ := h2
  exact ⟨n + m, mstepsTo_comp m _ hn hm⟩

theorem Reach_step {c c' : MCfg} {s s' : VMState}
    (h : tstep c s = .cont c' s') : Reach c s c' s' := by
  refine ⟨1, ?_⟩
  unfold mstepsTo
  rw [h]
  rfl

theorem Reach_transfer {c1 c2 c' : MCfg} {s s' : VMState}
    (heq : tstep c1 s = tstep c2 s) (hne : c1 ≠ c')
    (h : Reach c1 s c' s') : Reach c2 s c' s' := by
  obtain ⟨n, hn⟩ := h
  cases n with
  | zero =>
      cases hn
      exact absurd rfl hne
  | succ n =>
      refine ⟨n + 1, ?_⟩
      unfold mstepsTo at hn ⊢
      rw [← heq]
      exact hn

theorem FaultReach_transfer {c1 c2 : MCfg} {s fs : VMState}
    (heq : tstep c1 s = tstep c2 s) (h : FaultReach c1 s fs) :
    FaultReach c2 s fs := by
  obtain ⟨ca, sa, ⟨n, hn⟩, hfa⟩ := h
  cases n with
  | zero =>
      cases hn
      exact ⟨c2, s, Reach_refl c2 s, heq ▸ hfa⟩
  | succ n =>
      refine ⟨ca, sa, ⟨n + 1, ?_⟩, hfa⟩
      unfold mstepsTo at hn ⊢
      rw [← heq]
      exact hn

theorem FaultReach_extend {c c1 : MCfg} {s s1 fs : VMState}
    (h1 : Reach c s c1 s1) (h2 : FaultReach c1 s1 fs) : FaultReach c s fs := by
  obtain ⟨ca, sa, hr, hf⟩ := h2
  exact ⟨ca, sa, Reach_trans h1 hr, hf⟩

theorem tstep_pop_eq (b rest : List Node) (K : List (List Node × List Node))
    (s : VMState) : tstep ([], (b, rest) :: K) s = tstep (.loop b :: rest, K) s :=
  rfl

theorem searchT_reach_ok : ∀ {f : Nat} {v : Int} {s s' : VMState},
    searchT f v s = .ok s' → ∀ (rest : List Node)
    (K : List (List Node × List Node)),
    Reach (.prim (.SearchZeroCell v) :: rest, K) s (rest, K) s'
  | 0, v, s, s', h, rest, K => by cases h
  | f + 1, v, s, s', h, rest, K => by
      rw [searchT_succ] at h
      by_cases hpos : s.pos < s.memory.length
      · rw [dif_pos hpos] at h
        by_cases hz : s.memory[s.pos] = 0
        · rw [if_pos hz] at h
          cases h
          refine Reach_step ?_
          show (if h : s.pos < s.memory.length then
              if s.memory[s.pos] = 0 then MRes.cont (rest, K) s
              else MRes.cont (.prim (.SearchZeroCell v) :: rest, K)
                { s with pos := wrapPos s.pos v }
            else MRes.fault s) = _
          rw [dif_pos hpos, if_pos hz]
        · rw [if_neg hz] at h
          refine Reach_trans (Reach_step ?_) (searchT_reach_ok h rest K)
          show (if h : s.pos < s.memory.length then
              if s.memory[s.pos] = 0 then MRes.cont (rest, K) s
              else MRes.cont (.prim (.SearchZeroCell v) :: rest, K)
                { s with pos := wrapPos s.pos v }
            else MRes.fault s) = _
          rw [dif_pos hpos, if_neg hz]
      · rw [dif_neg hpos] at h
        cases h

theorem searchT_reach_fault : ∀ {f : Nat} {v : Int} {s fs : VMState},
    searchT f v s = .fault fs → ∀ (rest : List Node)
    (K : List (List Node × List Node)),
    FaultReach (.prim (.SearchZeroCell v) :: rest, K) s fs
  | 0, v, s, fs, h, rest, K => by cases h
  | f + 1, v, s, fs, h, rest, K => by
      rw [searchT_succ] at h
      by_cases hpos : s.pos < s.memory.length
      · rw [dif_pos hpos] at h
        by_cases hz : s.memory[s.pos] = 0
        · rw [if_pos hz] at h; cases h
        · rw [if_neg hz] at h
          refine FaultReach_extend (Reach_step ?_) (searchT_reach_fault h rest K)
          show (if h : s.pos < s.memory.length then
              if s.memory[s.pos] = 0 then MRes.cont (rest, K) s
              else MRes.cont (.prim (.SearchZeroCell v) :: rest, K)
                { s with pos := wrapPos s.pos v }
            else MRes.fault s) = _
          rw [dif_pos hpos, if_neg hz]
      · rw [dif_neg hpos] at h
        cases h
        refine ⟨_, _, Reach_refl _ s, ?_⟩
        show (if h : s.pos < s.memory.length then
            if s.memory[s.pos] = 0 then MRes.cont (rest, K) s
            else MRes.cont (.prim (.SearchZeroCell v) :: rest, K)
              { s with pos := wrapPos s.pos v }
          else MRes.fault s) = _
        rw [dif_neg hpos]

theorem cfg_cons_ne (n : Node) (rest : List Node)
    (K K' : List (List Node × List Node)) :
    (n :: rest, K) ≠ ((rest, K') : MCfg) := by
  intro hp
  exact List.cons_ne_self n rest (congrArg Prod.fst hp)

mutual
theorem FS_N_ok : ∀ (f : Nat) (n : Node) (s s' : VMState),
    runN f n s = .ok s' → ∀ (rest : List Node)
    (K : List (List Node × List Node)), Reach (n :: rest, K) s (rest, K) s'
  | 0, n, s, s', h, rest, K => by cases h
  | f + 1, .prim op, s, s', h, rest, K => by
      rw [runN_succ_prim] at h
      cases op with
      | Move v =>
          simp only [primT] at h
          cases h
          exact Reach_step rfl
      | Mod v =>
          simp only [primT] at h
          by_cases hpos : s.pos < s.memory.length
          · rw [dif_pos hpos] at h
            cases h
            refine Reach_step ?_
            show (if h : s.pos < s.memory.length then
                MRes.cont (rest, K)
                  { s with memory :=
                      s.memory.set s.pos (wrapI8 (s.memory[s.pos] + v)) }
              else MRes.fault s) = _
            rw [dif_pos hpos]
          · rw [dif_neg hpos] at h; cases h
      | SetCell v =>
          simp only [primT] at h
          by_cases hpos : s.pos < s.memory.length
          · rw [dif_pos hpos] at h
            cases h
            refine Reach_step ?_
            show (if h : s.pos < s.memory.length then
                MRes.cont (rest, K) { s with memory := s.memory.set s.pos v }
              else MRes.fault s) = _
            rw [dif_pos hpos]
          · rw [dif_neg hpos] at h; cases h
      | SearchZeroCell v =>
          exact searchT_reach_ok h rest K
      | Print =>
          simp only [primT] at h
          by_cases hpos : s.pos < s.memory.length
          · rw [dif_pos hpos] at h
            cases h
            refine Reach_step ?_
            show (if h : s.pos < s.memory.length then
                MRes.cont (rest, K)
                  { s with output := s.output ++ [toByte s.memory[s.pos]] }
              else MRes.fault s) = _
            rw [dif_pos hpos]
          · rw [dif_neg hpos] at h; cases h
      | Read =>
          simp only [primT] at h
          rcases hin : s.inputs with _ | ⟨ch, cs⟩
          · rw [hin] at h; cases h
          · rw [hin] at h
            simp only at h
            by_cases hpos : s.pos < s.memory.length
            · rw [dif_pos hpos] at h
              cases h
              refine Reach_step ?_
              show (match s.inputs with
                | [] => MRes.fault s
                | c :: cs =>
                    if h : s.pos < s.memory.length then
                      MRes.cont (rest, K)
                        { s with memory := s.memory.set s.pos (charToI8 c),
                                 inputs := cs }
                    else MRes.fault { s with inputs := cs }) = _
              rw [hin]
              simp only
              rw [dif_pos hpos]
            · rw [dif_neg hpos] at h; cases h
      | LoopOpen e => cases h
      | LoopClose e => cases h
      | End => cases h
  | f + 1, .loop b, s, s', h, rest, K => by
      rw [runN_succ_loop] at h
      by_cases hpos : s.pos < s.memory.length
      · rw [dif_pos hpos] at h
        by_cases hz : s.memory[s.pos] = 0
        · rw [if_pos hz] at h
          cases h
          refine Reach_step ?_
          show loopTest b rest K s = _
          unfold loopTest
          rw [dif_pos hpos, if_pos hz]
        · rw [if_neg hz] at h
          rcases hb : runL f b s with s1 | s1 | s1
          · rw [hb] at h
            simp only [after] at h
            have step1 : tstep (.loop b :: rest, K) s =
                .cont (b, (b, rest) :: K) s := by
              show loopTest b rest K s = _
              unfold loopTest
              rw [dif_pos hpos, if_neg hz]
            have reach2 := FS_L_ok f b s s1 hb [] ((b, rest) :: K)
            rw [List.append_nil] at reach2
            have reach3 := FS_N_ok f (.loop b) s1 s' h rest K
            have reach3' : Reach ([], (b, rest) :: K) s1 (rest, K) s' :=
              Reach_transfer (tstep_pop_eq b rest K s1).symm
                (cfg_cons_ne _ _ _ _) reach3
            exact Reach_trans (Reach_step step1) (Reach_trans reach2 reach3')
          · rw [hb] at h
            simp only [after] at h
            cases h
          · rw [hb] at h
            simp only [after] at h
            cases h
      · rw [dif_neg hpos] at h
        cases h
theorem FS_N_fault : ∀ (f : Nat) (n : Node) (s fs : VMState),
    runN f n s = .fault fs → ∀ (rest : List Node)
    (K : List (List Node × List Node)), FaultReach (n :: rest, K) s fs
  | 0, n, s, fs, h, rest, K => by cases h
  | f + 1, .prim op, s, fs, h, rest, K => by
      rw [runN_succ_prim] at h
      cases op with
      | Move v => simp only [primT] at h; cases h
      | Mod v =>
          simp only [primT] at h
          by_cases hpos : s.pos < s.memory.length
          · rw [dif_pos hpos] at h; cases h
          · rw [dif_neg hpos] at h
            cases h
            refine ⟨_, _, Reach_refl _ s, ?_⟩
            show (if h : s.pos < s.memory.length then
                MRes.cont (rest, K)
                  { s with memory :=
                      s.memory.set s.pos (wrapI8 (s.memory[s.pos] + v)) }
              else MRes.fault s) = _
            rw [dif_neg hpos]
      | SetCell v =>
          simp only [primT] at h
          by_cases hpos : s.pos < s.memory.length
          · rw [dif_pos hpos] at h; cases h
          · rw [dif_neg hpos] at h
            cases h
            refine ⟨_, _, Reach_refl _ s, ?_⟩
            show (if h : s.pos < s.memory.length then
                MRes.cont (rest, K) { s with memory := s.memory.set s.pos v }
              else MRes.fault s) = _
            rw [dif_neg hpos]
      | SearchZeroCell v =>
          exact searchT_reach_fault h rest K
      | Print =>
          simp only [primT] at h
          by_cases hpos : s.pos < s.memory.length
          · rw [dif_pos hpos] at h; cases h
          · rw [dif_neg hpos] at h
            cases h
            refine ⟨_, _, Reach_refl _ s, ?_⟩
            show (if h : s.pos < s.memory.length then
                MRes.cont (rest, K)
                  { s with output := s.output ++ [toByte s.memory[s.pos]] }
              else MRes.fault s) = _
            rw [dif_neg hpos]
      | Read =>
          simp only [primT] at h
          rcases hin : s.inputs with _ | ⟨ch, cs⟩
          · rw [hin] at h
            simp only at h
            cases h
            refine ⟨_, _, Reach_refl _ s, ?_⟩
            show (match s.inputs with
              | [] => MRes.fault s
              | c :: cs =>
                  if h : s.pos < s.memory.length then
                    MRes.cont (rest, K)
                      { s with memory := s.memory.set s.pos (charToI8 c),
                               inputs := cs }
                  else MRes.fault { s with inputs := cs }) = _
            rw [hin]
          · rw [hin] at h
            simp only at h
            by_cases hpos : s.pos < s.memory.length
            · rw [dif_pos hpos] at h; cases h
            · rw [dif_neg hpos] at h
              cases h
              refine ⟨_, _, Reach_refl _ s, ?_⟩
              show (match s.inputs with
                | [] => MRes.fault s
                | c :: cs =>
                    if h : s.pos < s.memory.length then
                      MRes.cont (rest, K)
                        { s with memory := s.memory.set s.pos (charToI8 c),
                                 inputs := cs }
                    else MRes.fault { s with inputs := cs }) = _
              rw [hin]
              simp only
              rw [dif_neg hpos]
      | LoopOpen e =>
          cases h
          exact ⟨_, _, Reach_refl _ s, rfl⟩
      | LoopClose e =>
          cases h
          exact ⟨_, _, Reach_refl _ s, rfl⟩
      | End =>
          cases h
          exact ⟨_, _, Reach_refl _ s, rfl⟩
  | f + 1, .loop b, s, fs, h, rest, K => by
      rw [runN_succ_loop] at h
      by_cases hpos : s.pos < s.memory.length
      · rw [dif_pos hpos] at h
        by_cases hz : s.memory[s.pos] = 0
        · rw [if_pos hz] at h; cases h
        · rw [if_neg hz] at h
          have step1 : tstep (.loop b :: rest, K) s =
              .cont (b, (b, rest) :: K) s := by
            show loopTest b rest K s = _
            unfold loopTest
            rw [dif_pos hpos, if_neg hz]
          rcases hb : runL f b s with s1 | s1 | s1
          · rw [hb] at h
            simp only [after] at h
            have reach2 := FS_L_ok f b s s1 hb [] ((b, rest) :: K)
            rw [List.append_nil] at reach2
            have fr3 := FS_N_fault f (.loop b) s1 fs h rest K
            have fr3' : FaultReach ([], (b, rest) :: K) s1 fs :=
              FaultReach_transfer (tstep_pop_eq b rest K s1).symm fr3
            exact FaultReach_extend (Reach_trans (Reach_step step1) reach2) fr3'
          · rw [hb] at h
            simp only [after] at h
            cases h
            have frb := FS_L_fault f b s fs hb [] ((b, rest) :: K)
            rw [List.append_nil] at frb
            exact FaultReach_extend (Reach_step step1) frb
          · rw [hb] at h
            simp only [after] at h
            cases h
      · rw [dif_neg hpos] at h
        cases h
        refine ⟨_, _, Reach_refl _ s, ?_⟩
        show loopTest b rest K s = _
        unfold loopTest
        rw [dif_neg hpos]
theorem FS_L_ok : ∀ (f : Nat) (t : List Node) (s s' : VMState),
    runL f t s = .ok s' → ∀ (C : List Node)
    (K : List (List Node × List Node)), Reach (t ++ C, K) s (C, K) s'
  | 0, t, s, s', h, C, K => by cases h
  | f + 1, [], s, s', h, C, K => by
      cases h
      exact Reach_refl (C, K) s
  | f + 1, n :: t, s, s', h, C, K => by
      rw [runL_succ_cons] at h
      rcases hn : runN f n s with s1 | s1 | s1
      · rw [hn] at h
        simp only [after] at h
        exact Reach_trans (FS_N_ok f n s s1 hn (t ++ C) K)
          (FS_L_ok f t s1 s' h C K)
      · rw [hn] at h
        simp only [after] at h
        cases h
      · rw [hn] at h
        simp only [after] at h
        cases h
theorem FS_L_fault : ∀ (f : Nat) (t : List Node) (s fs : VMState),
    runL f t s = .fault fs → ∀ (C : List Node)
    (K : List (List Node × List Node)), FaultReach (t ++ C, K) s fs
  | 0, t, s, fs, h, C, K => by cases h
  | f + 1, [], s, fs, h, C, K => by cases h
  | f + 1, n :: t, s, fs, h, C, K => by
      rw [runL_succ_cons] at h
      rcases hn : runN f n s with s1 | s1 | s1
      · rw [hn] at h
        simp only [after] at h
        exact FaultReach_extend (FS_N_ok f n s s1 hn (t ++ C) K)
          (FS_L_fault f t s1 fs h C K)
      · rw [hn] at h
        simp only [after] at h
        cases h
        exact FS_N_fault f n s fs hn (t ++ C) K
      · rw [hn] at h
        simp only [after] at h
        cases h
end

/-! ### The big-step / machine equivalence -/

theorem SeqP_unit_right {P Q : VMState → TRes → Prop} {s : VMState}
    (hQ : ∀ m r', Q m r' ↔ r' = .ok m) (hP : ∀ r', P s r' → conv r')
    (r : TRes) : SeqP P Q s r ↔ P s r := by
  unfold SeqP
  constructor
  · rintro (⟨m, hp, hq⟩ | ⟨fs, hrfs, hpf⟩)
    · cases (hQ m r).mp hq
      exact hp
    · rw [hrfs]
      exact hpf
  · intro hp
    rcases hr : r with s' | s' | s'
    · rw [hr] at hp
      exact .inl ⟨s', hp, (hQ s' _).mpr rfl⟩
    · rw [hr] at hp
      exact .inr ⟨s', rfl, hp⟩
    · rw [hr] at hp
      cases hP _ hp

theorem CC_nilK (T : List Node) (s : VMState) (r : TRes) :
    CC (T, []) s r ↔ CL T s r := by
  rw [CC_def]
  exact SeqP_unit_right (fun m r' => CK_nil m r') (fun r' hp => hp.1) r

theorem mrun_succ (f : Nat) (c : MCfg) (s : VMState) :
    mrun (f + 1) c s =
      (match tstep c s with
       | .cont c' s' => mrun f c' s'
       | .done s' => .ok s'
       | .fault s' => .fault s') := rfl

theorem mrun_of_mstepsTo : ∀ {n : Nat} {c : MCfg} {s : VMState} {c' : MCfg}
    {s' : VMState}, mstepsTo n c s = some (c', s') →
    ∀ m, mrun (n + m) c s = mrun m c' s'
  | 0, c, s, c', s', h, m => by
      cases h
      rw [show 0 + m = m from by omega]
  | n + 1, c, s, c', s', h, m => by
      rw [show n + 1 + m = (n + m) + 1 from by omega]
      unfold mstepsTo at h
      rw [mrun_succ]
      rcases hts : tstep c s with ⟨c1, s1⟩ | s1 | s1
      · rw [hts] at h
        simp only
        exact mrun_of_mstepsTo h m
      · rw [hts] at h; cases h
      · rw [hts] at h; cases h

/-- Big-step convergence of a node list coincides with termination of the
tree machine started on it. -/
theorem CL_iff_mrun (T : List Node) (s : VMState) (r : TRes) (hc : conv r) :
    CL T s r ↔ ∃ f, mrun f (T, []) s = r := by
  constructor
  · intro hcl
    rcases hr : r with s' | s' | s'
    · obtain ⟨-, f, h⟩ := hr ▸ hcl
      have reach := FS_L_ok f T s s' h [] []
      rw [List.append_nil] at reach
      obtain ⟨n, hms⟩ := reach
      refine ⟨n + 1, ?_⟩
      rw [mrun_of_mstepsTo hms 1]
      rfl
    · obtain ⟨-, f, h⟩ := hr ▸ hcl
      have fr := FS_L_fault f T s s' h [] []
      rw [List.append_nil] at fr
      obtain ⟨c1, s1, ⟨n, hms⟩, hf⟩ := fr
      refine ⟨n + 1, ?_⟩
      rw [mrun_of_mstepsTo hms 1]
      unfold mrun
      rw [hf]
    · rw [hr] at hc
      cases hc
  · rintro ⟨f, h⟩
    exact (CC_nilK T s r).mp (mrun_CC h hc)

/-! ### Jump resolution of the token form of a tree yields its resolved
flat form -/

theorem getElem?_append_off (A B : List Ops) (n : Nat) :
    (A ++ B)[A.length + n]? = B[n]? := by
  rw [List.getElem?_append_right (by omega)]
  congr 1
  omega

theorem set_append_off (A B : List Ops) (n : Nat) (a : Ops) :
    (A ++ B).set (A.length + n) a = A ++ B.set n a := by
  rw [List.set_append, if_neg (by omega)]
  congr 2
  omega

mutual
theorem resolveGo_detokN : ∀ (nd : Node) (A B : List Ops) (stack : List Nat)
    (m : Nat), wfN nd →
    resolveGo (A ++ (detokN nd ++ B)) A.length stack (lenN nd + m) =
      resolveGo (A ++ (flatN A.length nd ++ B)) (A.length + lenN nd) stack m
  | .prim op, A, B, stack, m, hwf => by
      have hfetch : (A ++ (detokN (.prim op) ++ B))[A.length]? = some op := by
        rw [show A.length = A.length + 0 from by omega, getElem?_append_off]
        simp [detokN]
      rw [show lenN (.prim op) + m = m + 1 from by simp [lenN]; omega]
      cases op with
      | LoopOpen e => exact absurd hwf (by simp [wfN])
      | LoopClose e => exact absurd hwf (by simp [wfN])
      | End => exact absurd hwf (by simp [wfN])
      | Move v =>
          rw [resolveGo_succ_other stack m hfetch (by intro p h; cases h)
            (by intro p h; cases h)]
          simp [detokN, flatN, lenN]
      | Mod v =>
          rw [resolveGo_succ_other stack m hfetch (by intro p h; cases h)
            (by intro p h; cases h)]
          simp [detokN, flatN, lenN]
      | SetCell v =>
          rw [resolveGo_succ_other stack m hfetch (by intro p h; cases h)
            (by intro p h; cases h)]
          simp [detokN, flatN, lenN]
      | SearchZeroCell v =>
          rw [resolveGo_succ_other stack m hfetch (by intro p h; cases h)
            (by intro p h; cases h)]
          simp [detokN, flatN, lenN]
      | Print =>
          rw [resolveGo_succ_other stack m hfetch (by intro p h; cases h)
            (by intro p h; cases h)]
          simp [detokN, flatN, lenN]
      | Read =>
          rw [resolveGo_succ_other stack m hfetch (by intro p h; cases h)
            (by intro p h; cases h)]
          simp [detokN, flatN, lenN]
  | .loop b, A, B, stack, m, hwf => by
      have hwb : wfL b := by simpa [wfN] using hwf
      have hfetch : (A ++ (detokN (.loop b) ++ B))[A.length]? =
          some (.LoopOpen 0) := by
        rw [show A.length = A.length + 0 from by omega, getElem?_append_off]
        simp [detokN]
      rw [show lenN (.loop b) + m = (lenL b + (m + 1)) + 1 from by
        simp [lenN]; omega]
      rw [resolveGo_succ_open stack _ hfetch]
      have hassoc : A ++ (detokN (.loop b) ++ B) =
          (A ++ [Ops.LoopOpen 0]) ++ (detokL b ++ (Ops.LoopClose 0 :: B)) := by
        simp [detokN]
      rw [hassoc]
      rw [show A.length + 1 = (A ++ [Ops.LoopOpen 0]).length from by simp]
      rw [resolveGo_detokL b (A ++ [Ops.LoopOpen 0]) (Ops.LoopClose 0 :: B)
        (A.length :: stack) (m + 1) hwb]
      set A1 := A ++ [Ops.LoopOpen 0] with hA1
      have hlenA1 : A1.length = A.length + 1 := by simp [hA1]
      have hfetch2 : (A1 ++ (flatL A1.length b ++ (Ops.LoopClose 0 :: B)))[A1.length + lenL b]? = some (Ops.LoopClose 0) := by
        rw [show A1.length + lenL b =
          A1.length + ((flatL A1.length b).length + 0) from by
            rw [flatL_length]; omega]
        rw [show A1 ++ (flatL A1.length b ++ (Ops.LoopClose 0 :: B)) =
          (A1 ++ flatL A1.length b) ++ (Ops.LoopClose 0 :: B) from by simp]
        rw [show A1.length + ((flatL A1.length b).length + 0) =
          (A1 ++ flatL A1.length b).length + 0 from by simp]
        rw [getElem?_append_off]
        simp
      rw [resolveGo_succ_close_cons A.length stack m hfetch2]
      have hsets :
          ((A1 ++ (flatL A1.length b ++ (Ops.LoopClose 0 :: B))).set A.length
              (.LoopOpen (A1.length + lenL b))).set (A1.length + lenL b)
              (.LoopClose A.length) =
          A ++ (flatN A.length (.loop b) ++ B) := by
        rw [hA1]
        rw [show (A ++ [Ops.LoopOpen 0]) ++
            (flatL (A ++ [Ops.LoopOpen 0]).length b ++ (Ops.LoopClose 0 :: B)) =
            A ++ (Ops.LoopOpen 0 ::
              (flatL (A.length + 1) b ++ (Ops.LoopClose 0 :: B))) from by
          simp]
        rw [show A.length = A.length + 0 from by omega, set_append_off]
        simp only [List.set_cons_zero]
        rw [show A.length + 0 = A.length from by omega]
        rw [show (A ++ [Ops.LoopOpen 0]).length + lenL b =
          A.length + (1 + lenL b) from by simp; omega]
        rw [set_append_off]
        have hset2 : ∀ x : Ops, (x ::
            (flatL (A.length + 1) b ++ (Ops.LoopClose 0 :: B))).set (1 + lenL b)
              (.LoopClose A.length) =
            x :: ((flatL (A.length + 1) b ++ (Ops.LoopClose 0 :: B)).set (lenL b)
                (.LoopClose A.length)) := by
          intro x
          rw [show 1 + lenL b = lenL b + 1 from by omega]
          rfl
        rw [hset2]
        rw [show lenL b = (flatL (A.length + 1) b).length + 0 from by
          rw [flatL_length]; omega]
        rw [set_append_off]
        simp only [List.set_cons_zero]
        simp [flatN, flatL_length]
        all_goals omega
      rw [hsets]
      rw [show A1.length + lenL b + 1 = A.length + lenN (.loop b) from by
        rw [hlenA1, lenN]; omega]
theorem resolveGo_detokL : ∀ (t : List Node) (A B : List Ops) (stack : List Nat)
    (m : Nat), wfL t →
    resolveGo (A ++ (detokL t ++ B)) A.length stack (lenL t + m) =
      resolveGo (A ++ (flatL A.length t ++ B)) (A.length + lenL t) stack m
  | [], A, B, stack, m, _ => by
      simp [detokL, flatL, lenL]
  | nd :: t, A, B, stack, m, hwf => by
      have hwn : wfN nd := by
        have := hwf
        simp [wfL] at this
        exact this.1
      have hwt : wfL t := by
        have := hwf
        simp [wfL] at this
        exact this.2
      rw [show detokL (nd :: t) ++ B = detokN nd ++ (detokL t ++ B) from by
        simp [detokL]]
      rw [show lenL (nd :: t) + m = lenN nd + (lenL t + m) from by
        simp [lenL]; omega]
      rw [resolveGo_detokN nd A (detokL t ++ B) stack (lenL t + m) hwn]
      rw [show A ++ (flatN A.length nd ++ (detokL t ++ B)) =
        (A ++ flatN A.length nd) ++ (detokL t ++ B) from by simp]
      rw [show A.length + lenN nd = (A ++ flatN A.length nd).length from by
        simp [flatN_length]]
      rw [resolveGo_detokL t (A ++ flatN A.length nd) B stack m hwt]
      rw [show (A ++ flatN A.length nd) ++ (flatL (A ++ flatN A.length nd).length t ++ B) =
        A ++ (flatL A.length (nd :: t) ++ B) from by
        simp [flatL, flatN_length]]
      rw [show (A ++ flatN A.length nd).length + lenL t =
        A.length + lenL (nd :: t) from by simp [flatN_length, lenL]; omega]
end

/-- Resolving the token form of a well-formed tree produces its flat form
with the trailing `End`. -/
theorem resolve_detok (T : List Node) (hwf : wfL T) :
    resolveFrom (detokL T) 0 [] = .ok (flatL 0 T ++ [.End]) := by
  unfold resolveFrom
  have h := resolveGo_detokL T [] [] [] 0 hwf
  simp only [List.nil_append, List.append_nil, List.length_nil] at h
  rw [show (detokL T).length - 0 = lenL T + 0 from by
    rw [detokL_length]; omega]
  rw [h]
  rw [show 0 + lenL T = lenL T from by omega]
  rw [resolveGo_zero]
  rfl

/-! ### Parsing a balanced token stream into a tree -/

/-- One parser step: an open pushes the current sequence, a close wraps the
current sequence into a loop node appended to the popped sequence, anything
else appends a primitive node. -/
def pstep (st : List Node × List (List Node)) (op : Ops) :
    List Node × List (List Node) :=
  match op, st.2 with
  | .LoopOpen _, _ => ([], st.1 :: st.2)
  | .LoopClose _, up :: stk => (up ++ [.loop st.1], stk)
  | .LoopClose _, [] => ([], [])
  | _, _ => (st.1 ++ [.prim op], st.2)

/-- The token stream consumed to reach a parser state. -/
def unparse : List Node × List (List Node) → List Ops
  | (cur, []) => detokL cur
  | (cur, up :: stk) => unparse (up, stk) ++ (.LoopOpen 0 :: detokL cur)

/-- Tokens that may appear in a compiled stream before jump resolution:
brackets carry payload 0 and `End` is absent. -/
def tokWf : Ops → Bool
  | .LoopOpen e => decide (e = 0)
  | .LoopClose e => decide (e = 0)
  | .End => false
  | _ => true

theorem detokL_append (a b : List Node) :
    detokL (a ++ b) = detokL a ++ detokL b := by
  induction a with
  | nil => simp [detokL]
  | cons n t ih => simp [detokL, ih]

theorem wfL_append (a b : List Node) : wfL (a ++ b) = (wfL a && wfL b) := by
  induction a with
  | nil => simp [wfL]
  | cons n t ih => simp [wfL, ih, Bool.and_assoc]

theorem unparse_snoc (stk : List (List Node)) (cur d : List Node) :
    unparse (cur ++ d, stk) = unparse (cur, stk) ++ detokL d := by
  cases stk with
  | nil => simp [unparse, detokL_append]
  | cons up stk => simp [unparse, detokL_append]

theorem brks_cons (op : Ops) (ts : List Ops) :
    brks (op :: ts) =
      (match brk op with
       | some b => b :: brks ts
       | none => brks ts) := by
  unfold brks
  rw [List.filterMap_cons]
  cases brk op <;> rfl

/-- Folding the parser over a balanced, well-formed token stream from a
well-formed state empties the stack and consumes exactly the stream. -/
theorem pfold_ok : ∀ (ts : List Ops) (cur : List Node)
    (stk : List (List Node)), (∀ op ∈ ts, tokWf op) →
    scanBrk (brks ts) stk.length = some 0 →
    wfL cur → (∀ u ∈ stk, wfL u) →
    ∃ T, List.foldl pstep (cur, stk) ts = (T, []) ∧ wfL T ∧
      detokL T = unparse (cur, stk) ++ ts := by
  intro ts
  induction ts with
  | nil =>
      intro cur stk _ hscan hwc hws
      have h0 : stk.length = 0 := by
        simpa [scanBrk, brks] using hscan
      have hstk : stk = [] := List.eq_nil_of_length_eq_zero h0
      subst hstk
      exact ⟨cur, rfl, hwc, by simp [unparse]⟩
  | cons op ts ih =>
      intro cur stk hwf hscan hwc hws
      have hwop : tokWf op := hwf op (by simp)
      have hwts : ∀ o ∈ ts, tokWf o := fun o ho => hwf o (by simp [ho])
      rw [brks_cons] at hscan
      rw [List.foldl_cons]
      cases op with
      | LoopOpen e =>
          have he : e = 0 := by simpa [tokWf] using hwop
          subst he
          have hstep : pstep (cur, stk) (.LoopOpen 0) = ([], cur :: stk) := rfl
          rw [hstep]
          have hscan' : scanBrk (brks ts) (cur :: stk).length = some 0 := by
            simpa [brk, scanBrk] using hscan
          obtain ⟨T, hfold, hwT, hunp⟩ := ih [] (cur :: stk) hwts hscan'
            (by simp [wfL])
            (by intro u hu
                rcases List.mem_cons.mp hu with h | h
                · subst h; exact hwc
                · exact hws u h)
          refine ⟨T, hfold, hwT, ?_⟩
          rw [hunp]
          simp [unparse, detokL]
      | LoopClose e =>
          have he : e = 0 := by simpa [tokWf] using hwop
          subst he
          have hb : brk (Ops.LoopClose 0) = some false := rfl
          rw [hb] at hscan
          simp only [scanBrk] at hscan
          rcases hstk : stk with _ | ⟨up, stk'⟩
          · rw [hstk] at hscan
            simp at hscan
          · rw [hstk] at hscan
            simp only [List.length_cons] at hscan
            have hstep : pstep (cur, up :: stk') (.LoopClose 0) =
                (up ++ [.loop cur], stk') := rfl
            rw [hstep]
            obtain ⟨T, hfold, hwT, hunp⟩ := ih (up ++ [.loop cur]) stk' hwts
              hscan
              (by rw [wfL_append]
                  have hwu : wfL up := hws up (by simp [hstk])
                  simp [wfL, wfN, hwu, hwc])
              (fun u hu => hws u (by simp [hstk, hu]))
            refine ⟨T, hfold, hwT, ?_⟩
            rw [hunp, unparse_snoc]
            cases stk' <;> simp [unparse, detokL, detokN]
      | End => exact absurd hwop (by simp [tokWf])
      | Move v =>
          have hstep : pstep (cur, stk) (.Move v) =
              (cur ++ [.prim (.Move v)], stk) := by
            unfold pstep
            cases stk <;> rfl
          rw [hstep]
          obtain ⟨T, hfold, hwT, hunp⟩ := ih (cur ++ [.prim (.Move v)]) stk hwts
            (by simpa [brk] using hscan)
            (by rw [wfL_append]; simp [wfL, wfN, hwc]) hws
          refine ⟨T, hfold, hwT, ?_⟩
          rw [hunp, unparse_snoc]
          simp [detokL, detokN]
      | Mod v =>
          have hstep : pstep (cur, stk) (.Mod v) =
              (cur ++ [.prim (.Mod v)], stk) := by
            unfold pstep
            cases stk <;> rfl
          rw [hstep]
          obtain ⟨T, hfold, hwT, hunp⟩ := ih (cur ++ [.prim (.Mod v)]) stk hwts
            (by simpa [brk] using hscan)
            (by rw [wfL_append]; simp [wfL, wfN, hwc]) hws
          refine ⟨T, hfold, hwT, ?_⟩
          rw [hunp, unparse_snoc]
          simp [detokL, detokN]
      | SetCell v =>
          have hstep : pstep (cur, stk) (.SetCell v) =
              (cur ++ [.prim (.SetCell v)], stk) := by
            unfold pstep
            cases stk <;> rfl
          rw [hstep]
          obtain ⟨T, hfold, hwT, hunp⟩ := ih (cur ++ [.prim (.SetCell v)]) stk
            hwts (by simpa [brk] using hscan)
            (by rw [wfL_append]; simp [wfL, wfN, hwc]) hws
          refine ⟨T, hfold, hwT, ?_⟩
          rw [hunp, unparse_snoc]
          simp [detokL, detokN]
      | SearchZeroCell v =>
          have hstep : pstep (cur, stk) (.SearchZeroCell v) =
              (cur ++ [.prim (.SearchZeroCell v)], stk) := by
            unfold pstep
            cases stk <;> rfl
          rw [hstep]
          obtain ⟨T, hfold, hwT, hunp⟩ := ih (cur ++ [.prim (.SearchZeroCell v)])
            stk hwts (by simpa [brk] using hscan)
            (by rw [wfL_append]; simp [wfL, wfN, hwc]) hws
          refine ⟨T, hfold, hwT, ?_⟩
          rw [hunp, unparse_snoc]
          simp [detokL, detokN]
      | Print =>
          have hstep : pstep (cur, stk) .Print =
              (cur ++ [.prim .Print], stk) := by
            unfold pstep
            cases stk <;> rfl
          rw [hstep]
          obtain ⟨T, hfold, hwT, hunp⟩ := ih (cur ++ [.prim .Print]) stk hwts
            (by simpa [brk] using hscan)
            (by rw [wfL_append]; simp [wfL, wfN, hwc]) hws
          refine ⟨T, hfold, hwT, ?_⟩
          rw [hunp, unparse_snoc]
          simp [detokL, detokN]
      | Read =>
          have hstep : pstep (cur, stk) .Read =
              (cur ++ [.prim .Read], stk) := by
            unfold pstep
            cases stk <;> rfl
          rw [hstep]
          obtain ⟨T, hfold, hwT, hunp⟩ := ih (cur ++ [.prim .Read]) stk hwts
            (by simpa [brk] using hscan)
            (by rw [wfL_append]; simp [wfL, wfN, hwc]) hws
          refine ⟨T, hfold, hwT, ?_⟩
          rw [hunp, unparse_snoc]
          simp [detokL, detokN]

/-- Parse a balanced, well-formed token stream into a tree whose token
form is the stream itself. -/
theorem parse_tokens (ts : List Ops) (hwf : ∀ op ∈ ts, tokWf op)
    (hscan : scanBrk (brks ts) 0 = some 0) :
    ∃ T, List.foldl pstep ([], []) ts = (T, []) ∧ wfL T ∧ detokL T = ts := by
  obtain ⟨T, hfold, hwT, hunp⟩ := pfold_ok ts [] [] hwf
    (by simpa using hscan) (by simp [wfL]) (by simp)
  exact ⟨T, hfold, hwT, by simpa [unparse, detokL] using hunp⟩

/-! ### Semantic equivalence of trees -/

/-- Two node lists are semantically equivalent when they converge to the
same results from every state. -/
def TEquiv (a b : List Node) : Prop := ∀ s r, CL a s r ↔ CL b s r

theorem TEquiv_refl (a : List Node) : TEquiv a a := fun _ _ => Iff.rfl

theorem TEquiv_symm {a b : List Node} (h : TEquiv a b) : TEquiv b a :=
  fun s r => (h s r).symm

theorem TEquiv_trans {a b c : List Node} (h1 : TEquiv a b) (h2 : TEquiv b c) :
    TEquiv a c := fun s r => (h1 s r).trans (h2 s r)

theorem CL_append (a c : List Node) : ∀ (s : VMState) (r : TRes),
    CL (a ++ c) s r ↔ SeqP (CL a) (CL c) s r := by
  induction a with
  | nil =>
      intro s r
      exact (SeqP_unit (fun r' => CL_nil s r') (CL c) r).symm
  | cons n t ih =>
      intro s r
      rw [show (n :: t) ++ c = n :: (t ++ c) from rfl, CL_cons]
      rw [SeqP_congr (fun m x => ih m x) s r]
      rw [← SeqP_assoc]
      exact SeqP_congrP (fun r' => (CL_cons n t s r').symm) r

theorem TEquiv_append {a b c d : List Node} (h1 : TEquiv a b)
    (h2 : TEquiv c d) : TEquiv (a ++ c) (b ++ d) := by
  intro s r
  rw [CL_append, CL_append]
  rw [SeqP_congrP (fun r' => h1 s r') r]
  exact SeqP_congr (fun m x => h2 m x) s r

theorem CL_single (n : Node) (s : VMState) (r : TRes) :
    CL [n] s r ↔ CN n s r := by
  rw [CL_cons]
  exact SeqP_unit_right (fun m r' => CL_nil m r') (fun r' hp => hp.1) r

theorem CN_loop_congr_aux {a b : List Node} (h : TEquiv a b) :
    ∀ (f : Nat) (s : VMState) (r : TRes), runN f (.loop a) s = r → conv r →
    CN (.loop b) s r := by
  intro f
  induction f with
  | zero =>
      intro s r hr hc
      cases hr; cases hc
  | succ f ih =>
      intro s r hr hc
      rw [runN_succ_loop] at hr
      by_cases hpos : s.pos < s.memory.length
      · rw [dif_pos hpos] at hr
        by_cases hz : s.memory[s.pos] = 0
        · rw [if_pos hz] at hr
          exact (CN_loop_zero b s r hpos hz).mpr hr.symm
        · rw [if_neg hz] at hr
          rcases hb : runL f a s with m | m | m
          · rw [hb] at hr
            simp only [after] at hr
            have hclb : CL b s (.ok m) := (h s (.ok m)).mp ⟨trivial, f, hb⟩
            exact (CN_loop_iter b s r hpos hz).mpr
              (.inl ⟨m, hclb, ih m r hr hc⟩)
          · rw [hb] at hr
            simp only [after] at hr
            cases hr
            have hclb : CL b s (.fault m) := (h s (.fault m)).mp ⟨trivial, f, hb⟩
            exact (CN_loop_iter b s _ hpos hz).mpr (.inr ⟨m, rfl, hclb⟩)
          · rw [hb] at hr
            simp only [after] at hr
            rw [← hr] at hc
            cases hc
      · rw [dif_neg hpos] at hr
        exact (CN_loop_oob b s r hpos).mpr hr.symm

theorem CN_loop_congr {a b : List Node} (h : TEquiv a b) (s : VMState)
    (r : TRes) : CN (.loop a) s r ↔ CN (.loop b) s r := by
  constructor
  · rintro ⟨hc, f, hr⟩
    exact CN_loop_congr_aux h f s r hr hc
  · rintro ⟨hc, f, hr⟩
    exact CN_loop_congr_aux (TEquiv_symm h) f s r hr hc

theorem TEquiv_loop {a b : List Node} (h : TEquiv a b) :
    TEquiv [.loop a] [.loop b] := by
  intro s r
  rw [CL_single, CL_single]
  exact CN_loop_congr h s r

/-! ### Characterizations of primitive nodes and the local peephole
equivalences -/

theorem SeqP_det {P Q : VMState → TRes → Prop} {s s1 : VMState}
    (hP : ∀ r', P s r' ↔ r' = .ok s1) (r : TRes) :
    SeqP P Q s r ↔ Q s1 r := by
  unfold SeqP
  constructor
  · rintro (⟨m, hp, hq⟩ | ⟨fs, hrfs, hpf⟩)
    · cases (hP (.ok m)).mp hp
      exact hq
    · cases (hP (.fault fs)).mp hpf
  · intro hq
    exact .inl ⟨s1, (hP (.ok s1)).mpr rfl, hq⟩

theorem SeqP_fault {P Q : VMState → TRes → Prop} {s fs : VMState}
    (hP : ∀ r', P s r' ↔ r' = .fault fs) (r : TRes) :
    SeqP P Q s r ↔ r = .fault fs := by
  unfold SeqP
  constructor
  · rintro (⟨m, hp, hq⟩ | ⟨fs', hrfs, hpf⟩)
    · cases (hP (.ok m)).mp hp
    · cases (hP (.fault fs')).mp hpf
      exact hrfs
  · rintro rfl
    exact .inr ⟨fs, rfl, (hP (.fault fs)).mpr rfl⟩

theorem CN_Move (v : Int) (s : VMState) (r : TRes) :
    CN (.prim (.Move v)) s r ↔ r = .ok { s with pos := wrapPos s.pos v } := by
  rw [CN_prim]
  constructor
  · rintro ⟨hc, f, h⟩
    simp only [primT] at h
    exact h.symm
  · rintro rfl
    exact ⟨trivial, 0, rfl⟩

theorem CN_Mod_in (v : Int) (s : VMState) (hpos : s.pos < s.memory.length)
    (r : TRes) : CN (.prim (.Mod v)) s r ↔
      r = .ok { s with memory := s.memory.set s.pos (wrapI8 (s.memory[s.pos] + v)) } := by
  rw [CN_prim]
  constructor
  · rintro ⟨hc, f, h⟩
    simp only [primT] at h
    rw [dif_pos hpos] at h
    exact h.symm
  · rintro rfl
    exact ⟨trivial, 0, by simp only [primT]; rw [dif_pos hpos]⟩

theorem CN_Mod_oob (v : Int) (s : VMState) (hpos : ¬ s.pos < s.memory.length)
    (r : TRes) : CN (.prim (.Mod v)) s r ↔ r = .fault s := by
  rw [CN_prim]
  constructor
  · rintro ⟨hc, f, h⟩
    simp only [primT] at h
    rw [dif_neg hpos] at h
    exact h.symm
  · rintro rfl
    exact ⟨trivial, 0, by simp only [primT]; rw [dif_neg hpos]⟩

theorem CN_SetCell_in (v : Int) (s : VMState) (hpos : s.pos < s.memory.length)
    (r : TRes) : CN (.prim (.SetCell v)) s r ↔
      r = .ok { s with memory := s.memory.set s.pos v } := by
  rw [CN_prim]
  constructor
  · rintro ⟨hc, f, h⟩
    simp only [primT] at h
    rw [dif_pos hpos] at h
    exact h.symm
  · rintro rfl
    exact ⟨trivial, 0, by simp only [primT]; rw [dif_pos hpos]⟩

theorem CN_SetCell_oob (v : Int) (s : VMState)
    (hpos : ¬ s.pos < s.memory.length) (r : TRes) :
    CN (.prim (.SetCell v)) s r ↔ r = .fault s := by
  rw [CN_prim]
  constructor
  · rintro ⟨hc, f, h⟩
    simp only [primT] at h
    rw [dif_neg hpos] at h
    exact h.symm
  · rintro rfl
    exact ⟨trivial, 0, by simp only [primT]; rw [dif_neg hpos]⟩

theorem set_cell_self (l : List Int) (p : Nat) (h : p < l.length) :
    l.set p (l[p]) = l := by
  apply List.ext_getElem
  · simp
  · intro i h1 h2
    rcases eq_or_ne i p with rfl | hne
    · simp
    · rw [List.getElem_set_ne hne.symm]

theorem wrapPos_add (p : Nat) (v1 v2 : Int) :
    wrapPos (wrapPos p v1) v2 = wrapPos p (wrapIsize (v1 + v2)) := by
  unfold wrapPos wrapIsize
  omega

/-- Merging two adjacent pointer moves. -/
theorem E_move (v1 v2 : Int) :
    TEquiv [.prim (.Move v1), .prim (.Move v2)]
      [.prim (.Move (wrapIsize (v1 + v2)))] := by
  intro s r
  rw [CL_cons, SeqP_det (fun r' => CN_Move v1 s r'), CL_single, CN_Move,
    CL_single, CN_Move]
  simp [wrapPos_add]

/-- Merging two adjacent cell increments. -/
theorem E_mod (v1 v2 : Int) :
    TEquiv [.prim (.Mod v1), .prim (.Mod v2)]
      [.prim (.Mod (wrapI8 (v1 + v2)))] := by
  intro s r
  by_cases hpos : s.pos < s.memory.length
  · rw [CL_cons, SeqP_det (fun r' => CN_Mod_in v1 s hpos r'), CL_single]
    have hpos2 : ({ s with memory := s.memory.set s.pos (wrapI8 (s.memory[s.pos] + v1)) } : VMState).pos < ({ s with memory := s.memory.set s.pos (wrapI8 (s.memory[s.pos] + v1)) } : VMState).memory.length := by
      simpa using hpos
    rw [CL_single, CN_Mod_in (wrapI8 (v1 + v2)) s hpos,
      CN_Mod_in v2 { s with memory := s.memory.set s.pos (wrapI8 (s.memory[s.pos] + v1)) } hpos2]
    simp [List.getElem_set_self, List.set_set, wrapI8_add_left,
      wrapI8_add_right, add_assoc]
  · rw [CL_cons, SeqP_fault (fun r' => CN_Mod_oob v1 s hpos r'), CL_single,
      CN_Mod_oob _ _ hpos]

/-- Folding a `Mod` into a preceding `SetCell 0` (the incoming `Mod`
token's payload is already in the 8-bit range). -/
theorem E_setfuse (v : Int) (hv : wrapI8 v = v) :
    TEquiv [.prim (.SetCell 0), .prim (.Mod v)] [.prim (.SetCell v)] := by
  intro s r
  by_cases hpos : s.pos < s.memory.length
  · rw [CL_cons, SeqP_det (fun r' => CN_SetCell_in 0 s hpos r'), CL_single]
    have hpos2 : ({ s with memory := s.memory.set s.pos 0 } : VMState).pos < ({ s with memory := s.memory.set s.pos 0 } : VMState).memory.length := by
      simpa using hpos
    rw [CN_Mod_in v { s with memory := s.memory.set s.pos 0 } hpos2,
      CL_single, CN_SetCell_in v s hpos]
    simp only [List.getElem_set_self hpos2, List.set_set]
    rw [zero_add, hv]
  · rw [CL_cons, SeqP_fault (fun r' => CN_SetCell_oob 0 s hpos r'), CL_single,
      CN_SetCell_oob _ _ hpos]

theorem runL_single_Mod_ok {f : Nat} {v : Int} {s m : VMState}
    (h : runL f [.prim (.Mod v)] s = .ok m) :
    ∃ hp : s.pos < s.memory.length,
      m = { s with memory := s.memory.set s.pos (wrapI8 (s.memory[s.pos] + v)) } := by
  match f with
  | 0 => cases h
  | 1 =>
      rw [runL_succ_cons] at h
      cases h
  | g + 2 =>
      rw [runL_succ_cons, runN_succ_prim] at h
      simp only [primT] at h
      by_cases hpos : s.pos < s.memory.length
      · rw [dif_pos hpos] at h
        simp only [after] at h
        cases h
        exact ⟨hpos, rfl⟩
      · rw [dif_neg hpos] at h
        simp only [after] at h
        cases h

theorem runL_single_Mod_fault {f : Nat} {v : Int} {s fs : VMState}
    (h : runL f [.prim (.Mod v)] s = .fault fs) :
    ¬ s.pos < s.memory.length ∧ fs = s := by
  match f with
  | 0 => cases h
  | 1 =>
      rw [runL_succ_cons] at h
      cases h
  | g + 2 =>
      rw [runL_succ_cons, runN_succ_prim] at h
      simp only [primT] at h
      by_cases hpos : s.pos < s.memory.length
      · rw [dif_pos hpos] at h
        simp only [after] at h
        cases h
      · rw [dif_neg hpos] at h
        simp only [after] at h
        cases h
        exact ⟨hpos, rfl⟩

theorem runL_single_Move_ok {f : Nat} {v : Int} {s m : VMState}
    (h : runL f [.prim (.Move v)] s = .ok m) :
    m = { s with pos := wrapPos s.pos v } := by
  match f with
  | 0 => cases h
  | 1 =>
      rw [runL_succ_cons] at h
      cases h
  | g + 2 =>
      rw [runL_succ_cons, runN_succ_prim] at h
      simp only [primT, after] at h
      cases h
      rfl

theorem runL_single_Move_fault {f : Nat} {v : Int} {s fs : VMState}
    (h : runL f [.prim (.Move v)] s = .fault fs) : False := by
  match f with
  | 0 => cases h
  | 1 =>
      rw [runL_succ_cons] at h
      cases h
  | g + 2 =>
      rw [runL_succ_cons, runN_succ_prim] at h
      simp only [primT, after] at h
      cases h

theorem zeroloop_fwd :
    ∀ (f : Nat) (s : VMState) (r : TRes),
      runN f (.loop [.prim (.Mod (-1))]) s = r → conv r →
      CN (.prim (.SetCell 0)) s r := by
  intro f
  induction f with
  | zero => intro s r h hc; cases h; cases hc
  | succ f ih =>
      intro s r h hc
      rw [runN_succ_loop] at h
      by_cases hpos : s.pos < s.memory.length
      · rw [dif_pos hpos] at h
        by_cases hz : s.memory[s.pos] = 0
        · rw [if_pos hz] at h
          rw [CN_SetCell_in 0 s hpos]
          rw [← h]
          have hm : s.memory.set s.pos 0 = s.memory := by
            rw [← hz]
            exact set_cell_self s.memory s.pos hpos
          rw [hm]
        · rw [if_neg hz] at h
          rcases hb : runL f [.prim (.Mod (-1))] s with m | m | m
          · rw [hb] at h
            simp only [after] at h
            obtain ⟨hp1, rfl⟩ := runL_single_Mod_ok hb
            have hres := ih _ r h hc
            have hpos2 : ({ s with memory := s.memory.set s.pos (wrapI8 (s.memory[s.pos] + -1)) } : VMState).pos < ({ s with memory := s.memory.set s.pos (wrapI8 (s.memory[s.pos] + -1)) } : VMState).memory.length := by
              simpa using hpos
            rw [CN_SetCell_in 0 _ hpos2] at hres
            rw [CN_SetCell_in 0 s hpos, hres]
            simp [List.set_set]
          · rw [hb] at h
            obtain ⟨hnp, -⟩ := runL_single_Mod_fault hb
            exact absurd hpos hnp
          · rw [hb] at h
            simp only [after] at h
            rw [← h] at hc
            cases hc
      · rw [dif_neg hpos] at h
        rw [CN_SetCell_oob 0 s hpos]
        exact h.symm

theorem zeroloop_claimA :
    ∀ (k : Nat) (s : VMState) (hpos : s.pos < s.memory.length),
      wrapI8 (s.memory[s.pos]) = s.memory[s.pos] →
      ((s.memory[s.pos]) % 256).toNat ≤ k →
      CN (.loop [.prim (.Mod (-1))]) s
        (.ok { s with memory := s.memory.set s.pos 0 }) := by
  intro k
  induction k with
  | zero =>
      intro s hpos hwrap hk
      have hz : s.memory[s.pos] = 0 := by
        have h1 := wrapI8_lb (s.memory[s.pos])
        have h2 := wrapI8_ub (s.memory[s.pos])
        rw [hwrap] at h1 h2
        omega
      rw [show s.memory.set s.pos 0 = s.memory from by
        rw [← hz]; exact set_cell_self s.memory s.pos hpos]
      exact (CN_loop_zero _ s _ hpos hz).mpr rfl
  | succ k ih =>
      intro s hpos hwrap hk
      by_cases hz : s.memory[s.pos] = 0
      · rw [show s.memory.set s.pos 0 = s.memory from by
          rw [← hz]; exact set_cell_self s.memory s.pos hpos]
        exact (CN_loop_zero _ s _ hpos hz).mpr rfl
      · have hpos2 : ({ s with memory := s.memory.set s.pos (wrapI8 (s.memory[s.pos] + -1)) } : VMState).pos < ({ s with memory := s.memory.set s.pos (wrapI8 (s.memory[s.pos] + -1)) } : VMState).memory.length := by
          simpa using hpos
        have hcell2 : ({ s with memory := s.memory.set s.pos (wrapI8 (s.memory[s.pos] + -1)) } : VMState).memory[({ s with memory := s.memory.set s.pos (wrapI8 (s.memory[s.pos] + -1)) } : VMState).pos] = wrapI8 (s.memory[s.pos] + -1) := by
          exact List.getElem_set_self hpos2
        have hih := ih { s with memory := s.memory.set s.pos (wrapI8 (s.memory[s.pos] + -1)) } hpos2
          (by rw [hcell2]; exact wrapI8_idem _)
          (by rw [hcell2]
              have := wrapI8_emod (s.memory[s.pos] + -1)
              have h1 := wrapI8_lb (s.memory[s.pos])
              have h2 := wrapI8_ub (s.memory[s.pos])
              rw [hwrap] at h1 h2
              omega)
        have hbody : CL [.prim (.Mod (-1))] s
            (.ok { s with memory := s.memory.set s.pos (wrapI8 (s.memory[s.pos] + -1)) }) := by
          rw [CL_single]
          exact (CN_Mod_in (-1) s hpos _).mpr rfl
        refine (CN_loop_iter _ s _ hpos hz).mpr (.inl ⟨_, hbody, ?_⟩)
        rw [show ({ s with memory := s.memory.set s.pos (wrapI8 (s.memory[s.pos] + -1)) } : VMState).memory.set ({ s with memory := s.memory.set s.pos (wrapI8 (s.memory[s.pos] + -1)) } : VMState).pos 0 = s.memory.set s.pos 0 from by
          simp [List.set_set]] at hih
        exact hih

/-- The `[-]` loop is the `SetCell 0` instruction. -/
theorem E_zeroloop :
    TEquiv [.loop [.prim (.Mod (-1))]] [.prim (.SetCell 0)] := by
  intro s r
  rw [CL_single, CL_single]
  constructor
  · rintro ⟨hc, f, h⟩
    exact zeroloop_fwd f s r h hc
  · intro hrhs
    by_cases hpos : s.pos < s.memory.length
    · rw [CN_SetCell_in 0 s hpos] at hrhs
      subst hrhs
      by_cases hz : s.memory[s.pos] = 0
      · rw [show s.memory.set s.pos 0 = s.memory from by
          rw [← hz]; exact set_cell_self s.memory s.pos hpos]
        exact (CN_loop_zero _ s _ hpos hz).mpr rfl
      · have hpos2 : ({ s with memory := s.memory.set s.pos (wrapI8 (s.memory[s.pos] + -1)) } : VMState).pos < ({ s with memory := s.memory.set s.pos (wrapI8 (s.memory[s.pos] + -1)) } : VMState).memory.length := by
          simpa using hpos
        have hcell2 : ({ s with memory := s.memory.set s.pos (wrapI8 (s.memory[s.pos] + -1)) } : VMState).memory[({ s with memory := s.memory.set s.pos (wrapI8 (s.memory[s.pos] + -1)) } : VMState).pos] = wrapI8 (s.memory[s.pos] + -1) :=
          List.getElem_set_self hpos2
        have hA := zeroloop_claimA
          ((wrapI8 (s.memory[s.pos] + -1) % 256).toNat)
          { s with memory := s.memory.set s.pos (wrapI8 (s.memory[s.pos] + -1)) }
          hpos2 (by rw [hcell2]; exact wrapI8_idem _)
          (by rw [hcell2])
        have hbody : CL [.prim (.Mod (-1))] s
            (.ok { s with memory := s.memory.set s.pos (wrapI8 (s.memory[s.pos] + -1)) }) := by
          rw [CL_single]
          exact (CN_Mod_in (-1) s hpos _).mpr rfl
        refine (CN_loop_iter _ s _ hpos hz).mpr (.inl ⟨_, hbody, ?_⟩)
        rw [show ({ s with memory := s.memory.set s.pos (wrapI8 (s.memory[s.pos] + -1)) } : VMState).memory.set ({ s with memory := s.memory.set s.pos (wrapI8 (s.memory[s.pos] + -1)) } : VMState).pos 0 = s.memory.set s.pos 0 from by
          simp [List.set_set]] at hA
        exact hA
    · rw [CN_SetCell_oob 0 s hpos] at hrhs
      subst hrhs
      exact (CN_loop_oob _ s _ hpos).mpr rfl

theorem searchloop_fwd (n : Int) :
    ∀ (f : Nat) (s : VMState) (r : TRes),
      runN f (.loop [.prim (.Move n)]) s = r → conv r →
      ∃ f', searchT f' n s = r := by
  intro f
  induction f with
  | zero => intro s r h hc; cases h; cases hc
  | succ f ih =>
      intro s r h hc
      rw [runN_succ_loop] at h
      by_cases hpos : s.pos < s.memory.length
      · rw [dif_pos hpos] at h
        by_cases hz : s.memory[s.pos] = 0
        · rw [if_pos hz] at h
          exact ⟨1, by rw [searchT_succ, dif_pos hpos, if_pos hz, h]⟩
        · rw [if_neg hz] at h
          rcases hb : runL f [.prim (.Move n)] s with m | m | m
          · rw [hb] at h
            simp only [after] at h
            cases runL_single_Move_ok hb
            obtain ⟨f', hs⟩ := ih _ r h hc
            exact ⟨f' + 1, by rw [searchT_succ, dif_pos hpos, if_neg hz, hs]⟩
          · exact absurd hb (fun hb => runL_single_Move_fault hb)
          · rw [hb] at h
            simp only [after] at h
            rw [← h] at hc
            cases hc
      · rw [dif_neg hpos] at h
        exact ⟨1, by rw [searchT_succ, dif_neg hpos, h]⟩

theorem searchloop_bwd (n : Int) :
    ∀ (f : Nat) (s : VMState) (r : TRes),
      searchT f n s = r → conv r →
      CN (.loop [.prim (.Move n)]) s r := by
  intro f
  induction f with
  | zero => intro s r h hc; cases h; cases hc
  | succ f ih =>
      intro s r h hc
      rw [searchT_succ] at h
      by_cases hpos : s.pos < s.memory.length
      · rw [dif_pos hpos] at h
        by_cases hz : s.memory[s.pos] = 0
        · rw [if_pos hz] at h
          exact (CN_loop_zero _ s r hpos hz).mpr h.symm
        · rw [if_neg hz] at h
          have hbody : CL [.prim (.Move n)] s
              (.ok { s with pos := wrapPos s.pos n }) := by
            rw [CL_single]
            exact (CN_Move n s _).mpr rfl
          exact (CN_loop_iter _ s r hpos hz).mpr
            (.inl ⟨_, hbody, ih _ r h hc⟩)
      · rw [dif_neg hpos] at h
        exact (CN_loop_oob _ s r hpos).mpr h.symm

/-- The `[Move n]` loop is the `SearchZeroCell n` instruction. -/
theorem E_search (n : Int) :
    TEquiv [.loop [.prim (.Move n)]] [.prim (.SearchZeroCell n)] := by
  intro s r
  rw [CL_single, CL_single, CN_prim]
  constructor
  · rintro ⟨hc, f, h⟩
    obtain ⟨f', hs⟩ := searchloop_fwd n f s r h hc
    exact ⟨hc, f', hs⟩
  · rintro ⟨hc, f, h⟩
    exact searchloop_bwd n f s r h hc

/-! ### The peephole optimizer rewrites the parse tree up to semantic
equivalence -/

theorem pstep_open (c : List Node) (k : List (List Node)) (e : Nat) :
    pstep (c, k) (.LoopOpen e) = ([], c :: k) := rfl

theorem pstep_close_cons (c up : List Node) (k : List (List Node)) (e : Nat) :
    pstep (c, up :: k) (.LoopClose e) = (up ++ [.loop c], k) := rfl

theorem pstep_close_nil (c : List Node) (e : Nat) :
    pstep (c, []) (.LoopClose e) = ([], []) := rfl

theorem pstep_prim (c : List Node) (k : List (List Node)) (op : Ops)
    (h1 : ∀ e, op ≠ .LoopOpen e) (h2 : ∀ e, op ≠ .LoopClose e) :
    pstep (c, k) op = (c ++ [.prim op], k) := by
  unfold pstep
  cases op
  case LoopOpen e => exact absurd rfl (h1 e)
  case LoopClose e => exact absurd rfl (h2 e)
  all_goals cases k <;> rfl

/-- Parser states identified up to semantic equivalence of every
component. -/
def SEquiv (a b : List Node × List (List Node)) : Prop :=
  TEquiv a.1 b.1 ∧ List.Forall₂ TEquiv a.2 b.2

theorem forall2_TEquiv_refl : ∀ l : List (List Node), List.Forall₂ TEquiv l l
  | [] => List.Forall₂.nil
  | x :: l => List.Forall₂.cons (TEquiv_refl x) (forall2_TEquiv_refl l)

theorem SEquiv_refl (a : List Node × List (List Node)) : SEquiv a a :=
  ⟨TEquiv_refl a.1, forall2_TEquiv_refl a.2⟩

theorem forall2_TEquiv_trans : ∀ {l1 l2 l3 : List (List Node)},
    List.Forall₂ TEquiv l1 l2 → List.Forall₂ TEquiv l2 l3 →
    List.Forall₂ TEquiv l1 l3
  | _, _, _, List.Forall₂.nil, List.Forall₂.nil => List.Forall₂.nil
  | _, _, _, List.Forall₂.cons h1 t1, List.Forall₂.cons h2 t2 =>
      List.Forall₂.cons (TEquiv_trans h1 h2) (forall2_TEquiv_trans t1 t2)

theorem SEquiv_trans {a b c : List Node × List (List Node)}
    (h1 : SEquiv a b) (h2 : SEquiv b c) : SEquiv a c :=
  ⟨TEquiv_trans h1.1 h2.1, forall2_TEquiv_trans h1.2 h2.2⟩

theorem SEquiv_pstep {a b : List Node × List (List Node)} (h : SEquiv a b)
    (op : Ops) : SEquiv (pstep a op) (pstep b op) := by
  obtain ⟨ca, ka⟩ := a
  obtain ⟨cb, kb⟩ := b
  obtain ⟨hc, hk⟩ := h
  cases op with
  | LoopOpen e =>
      rw [pstep_open, pstep_open]
      exact ⟨TEquiv_refl [], List.Forall₂.cons hc hk⟩
  | LoopClose e =>
      cases hk with
      | nil =>
          rw [pstep_close_nil, pstep_close_nil]
          exact SEquiv_refl _
      | cons hup hrest =>
          rw [pstep_close_cons, pstep_close_cons]
          exact ⟨TEquiv_append hup (TEquiv_loop hc), hrest⟩
  | Move v =>
      rw [pstep_prim _ _ _ (by intro e h; cases h) (by intro e h; cases h),
        pstep_prim _ _ _ (by intro e h; cases h) (by intro e h; cases h)]
      exact ⟨TEquiv_append hc (TEquiv_refl _), hk⟩
  | Mod v =>
      rw [pstep_prim _ _ _ (by intro e h; cases h) (by intro e h; cases h),
        pstep_prim _ _ _ (by intro e h; cases h) (by intro e h; cases h)]
      exact ⟨TEquiv_append hc (TEquiv_refl _), hk⟩
  | SetCell v =>
      rw [pstep_prim _ _ _ (by intro e h; cases h) (by intro e h; cases h),
        pstep_prim _ _ _ (by intro e h; cases h) (by intro e h; cases h)]
      exact ⟨TEquiv_append hc (TEquiv_refl _), hk⟩
  | SearchZeroCell v =>
      rw [pstep_prim _ _ _ (by intro e h; cases h) (by intro e h; cases h),
        pstep_prim _ _ _ (by intro e h; cases h) (by intro e h; cases h)]
      exact ⟨TEquiv_append hc (TEquiv_refl _), hk⟩
  | Print =>
      rw [pstep_prim _ _ _ (by intro e h; cases h) (by intro e h; cases h),
        pstep_prim _ _ _ (by intro e h; cases h) (by intro e h; cases h)]
      exact ⟨TEquiv_append hc (TEquiv_refl _), hk⟩
  | Read =>
      rw [pstep_prim _ _ _ (by intro e h; cases h) (by intro e h; cases h),
        pstep_prim _ _ _ (by intro e h; cases h) (by intro e h; cases h)]
      exact ⟨TEquiv_append hc (TEquiv_refl _), hk⟩
  | End =>
      rw [pstep_prim _ _ _ (by intro e h; cases h) (by intro e h; cases h),
        pstep_prim _ _ _ (by intro e h; cases h) (by intro e h; cases h)]
      exact ⟨TEquiv_append hc (TEquiv_refl _), hk⟩

theorem parse_append_one (Z : List Ops) (op : Ops) :
    List.foldl pstep ([], []) (Z ++ [op]) =
      pstep (List.foldl pstep ([], []) Z) op := by
  rw [List.foldl_append]
  rfl

/-- One optimizer iteration rewrites the parse of the emitted stream only
up to semantic equivalence of parser states. -/
theorem optStep_parse (pp p : Option Ops) (D : List Ops) (cur : Ops)
    (hmod : ∀ v, cur = .Mod v → wrapI8 v = v) :
    SEquiv (List.foldl pstep ([], []) (emit ⟨pp, p, D⟩ ++ [cur]))
           (List.foldl pstep ([], []) (emit (optStep ⟨pp, p, D⟩ cur))) := by
  unfold optStep
  dsimp only
  split
  case _ pp' v1 v2 =>
      simp only [emit, Option.toList_some]
      rcases hq : List.foldl pstep ([], []) (D ++ pp.toList) with ⟨c, k⟩
      rw [parse_append_one, parse_append_one, parse_append_one, hq]
      rw [pstep_prim c k (.Move v1) (by intro e h; cases h)
        (by intro e h; cases h)]
      rw [pstep_prim (c ++ [Node.prim (Ops.Move v1)]) k (.Move v2)
        (by intro e h; cases h) (by intro e h; cases h)]
      rw [pstep_prim c k (.Move (wrapIsize (v1 + v2))) (by intro e h; cases h)
        (by intro e h; cases h)]
      refine ⟨?_, forall2_TEquiv_refl k⟩
      rw [List.append_assoc]
      exact TEquiv_append (TEquiv_refl c) (E_move v1 v2)
  case _ pp' v1 v2 =>
      simp only [emit, Option.toList_some]
      rcases hq : List.foldl pstep ([], []) (D ++ pp.toList) with ⟨c, k⟩
      rw [parse_append_one, parse_append_one, parse_append_one, hq]
      rw [pstep_prim c k (.Mod v1) (by intro e h; cases h)
        (by intro e h; cases h)]
      rw [pstep_prim (c ++ [Node.prim (Ops.Mod v1)]) k (.Mod v2)
        (by intro e h; cases h) (by intro e h; cases h)]
      rw [pstep_prim c k (.Mod (wrapI8 (v1 + v2))) (by intro e h; cases h)
        (by intro e h; cases h)]
      refine ⟨?_, forall2_TEquiv_refl k⟩
      rw [List.append_assoc]
      exact TEquiv_append (TEquiv_refl c) (E_mod v1 v2)
  case _ e1 v e2 =>
      split
      case isTrue hv =>
          subst hv
          simp only [emit, Option.toList_some, Option.toList_none,
            List.append_nil]
          rcases hq : List.foldl pstep ([], []) D with ⟨c, k⟩
          rw [parse_append_one, parse_append_one, parse_append_one,
            parse_append_one, hq]
          rw [pstep_open c k e1]
          rw [pstep_prim [] (c :: k) (.Mod (-1)) (by intro e h; cases h)
            (by intro e h; cases h)]
          rw [List.nil_append]
          rw [pstep_close_cons [Node.prim (Ops.Mod (-1))] c k e2]
          rw [pstep_prim c k (.SetCell 0) (by intro e h; cases h)
            (by intro e h; cases h)]
          refine ⟨?_, forall2_TEquiv_refl k⟩
          exact TEquiv_append (TEquiv_refl c) E_zeroloop
      case isFalse hv =>
          rw [emit_optPush]
          exact SEquiv_refl _
  case _ e1 n e2 =>
      simp only [emit, Option.toList_some, Option.toList_none,
        List.append_nil]
      rcases hq : List.foldl pstep ([], []) D with ⟨c, k⟩
      rw [parse_append_one, parse_append_one, parse_append_one,
        parse_append_one, hq]
      rw [pstep_open c k e1]
      rw [pstep_prim [] (c :: k) (.Move n) (by intro e h; cases h)
        (by intro e h; cases h)]
      rw [List.nil_append]
      rw [pstep_close_cons [Node.prim (Ops.Move n)] c k e2]
      rw [pstep_prim c k (.SearchZeroCell n) (by intro e h; cases h)
        (by intro e h; cases h)]
      refine ⟨?_, forall2_TEquiv_refl k⟩
      exact TEquiv_append (TEquiv_refl c) (E_search n)
  case _ pp' v0 v =>
      split
      case isTrue hv0 =>
          subst hv0
          simp only [emit, Option.toList_some]
          rcases hq : List.foldl pstep ([], []) (D ++ pp.toList) with ⟨c, k⟩
          rw [parse_append_one, parse_append_one, parse_append_one, hq]
          rw [pstep_prim c k (.SetCell 0) (by intro e h; cases h)
            (by intro e h; cases h)]
          rw [pstep_prim (c ++ [Node.prim (Ops.SetCell 0)]) k (.Mod v)
            (by intro e h; cases h) (by intro e h; cases h)]
          rw [pstep_prim c k (.SetCell v) (by intro e h; cases h)
            (by intro e h; cases h)]
          refine ⟨?_, forall2_TEquiv_refl k⟩
          rw [List.append_assoc]
          exact TEquiv_append (TEquiv_refl c) (E_setfuse v (hmod v rfl))
      case isFalse hv0 =>
          rw [emit_optPush]
          exact SEquiv_refl _
  case _ =>
      rw [emit_optPush]
      exact SEquiv_refl _

/-- Well-formedness of the optimizer state's tokens. -/
def WfTokSt (st : OptState) : Prop :=
  (∀ op ∈ st.compiled, tokWf op) ∧ (∀ op ∈ st.prepre.toList, tokWf op) ∧
  (∀ op ∈ st.pre.toList, tokWf op)

theorem optStep_WfTokSt (st : OptState) (cur : Ops) (h1 : WfTokSt st)
    (h2 : tokWf cur) : WfTokSt (optStep st cur) := by
  obtain ⟨hc, hpp, hp⟩ := h1
  have hsome : ∀ x : Ops, tokWf x → ∀ op ∈ (some x).toList, tokWf op := by
    intro x hx op hop
    simp only [Option.toList_some, List.mem_singleton] at hop
    exact hop ▸ hx
  have hnone : ∀ op ∈ (none : Option Ops).toList, tokWf op := by simp
  have hpush : WfTokSt (optPush st cur) := by
    unfold optPush
    refine ⟨?_, hp, hsome cur h2⟩
    intro op hop
    rcases List.mem_append.mp hop with h | h
    · exact hc op h
    · exact hpp op h
  unfold optStep
  split
  · exact ⟨hc, hpp, hsome _ rfl⟩
  · exact ⟨hc, hpp, hsome _ rfl⟩
  · split
    · exact ⟨hc, hnone, hsome _ rfl⟩
    · exact hpush
  · exact ⟨hc, hnone, hsome _ rfl⟩
  · split
    · exact ⟨hc, hpp, hsome _ rfl⟩
    · exact hpush
  · exact hpush

theorem foldl_WfTokSt (ts : List Ops) : ∀ st : OptState, WfTokSt st →
    (∀ t ∈ ts, tokWf t) → WfTokSt (List.foldl optStep st ts) := by
  induction ts with
  | nil => intro st h _; exact h
  | cons t ts ih =>
      intro st h hts
      rw [List.foldl_cons]
      exact ih _ (optStep_WfTokSt st t h (hts t (List.mem_cons_self _ _)))
        (fun u hu => hts u (List.mem_cons_of_mem _ hu))

theorem optimizeRun_tokWf (ts : List Ops) (h : ∀ t ∈ ts, tokWf t) :
    ∀ op ∈ optimizeRun ts, tokWf op := by
  intro op hop
  unfold optimizeRun at hop
  have hfold := foldl_WfTokSt ts ⟨none, none, []⟩ ⟨by simp, by simp, by simp⟩ h
  rcases List.mem_append.mp hop with hm | hm
  · rcases List.mem_append.mp hm with hm2 | hm2
    · exact hfold.1 op hm2
    · exact hfold.2.1 op hm2
  · exact hfold.2.2 op hm

theorem opt_fold_SEquiv : ∀ (ts : List Ops) (st : OptState)
    (q : List Node × List (List Node)),
    (∀ v : Int, Ops.Mod v ∈ ts → wrapI8 v = v) →
    SEquiv q (List.foldl pstep ([], []) (emit st)) →
    SEquiv (List.foldl pstep q ts)
           (List.foldl pstep ([], []) (emit (List.foldl optStep st ts))) := by
  intro ts
  induction ts with
  | nil =>
      intro st q _ h
      simpa using h
  | cons cur ts ih =>
      intro st q hmod h
      rw [List.foldl_cons, List.foldl_cons]
      refine ih (optStep st cur) (pstep q cur)
        (fun v hv => hmod v (by simp [hv])) ?_
      have h1 : SEquiv (pstep q cur)
          (pstep (List.foldl pstep ([], []) (emit st)) cur) :=
        SEquiv_pstep h cur
      rw [show pstep (List.foldl pstep ([], []) (emit st)) cur =
        List.foldl pstep ([], []) (emit st ++ [cur]) from
        (parse_append_one _ _).symm] at h1
      obtain ⟨pp, p, D⟩ := st
      exact SEquiv_trans h1
        (optStep_parse pp p D cur (fun v hv => hmod v (by simp [hv])))

/-- The optimizer rewrites the parse of the token stream up to semantic
equivalence. -/
theorem opt_parse_equiv (ts : List Ops)
    (hmod : ∀ v : Int, Ops.Mod v ∈ ts → wrapI8 v = v) :
    SEquiv (List.foldl pstep ([], []) ts)
           (List.foldl pstep ([], []) (optimizeRun ts)) :=
  opt_fold_SEquiv ts ⟨none, none, []⟩ ([], []) hmod (SEquiv_refl ([], []))

/-! ### Lockstep correspondence between the tree machine and the flat
dispatch loop -/

/-- The flat program contains the word `l` starting at offset `o`. -/
def ContainsAt (P : List Ops) (o : Nat) (l : List Ops) : Prop :=
  ∀ i, i < l.length → P[o + i]? = l[i]?

theorem ContainsAt_nil (P : List Ops) (o : Nat) : ContainsAt P o [] := by
  intro i h
  simp at h

theorem ContainsAt_cons {P : List Ops} {o : Nat} {x : Ops} {l : List Ops} :
    ContainsAt P o (x :: l) ↔ P[o]? = some x ∧ ContainsAt P (o + 1) l := by
  constructor
  · intro h
    constructor
    · have h0 := h 0 (by simp)
      simpa using h0
    · intro i hi
      have := h (i + 1) (by simpa using Nat.succ_lt_succ hi)
      rw [show o + (i + 1) = o + 1 + i from by omega] at this
      simpa using this
  · rintro ⟨h0, h⟩ i hi
    cases i with
    | zero => simpa using h0
    | succ i =>
        rw [show o + (i + 1) = o + 1 + i from by omega]
        have := h i (by simpa using Nat.lt_of_succ_lt_succ hi)
        simpa using this

theorem ContainsAt_append {P : List Ops} {o : Nat} {a b : List Ops} :
    ContainsAt P o (a ++ b) ↔
      ContainsAt P o a ∧ ContainsAt P (o + a.length) b := by
  constructor
  · intro h
    constructor
    · intro i hi
      have := h i (by rw [List.length_append]; omega)
      rwa [List.getElem?_append, if_pos hi] at this
    · intro i hi
      have := h (a.length + i) (by rw [List.length_append]; omega)
      rw [List.getElem?_append_right (by omega)] at this
      rw [show a.length + i - a.length = i from by omega] at this
      rwa [show o + (a.length + i) = o + a.length + i from by omega] at this
  · rintro ⟨ha, hb⟩ i hi
    rw [List.length_append] at hi
    by_cases hia : i < a.length
    · rw [List.getElem?_append, if_pos hia]
      exact ha i hia
    · rw [List.getElem?_append, if_neg hia]
      have := hb (i - a.length) (by omega)
      rwa [show o + a.length + (i - a.length) = o + i from by omega] at this

/-- Well-formed frame stacks: bodies and rests contain no brackets. -/
def wfK : List (List Node × List Node) → Bool
  | [] => true
  | (b, rest) :: K => wfL b && wfL rest && wfK K

/-- The flat layout of a frame stack: at index `e` (the `LoopClose` of the
innermost open loop, or `End` if none) the remaining program matches the
frames. -/
inductive KFrames (P : List Ops) : List (List Node × List Node) → Nat → Prop
  | nil (e : Nat) : P[e]? = some .End → KFrames P [] e
  | cons (b rest : List Node) (K : List (List Node × List Node)) (o : Nat) :
      ContainsAt P (o + 1) (flatL (o + 1) b) →
      P[o]? = some (.LoopOpen (o + 1 + lenL b)) →
      P[o + 1 + lenL b]? = some (.LoopClose o) →
      ContainsAt P (o + 2 + lenL b) (flatL (o + 2 + lenL b) rest) →
      KFrames P K (o + 2 + lenL b + lenL rest) →
      KFrames P ((b, rest) :: K) (o + 1 + lenL b)

/-- The simulation relation: the machine configuration `(c, s)` shows up in
the flat program `P` as the state `t` (same observables, instruction
pointer at the configuration's offset). -/
def TF (P : List Ops) (c : MCfg) (s t : VMState) : Prop :=
  wfL c.1 ∧ wfK c.2 ∧ ∃ o : Nat, t = { s with ip := o } ∧
    ContainsAt P o (flatL o c.1) ∧ KFrames P c.2 (o + lenL c.1)

/-- Decomposition of the layout of `loop b :: C'` at offset `o`. -/
theorem loop_layout {P : List Ops} {o : Nat} {b C' : List Node}
    (hcont : ContainsAt P o (flatL o (.loop b :: C'))) :
    P[o]? = some (.LoopOpen (o + 1 + lenL b)) ∧
    ContainsAt P (o + 1) (flatL (o + 1) b) ∧
    P[o + 1 + lenL b]? = some (.LoopClose o) ∧
    ContainsAt P (o + 2 + lenL b) (flatL (o + 2 + lenL b) C') := by
  rw [show flatL o (.loop b :: C') =
    flatN o (.loop b) ++ flatL (o + lenN (.loop b)) C' from by simp [flatL]]
    at hcont
  obtain ⟨h1, h2⟩ := ContainsAt_append.mp hcont
  rw [show flatN o (.loop b) =
    .LoopOpen (o + lenL b + 1) :: (flatL (o + 1) b ++ [.LoopClose o]) from by
      simp [flatN]] at h1
  obtain ⟨hopen, h1⟩ := ContainsAt_cons.mp h1
  obtain ⟨hbody, h1⟩ := ContainsAt_append.mp h1
  obtain ⟨hclose, -⟩ := ContainsAt_cons.mp h1
  rw [flatL_length] at hclose
  refine ⟨?_, hbody, ?_, ?_⟩
  · rw [show o + 1 + lenL b = o + lenL b + 1 from by omega]
    exact hopen
  · rw [show o + 1 + lenL b = o + 1 + lenL b from rfl]
    rwa [show o + 1 + lenL b = o + 1 + lenL b from rfl] at hclose
  · rw [flatN_length] at h2
    rw [show o + lenN (Node.loop b) = o + 2 + lenL b from by
      simp [lenN]; omega] at h2
    exact h2

/-- Decomposition of the layout of `prim op :: C'` at offset `o`. -/
theorem prim_layout {P : List Ops} {o : Nat} {op : Ops} {C' : List Node}
    (hcont : ContainsAt P o (flatL o (.prim op :: C'))) :
    P[o]? = some op ∧ ContainsAt P (o + 1) (flatL (o + 1) C') := by
  rw [show flatL o (.prim op :: C') =
    flatN o (.prim op) ++ flatL (o + lenN (.prim op)) C' from by simp [flatL]]
    at hcont
  obtain ⟨h1, h2⟩ := ContainsAt_append.mp hcont
  rw [show flatN o (.prim op) = [op] from by simp [flatN]] at h1
  obtain ⟨hop, -⟩ := ContainsAt_cons.mp h1
  refine ⟨hop, ?_⟩
  rw [flatN_length] at h2
  rw [show o + lenN (Node.prim op) = o + 1 from by simp [lenN]] at h2
  exact h2

/-- One continuing machine step is matched by exactly one flat dispatch
step, preserving the simulation relation. -/
theorem TF_step_cont {P : List Ops} {c c' : MCfg} {s s' t : VMState}
    (hTF : TF P c s t) (h : tstep c s = .cont c' s') :
    ∃ t', step P t = .next t' ∧ TF P c' s' t' := by
  obtain ⟨C, K⟩ := c
  obtain ⟨hwC, hwK, o, rfl, hcont, hkf⟩ := hTF
  match C, K with
  | [], [] => cases h
  | [], (b, rest) :: K' =>
      have hkf' : KFrames P ((b, rest) :: K') o := by
        simpa [lenL] using hkf
      have hwb : wfL b := by
        simp [wfK] at hwK
        exact hwK.1.1
      have hwrest : wfL rest := by
        simp [wfK] at hwK
        exact hwK.1.2
      have hwK' : wfK K' := by
        simp [wfK] at hwK
        exact hwK.2
      cases hkf' with
      | cons _ _ _ o' hbody hopen hclose hrest hk =>
          have h' : loopTest b rest K' s = .cont c' s' := h
          unfold loopTest at h'
          by_cases hpos : s.pos < s.memory.length
          · rw [dif_pos hpos] at h'
            by_cases hz : s.memory[s.pos] = 0
            · rw [if_pos hz] at h'
              cases h'
              refine ⟨_, step_LoopClose_eq P { s with ip := o' + 1 + lenL b } o' hclose hpos, ?_⟩
              refine ⟨hwrest, hwK', o' + 1 + lenL b + 1, ?_, ?_, ?_⟩
              · rw [if_neg (by simpa using hz)]
              · rw [show o' + 1 + lenL b + 1 = o' + 2 + lenL b from by omega]
                exact hrest
              · rw [show o' + 1 + lenL b + 1 + lenL rest =
                  o' + 2 + lenL b + lenL rest from by omega]
                exact hk
            · rw [if_neg hz] at h'
              cases h'
              refine ⟨_, step_LoopClose_eq P { s with ip := o' + 1 + lenL b } o' hclose hpos, ?_⟩
              refine ⟨hwb, by simp [wfK, hwb, hwrest, hwK'], o' + 1, ?_, ?_, ?_⟩
              · rw [if_pos (by simpa using hz)]
              · exact hbody
              · exact KFrames.cons b rest K' o' hbody hopen hclose hrest hk
          · rw [dif_neg hpos] at h'
            cases h'
  | .loop b :: C', K =>
      obtain ⟨hopen, hbody, hclose, hrest⟩ := loop_layout hcont
      have hwb : wfL b := by
        simp [wfL, wfN] at hwC
        exact hwC.1
      have hwC' : wfL C' := by
        simp [wfL, wfN] at hwC
        exact hwC.2
      have hkfC : KFrames P K (o + 2 + lenL b + lenL C') := by
        rw [show o + 2 + lenL b + lenL C' = o + lenL (.loop b :: C') from by
          simp [lenL, lenN]; omega]
        exact hkf
      have h' : loopTest b C' K s = .cont c' s' := h
      unfold loopTest at h'
      by_cases hpos : s.pos < s.memory.length
      · rw [dif_pos hpos] at h'
        by_cases hz : s.memory[s.pos] = 0
        · rw [if_pos hz] at h'
          cases h'
          refine ⟨_, step_LoopOpen_eq P { s with ip := o } (o + 1 + lenL b) hopen hpos, ?_⟩
          refine ⟨hwC', hwK, o + 1 + lenL b + 1, ?_, ?_, ?_⟩
          · rw [if_pos (by simpa using hz)]
          · rw [show o + 1 + lenL b + 1 = o + 2 + lenL b from by omega]
            exact hrest
          · rw [show o + 1 + lenL b + 1 + lenL C' =
              o + 2 + lenL b + lenL C' from by omega]
            exact hkfC
        · rw [if_neg hz] at h'
          cases h'
          refine ⟨_, step_LoopOpen_eq P { s with ip := o } (o + 1 + lenL b) hopen hpos, ?_⟩
          refine ⟨hwb, by simp [wfK, hwb, hwC', hwK], o + 1, ?_, ?_, ?_⟩
          · rw [if_neg (by simpa using hz)]
          · exact hbody
          · exact KFrames.cons b C' K o hbody hopen hclose hrest hkfC
      · rw [dif_neg hpos] at h'
        cases h'
  | .prim op :: C', K =>
      obtain ⟨hop, hcont'⟩ := prim_layout hcont
      have hwC' : wfL C' := by
        simp [wfL] at hwC
        exact hwC.2
      have hkf1 : KFrames P K (o + 1 + lenL C') := by
        rw [show o + 1 + lenL C' = o + lenL (.prim op :: C') from by
          simp [lenL, lenN]; omega]
        exact hkf
      match op with
      | .Move v =>
          cases h
          exact ⟨_, step_Move_eq P { s with ip := o } v hop,
            hwC', hwK, o + 1, rfl, hcont', hkf1⟩
      | .Mod v =>
          have h' : (if h : s.pos < s.memory.length then
              MRes.cont (C', K)
                { s with memory := s.memory.set s.pos (wrapI8 (s.memory[s.pos] + v)) }
            else MRes.fault s) = .cont c' s' := h
          by_cases hpos : s.pos < s.memory.length
          · rw [dif_pos hpos] at h'
            cases h'
            exact ⟨_, step_Mod_eq P { s with ip := o } v hop hpos,
              hwC', hwK, o + 1, rfl, hcont', hkf1⟩
          · rw [dif_neg hpos] at h'
            cases h'
      | .SetCell v =>
          have h' : (if h : s.pos < s.memory.length then
              MRes.cont (C', K) { s with memory := s.memory.set s.pos v }
            else MRes.fault s) = .cont c' s' := h
          by_cases hpos : s.pos < s.memory.length
          · rw [dif_pos hpos] at h'
            cases h'
            exact ⟨_, step_SetCell_eq P { s with ip := o } v hop hpos,
              hwC', hwK, o + 1, rfl, hcont', hkf1⟩
          · rw [dif_neg hpos] at h'
            cases h'
      | .SearchZeroCell v =>
          have h' : (if h : s.pos < s.memory.length then
              if s.memory[s.pos] = 0 then MRes.cont (C', K) s
              else MRes.cont (.prim (.SearchZeroCell v) :: C', K)
                { s with pos := wrapPos s.pos v }
            else MRes.fault s) = .cont c' s' := h
          by_cases hpos : s.pos < s.memory.length
          · rw [dif_pos hpos] at h'
            by_cases hz : s.memory[s.pos] = 0
            · rw [if_pos hz] at h'
              cases h'
              exact ⟨_, step_Search_zero P { s with ip := o } v hop hpos hz,
                hwC', hwK, o + 1, rfl, hcont', hkf1⟩
            · rw [if_neg hz] at h'
              cases h'
              exact ⟨_, step_Search_nonzero P { s with ip := o } v hop hpos hz,
                hwC, hwK, o, rfl, hcont, hkf⟩
          · rw [dif_neg hpos] at h'
            cases h'
      | .Print =>
          have h' : (if h : s.pos < s.memory.length then
              MRes.cont (C', K)
                { s with output := s.output ++ [toByte s.memory[s.pos]] }
            else MRes.fault s) = .cont c' s' := h
          by_cases hpos : s.pos < s.memory.length
          · rw [dif_pos hpos] at h'
            cases h'
            exact ⟨_, step_Print_eq P { s with ip := o } hop hpos,
              hwC', hwK, o + 1, rfl, hcont', hkf1⟩
          · rw [dif_neg hpos] at h'
            cases h'
      | .Read =>
          rcases hin : s.inputs with _ | ⟨ch, cs⟩
          · have h' : MRes.fault s = .cont c' s' := by
              rw [show MRes.fault s = tstep (.prim .Read :: C', K) s from by
                show _ = (match s.inputs with
                  | [] => MRes.fault s
                  | c :: cs =>
                      if h : s.pos < s.memory.length then
                        MRes.cont (C', K)
                          { s with memory := s.memory.set s.pos (charToI8 c),
                                   inputs := cs }
                      else MRes.fault { s with inputs := cs })
                rw [hin]]
              exact h
            cases h'
          · have h' : (if h : s.pos < s.memory.length then
                MRes.cont (C', K)
                  { s with memory := s.memory.set s.pos (charToI8 ch),
                           inputs := cs }
              else MRes.fault { s with inputs := cs }) = .cont c' s' := by
              rw [show (if h : s.pos < s.memory.length then
                  MRes.cont (C', K)
                    { s with memory := s.memory.set s.pos (charToI8 ch),
                             inputs := cs }
                else MRes.fault { s with inputs := cs }) =
                  tstep (.prim .Read :: C', K) s from by
                show _ = (match s.inputs with
                  | [] => MRes.fault s
                  | c :: cs =>
                      if h : s.pos < s.memory.length then
                        MRes.cont (C', K)
                          { s with memory := s.memory.set s.pos (charToI8 c),
                                   inputs := cs }
                      else MRes.fault { s with inputs := cs })
                rw [hin]]
              exact h
            by_cases hpos : s.pos < s.memory.length
            · rw [dif_pos hpos] at h'
              cases h'
              exact ⟨_, step_Read_cons P { memory := s.memory, pos := s.pos, ip := o, inputs := ch :: cs, output := s.output } ch cs hop rfl hpos,
                hwC', hwK, o + 1, rfl, hcont', hkf1⟩
            · rw [dif_neg hpos] at h'
              cases h'
      | .LoopOpen e => exact absurd hwC (by simp [wfL, wfN])
      | .LoopClose e => exact absurd hwC (by simp [wfL, wfN])
      | .End => exact absurd hwC (by simp [wfL, wfN])

/-- A finishing machine step is matched by the flat `End` dispatch. -/
theorem TF_step_done {P : List Ops} {c : MCfg} {s s' t : VMState}
    (hTF : TF P c s t) (h : tstep c s = .done s') :
    step P t = .halted t ∧ s' = s := by
  obtain ⟨hc, hs⟩ := tstep_done h
  subst hc
  obtain ⟨-, -, o, rfl, -, hkf⟩ := hTF
  have hkf' : KFrames P [] o := by simpa [lenL] using hkf
  cases hkf' with
  | nil e hE =>
      exact ⟨step_End_eq P { s with ip := o } hE, hs⟩

/-- A faulting machine step is matched by a faulting flat dispatch with the
same observables. -/
theorem TF_step_fault {P : List Ops} {c : MCfg} {s fs t : VMState}
    (hTF : TF P c s t) (h : tstep c s = .fault fs) :
    ∃ tf, step P t = .fault tf ∧ tf.memory = fs.memory ∧ tf.pos = fs.pos ∧
      tf.inputs = fs.inputs ∧ tf.output = fs.output := by
  obtain ⟨C, K⟩ := c
  obtain ⟨hwC, hwK, o, rfl, hcont, hkf⟩ := hTF
  match C, K with
  | [], [] => cases h
  | [], (b, rest) :: K' =>
      have hkf' : KFrames P ((b, rest) :: K') o := by
        simpa [lenL] using hkf
      cases hkf' with
      | cons _ _ _ o' hbody hopen hclose hrest hk =>
          have h' : loopTest b rest K' s = .fault fs := h
          unfold loopTest at h'
          by_cases hpos : s.pos < s.memory.length
          · rw [dif_pos hpos] at h'
            by_cases hz : s.memory[s.pos] = 0
            · rw [if_pos hz] at h'; cases h'
            · rw [if_neg hz] at h'; cases h'
          · rw [dif_neg hpos] at h'
            cases h'
            exact ⟨_, step_LoopClose_oob P { s with ip := o' + 1 + lenL b } o'
              hclose hpos, rfl, rfl, rfl, rfl⟩
  | .loop b :: C', K =>
      obtain ⟨hopen, hbody, hclose, hrest⟩ := loop_layout hcont
      have h' : loopTest b C' K s = .fault fs := h
      unfold loopTest at h'
      by_cases hpos : s.pos < s.memory.length
      · rw [dif_pos hpos] at h'
        by_cases hz : s.memory[s.pos] = 0
        · rw [if_pos hz] at h'; cases h'
        · rw [if_neg hz] at h'; cases h'
      · rw [dif_neg hpos] at h'
        cases h'
        exact ⟨_, step_LoopOpen_oob P { s with ip := o } (o + 1 + lenL b)
          hopen hpos, rfl, rfl, rfl, rfl⟩
  | .prim op :: C', K =>
      obtain ⟨hop, hcont'⟩ := prim_layout hcont
      match op with
      | .Move v => cases h
      | .Mod v =>
          have h' : (if h : s.pos < s.memory.length then
              MRes.cont (C', K)
                { s with memory := s.memory.set s.pos (wrapI8 (s.memory[s.pos] + v)) }
            else MRes.fault s) = .fault fs := h
          by_cases hpos : s.pos < s.memory.length
          · rw [dif_pos hpos] at h'; cases h'
          · rw [dif_neg hpos] at h'
            cases h'
            exact ⟨_, step_Mod_oob P { s with ip := o } v hop hpos,
              rfl, rfl, rfl, rfl⟩
      | .SetCell v =>
          have h' : (if h : s.pos < s.memory.length then
              MRes.cont (C', K) { s with memory := s.memory.set s.pos v }
            else MRes.fault s) = .fault fs := h
          by_cases hpos : s.pos < s.memory.length
          · rw [dif_pos hpos] at h'; cases h'
          · rw [dif_neg hpos] at h'
            cases h'
            exact ⟨_, step_SetCell_oob P { s with ip := o } v hop hpos,
              rfl, rfl, rfl, rfl⟩
      | .SearchZeroCell v =>
          have h' : (if h : s.pos < s.memory.length then
              if s.memory[s.pos] = 0 then MRes.cont (C', K) s
              else MRes.cont (.prim (.SearchZeroCell v) :: C', K)
                { s with pos := wrapPos s.pos v }
            else MRes.fault s) = .fault fs := h
          by_cases hpos : s.pos < s.memory.length
          · rw [dif_pos hpos] at h'
            by_cases hz : s.memory[s.pos] = 0
            · rw [if_pos hz] at h'; cases h'
            · rw [if_neg hz] at h'; cases h'
          · rw [dif_neg hpos] at h'
            cases h'
            exact ⟨_, step_Search_oob P { s with ip := o } v hop hpos,
              rfl, rfl, rfl, rfl⟩
      | .Print =>
          have h' : (if h : s.pos < s.memory.length then
              MRes.cont (C', K)
                { s with output := s.output ++ [toByte s.memory[s.pos]] }
            else MRes.fault s) = .fault fs := h
          by_cases hpos : s.pos < s.memory.length
          · rw [dif_pos hpos] at h'; cases h'
          · rw [dif_neg hpos] at h'
            cases h'
            exact ⟨_, step_Print_oob P { s with ip := o } hop hpos,
              rfl, rfl, rfl, rfl⟩
      | .Read =>
          rcases hin : s.inputs with _ | ⟨ch, cs⟩
          · have h' : MRes.fault s = .fault fs := by
              rw [show MRes.fault s = tstep (.prim .Read :: C', K) s from by
                show _ = (match s.inputs with
                  | [] => MRes.fault s
                  | c :: cs =>
                      if h : s.pos < s.memory.length then
                        MRes.cont (C', K)
                          { s with memory := s.memory.set s.pos (charToI8 c),
                                   inputs := cs }
                      else MRes.fault { s with inputs := cs })
                rw [hin]]
              exact h
            cases h'
            refine ⟨_, step_Read_nil P { memory := s.memory, pos := s.pos, ip := o, inputs := [], output := s.output } hop rfl, rfl, rfl, ?_, rfl⟩
            exact hin.symm
          · have h' : (if h : s.pos < s.memory.length then
                MRes.cont (C', K)
                  { s with memory := s.memory.set s.pos (charToI8 ch),
                           inputs := cs }
              else MRes.fault { s with inputs := cs }) = .fault fs := by
              rw [show (if h : s.pos < s.memory.length then
                  MRes.cont (C', K)
                    { s with memory := s.memory.set s.pos (charToI8 ch),
                             inputs := cs }
                else MRes.fault { s with inputs := cs }) =
                  tstep (.prim .Read :: C', K) s from by
                show _ = (match s.inputs with
                  | [] => MRes.fault s
                  | c :: cs =>
                      if h : s.pos < s.memory.length then
                        MRes.cont (C', K)
                          { s with memory := s.memory.set s.pos (charToI8 c),
                                   inputs := cs }
                      else MRes.fault { s with inputs := cs })
                rw [hin]]
              exact h
            by_cases hpos : s.pos < s.memory.length
            · rw [dif_pos hpos] at h'; cases h'
            · rw [dif_neg hpos] at h'
              cases h'
              exact ⟨_, step_Read_cons_oob P { memory := s.memory, pos := s.pos, ip := o, inputs := ch :: cs, output := s.output } ch cs hop rfl hpos, rfl, rfl, rfl, rfl⟩
      | .LoopOpen e => exact absurd hwC (by simp [wfL, wfN])
      | .LoopClose e => exact absurd hwC (by simp [wfL, wfN])
      | .End => exact absurd hwC (by simp [wfL, wfN])

/-- Identical observables (everything except the instruction pointer). -/
def obsMatch (s t : VMState) : Prop :=
  t.memory = s.memory ∧ t.pos = s.pos ∧ t.inputs = s.inputs ∧
  t.output = s.output

/-- A tree-machine result and a flat run result agree in kind and
observables. -/
def TRRel : TRes → RunRes → Prop
  | .ok s, .halted t => obsMatch s t
  | .fault s, .fault t => obsMatch s t
  | .timeout s, .timeout t => obsMatch s t
  | _, _ => False

/-- For every fuel, the tree machine and the flat dispatch loop produce
results of the same kind with the same observables. -/
theorem mrun_run_match : ∀ (fuel : Nat) {P : List Ops} {c : MCfg}
    {s t : VMState}, TF P c s t → TRRel (mrun fuel c s) (run P t fuel)
  | 0, P, c, s, t, hTF => by
      obtain ⟨-, -, o, rfl, -, -⟩ := hTF
      exact ⟨rfl, rfl, rfl, rfl⟩
  | fuel + 1, P, c, s, t, hTF => by
      rw [mrun_succ, run_succ]
      rcases hts : tstep c s with ⟨c1, s1⟩ | s1 | s1
      · obtain ⟨t1, hstep, hTF1⟩ := TF_step_cont hTF hts
        rw [hstep]
        simp only
        exact mrun_run_match fuel hTF1
      · obtain ⟨hstep, rfl⟩ := TF_step_done hTF hts
        rw [hstep]
        simp only
        obtain ⟨-, -, o, rfl, -, -⟩ := hTF
        exact ⟨rfl, rfl, rfl, rfl⟩
      · obtain ⟨tf, hstep, h1, h2, h3, h4⟩ := TF_step_fault hTF hts
        rw [hstep]
        simp only
        exact ⟨h1, h2, h3, h4⟩

/-- The program halts on the given input with the given output bytes. -/
def HaltsWith (P : List Ops) (inputs : List Char) (out : List Nat) : Prop :=
  ∃ fuel s, run P (initState inputs) fuel = .halted s ∧ s.output = out

/-- The program aborts on the given input having emitted the given output
bytes. -/
def FaultsWith (P : List Ops) (inputs : List Char) (out : List Nat) : Prop :=
  ∃ fuel s, run P (initState inputs) fuel = .fault s ∧ s.output = out

/-- The program runs forever on the given input. -/
def Diverges (P : List Ops) (inputs : List Char) : Prop :=
  ∀ fuel, ∃ s, run P (initState inputs) fuel = .timeout s

/-- The initial simulation relation for a tree laid out flat. -/
theorem TF_init (T : List Node) (hwf : wfL T) (inputs : List Char) :
    TF (flatL 0 T ++ [.End]) (T, []) (initState inputs) (initState inputs) := by
  refine ⟨hwf, rfl, 0, rfl, ?_, ?_⟩
  · show ContainsAt (flatL 0 T ++ [.End]) 0 (flatL 0 T)
    intro i hi
    rw [show 0 + i = i from by omega]
    rw [List.getElem?_append, if_pos (by rw [flatL_length] at hi ⊢; omega)]
  · show KFrames (flatL 0 T ++ [.End]) [] (0 + lenL T)
    refine KFrames.nil _ ?_
    rw [show 0 + lenL T = (flatL 0 T).length from by rw [flatL_length]; omega]
    rw [List.getElem?_append_right (le_refl _)]
    simp

/-- Behaviour of the flat layout of a tree, in terms of big-step tree
convergence. -/
theorem flat_behavior (T : List Node) (hwf : wfL T) (inputs : List Char) :
    (∀ out, HaltsWith (flatL 0 T ++ [.End]) inputs out ↔
      (∃ s', CL T (initState inputs) (.ok s') ∧ s'.output = out)) ∧
    (∀ out, FaultsWith (flatL 0 T ++ [.End]) inputs out ↔
      (∃ fs, CL T (initState inputs) (.fault fs) ∧ fs.output = out)) ∧
    (Diverges (flatL 0 T ++ [.End]) inputs ↔
      ∀ r, ¬ CL T (initState inputs) r) := by
  have hTF0 := TF_init T hwf inputs
  refine ⟨?_, ?_, ?_⟩
  · intro out
    constructor
    · rintro ⟨fuel, sf, hrun, hout⟩
      have hm := mrun_run_match fuel hTF0
      rw [hrun] at hm
      rcases hmr : mrun fuel (T, []) (initState inputs) with s' | s' | s' <;>
        rw [hmr] at hm
      · refine ⟨s', (CL_iff_mrun T (initState inputs) (TRes.ok s') trivial).mpr ⟨fuel, hmr⟩, ?_⟩
        rw [← hout]
        exact hm.2.2.2.symm
      · cases hm
      · cases hm
    · rintro ⟨s', hCL, hout⟩
      obtain ⟨fuel, hmr⟩ := (CL_iff_mrun T (initState inputs) (TRes.ok s') trivial).mp hCL
      have hm := mrun_run_match fuel hTF0
      rw [hmr] at hm
      rcases hrun : run (flatL 0 T ++ [.End]) (initState inputs) fuel
        with t | t | t <;> rw [hrun] at hm
      · exact ⟨fuel, t, hrun, by rw [hm.2.2.2, hout]⟩
      · cases hm
      · cases hm
  · intro out
    constructor
    · rintro ⟨fuel, sf, hrun, hout⟩
      have hm := mrun_run_match fuel hTF0
      rw [hrun] at hm
      rcases hmr : mrun fuel (T, []) (initState inputs) with s' | s' | s' <;>
        rw [hmr] at hm
      · cases hm
      · refine ⟨s', (CL_iff_mrun T (initState inputs) (TRes.fault s') trivial).mpr ⟨fuel, hmr⟩, ?_⟩
        rw [← hout]
        exact hm.2.2.2.symm
      · cases hm
    · rintro ⟨fs, hCL, hout⟩
      obtain ⟨fuel, hmr⟩ := (CL_iff_mrun T (initState inputs) (TRes.fault fs) trivial).mp hCL
      have hm := mrun_run_match fuel hTF0
      rw [hmr] at hm
      rcases hrun : run (flatL 0 T ++ [.End]) (initState inputs) fuel
        with t | t | t <;> rw [hrun] at hm
      · cases hm
      · exact ⟨fuel, t, hrun, by rw [hm.2.2.2, hout]⟩
      · cases hm
  · constructor
    · intro hdiv r hCL
      obtain ⟨hc, f, hrl⟩ := hCL
      have hmr : ∃ fuel, mrun fuel (T, []) (initState inputs) = r :=
        (CL_iff_mrun T _ r hc).mp ⟨hc, f, hrl⟩
      obtain ⟨fuel, hmr⟩ := hmr
      have hm := mrun_run_match fuel hTF0
      rw [hmr] at hm
      obtain ⟨st, hto⟩ := hdiv fuel
      rw [hto] at hm
      rcases r with s' | s' | s'
      · cases hm
      · cases hm
      · exact hc
    · intro hnc fuel
      have hm := mrun_run_match fuel hTF0
      rcases hmr : mrun fuel (T, []) (initState inputs) with s' | s' | s' <;>
        rw [hmr] at hm
      · exact absurd ((CL_iff_mrun T (initState inputs) (TRes.ok s') trivial).mpr ⟨fuel, hmr⟩) (hnc _)
      · exact absurd ((CL_iff_mrun T (initState inputs) (TRes.fault s') trivial).mpr ⟨fuel, hmr⟩) (hnc _)
      · rcases hrun : run (flatL 0 T ++ [.End]) (initState inputs) fuel
          with t | t | t <;> rw [hrun] at hm
        · cases hm
        · cases hm
        · exact ⟨t, hrun⟩

/-! ### Assembling claim C1 -/

theorem token?_tokWf (c : Char) (op : Ops) (h : token? c = some op) :
    tokWf op := by
  unfold token? at h
  split_ifs at h <;> cases h <;> rfl

theorem tokens_tokWf (source : List Char) :
    ∀ op ∈ source.filterMap token?, tokWf op := by
  intro op hop
  obtain ⟨c, -, hc⟩ := List.mem_filterMap.mp hop
  exact token?_tokWf c op hc

theorem token?_mod (c : Char) (v : Int) (h : token? c = some (.Mod v)) :
    wrapI8 v = v := by
  unfold token? at h
  split_ifs at h <;> cases h <;> decide

theorem tokens_mod (source : List Char) :
    ∀ v : Int, Ops.Mod v ∈ source.filterMap token? → wrapI8 v = v := by
  intro v hv
  obtain ⟨c, -, hc⟩ := List.mem_filterMap.mp hv
  exact token?_mod c v hc

theorem resolveFrom_ok_scan (l : List Ops) (P : List Ops)
    (h : resolveFrom l 0 [] = .ok P) : scanBrk (brks l) 0 = some 0 := by
  have hs := resolveGo_scan l.length l 0 [] (by omega) (by simp)
  unfold resolveFrom at h
  rw [show l.length - 0 = l.length from by omega] at h
  have hdrop : l.drop 0 = l := List.drop_zero l
  rcases hscan : scanBrk (brks l) 0 with _ | k
  · exfalso
    have hbad := hs.1 (by rw [hdrop]; simpa using hscan)
    rw [hbad] at h
    cases h
  · cases k with
    | zero => rfl
    | succ k =>
        exfalso
        have hbad := hs.2.2 k (by rw [hdrop]; simpa using hscan)
        rw [hbad] at h
        cases h

/-- C1: the peephole optimizer is transparent.  Whenever `compile`
succeeds, the naive one-token-per-operation translation of the same source
also succeeds, and running the optimized program has exactly the same
observable behaviour as running the naive one on every input: it halts with
the same output, aborts with the same output, or diverges, in matching
cases. -/
theorem C1_optimizer_transparency (source : List Char) (PO : List Ops)
    (h : compile source = .ok PO) :
    ∃ PN, naiveCompile source = .ok PN ∧
      ∀ inputs : List Char,
        (∀ out, HaltsWith PN inputs out ↔ HaltsWith PO inputs out) ∧
        (∀ out, FaultsWith PN inputs out ↔ FaultsWith PO inputs out) ∧
        (Diverges PN inputs ↔ Diverges PO inputs) := by
  have hscanO : scanBrk (brks (optimizeRun (source.filterMap token?))) 0 =
      some 0 := by
    refine resolveFrom_ok_scan _ PO ?_
    unfold compile at h
    exact h
  have hscanN : scanBrk (brks (source.filterMap token?)) 0 = some 0 := by
    rw [← scan_optimizeRun]
    exact hscanO
  obtain ⟨TN, hfoldN, hwfTN, hdetN⟩ :=
    parse_tokens _ (tokens_tokWf source) hscanN
  obtain ⟨TO, hfoldO, hwfTO, hdetO⟩ :=
    parse_tokens _ (optimizeRun_tokWf _ (tokens_tokWf source)) hscanO
  have hPN : naiveCompile source = .ok (flatL 0 TN ++ [.End]) := by
    unfold naiveCompile
    rw [← hdetN]
    exact resolve_detok TN hwfTN
  have hPO : compile source = .ok (flatL 0 TO ++ [.End]) := by
    unfold compile
    rw [← hdetO]
    exact resolve_detok TO hwfTO
  have hPOeq : PO = flatL 0 TO ++ [.End] :=
    Except.ok.inj (h.symm.trans hPO)
  have hequiv : TEquiv TN TO := by
    have hse := opt_parse_equiv (source.filterMap token?) (tokens_mod source)
    rw [hfoldN, hfoldO] at hse
    exact hse.1
  refine ⟨flatL 0 TN ++ [.End], hPN, ?_⟩
  intro inputs
  obtain ⟨hHN, hFN, hDN⟩ := flat_behavior TN hwfTN inputs
  obtain ⟨hHO, hFO, hDO⟩ := flat_behavior TO hwfTO inputs
  subst hPOeq
  refine ⟨?_, ?_, ?_⟩
  · intro out
    rw [hHN out, hHO out]
    constructor
    · rintro ⟨s', hCL, hout⟩
      exact ⟨s', (hequiv _ _).mp hCL, hout⟩
    · rintro ⟨s', hCL, hout⟩
      exact ⟨s', (hequiv _ _).mpr hCL, hout⟩
  · intro out
    rw [hFN out, hFO out]
    constructor
    · rintro ⟨fs, hCL, hout⟩
      exact ⟨fs, (hequiv _ _).mp hCL, hout⟩
    · rintro ⟨fs, hCL, hout⟩
      exact ⟨fs, (hequiv _ _).mpr hCL, hout⟩
  · rw [hDN, hDO]
    constructor
    · intro hq r hCL
      exact hq r ((hequiv _ _).mpr hCL)
    · intro hq r hCL
      exact hq r ((hequiv _ _).mp hCL)

/-- Witness for C1 at the concrete source `"+-"`. -/
theorem C1_witness :
    compile ['+', '-'] = .ok [Ops.Mod 0, Ops.End] ∧
      (∃ PN, naiveCompile ['+', '-'] = .ok PN ∧
        ∀ inputs : List Char,
          (∀ out, HaltsWith PN inputs out ↔
            HaltsWith [Ops.Mod 0, Ops.End] inputs out) ∧
          (∀ out, FaultsWith PN inputs out ↔
            FaultsWith [Ops.Mod 0, Ops.End] inputs out) ∧
          (Diverges PN inputs ↔ Diverges [Ops.Mod 0, Ops.End] inputs)) :=
  ⟨rfl, C1_optimizer_transparency ['+', '-'] [Ops.Mod 0, Ops.End] rfl⟩

end BF
